import Mathlib

set_option maxHeartbeats 1000000

/-!
Verification development for the pology ascription engine
(`scripts/poascribe.py`): the field-separator codec, the history
reconstructor, the ascription writer and the selector combinator.

Strings are modelled as `List Char` (`Str`), so that the cursor
arithmetic of the codec (`str.find`, slicing, `split`, `strip`) can be
modelled exactly and reasoned about by induction.
-/

namespace Pology

abbrev Str := List Char

/-- Python `sub in s`: substring containment. -/
def containsSub (sub s : Str) : Bool :=
  match s with
  | [] => sub.isEmpty
  | _ :: rest => sub.isPrefixOf s || containsSub sub rest

/-- First index at which `sub` occurs in `s`, if any. -/
def findSub (s sub : Str) : Option Nat :=
  match s with
  | [] => if sub.isEmpty then some 0 else none
  | _ :: rest => if sub.isPrefixOf s then some 0 else (findSub rest sub).map (· + 1)

/-- Python `s.find(sub, start)` (`-1` when absent; negative `start` counts
from the end, as in Python). Never used with an empty `sub`. -/
def pyFind (s sub : Str) (start : Int) : Int :=
  let start' : Nat := if start < 0 then ((s.length : Int) + start).toNat else start.toNat
  match findSub (s.drop start') sub with
  | some k => ((start' + k : Nat) : Int)
  | none => -1

/-- Clamp a Python slice index to `0..len`. -/
def sliceIdx (len : Nat) (i : Int) : Nat :=
  if i < 0 then ((len : Int) + i).toNat else min i.toNat len

/-- Python `s[i:j]`. -/
def pySlice (s : Str) (i j : Int) : Str :=
  (s.take (sliceIdx s.length j)).drop (sliceIdx s.length i)

/-- Python `s.split(c)` for a one-character separator (splits on every
occurrence; `"".split(c) = [""]`). -/
def splitOnChar (c : Char) : Str → List Str
  | [] => [[]]
  | x :: rest =>
    let r := splitOnChar c rest
    if x = c then [] :: r
    else
      match r with
      | [] => [[x]]
      | h :: t => (x :: h) :: t

/-- Python `s.split(c, 1)`: split on the first occurrence only. -/
def splitOnceChar (c : Char) : Str → Str × Option Str
  | [] => ([], none)
  | x :: rest =>
    if x = c then ([], some rest)
    else
      let p := splitOnceChar c rest
      (x :: p.1, p.2)

/-- Python `"\n".join`. -/
def joinWithNL : List Str → Str
  | [] => []
  | [x] => x
  | x :: rest => x ++ '\n' :: joinWithNL rest

def trimLeftW (s : Str) : Str := s.dropWhile Char.isWhitespace

def trimRightW (s : Str) : Str := (s.reverse.dropWhile Char.isWhitespace).reverse

/-- Python `s.strip()`. -/
def pyStrip (s : Str) : Str := trimRightW (trimLeftW s)

/-- Python `s.replace(c, "", 1)` for a one-character pattern. -/
def removeFirstChar (c : Char) : Str → Str
  | [] => []
  | x :: rest => if x = c then rest else x :: removeFirstChar c rest

def digitChar (n : Nat) : Char := Char.ofNat (48 + n)

def natReprAux : Nat → Nat → Str
  | 0, _ => []
  | fuel + 1, n =>
    if n < 10 then [digitChar n]
    else natReprAux fuel (n / 10) ++ [digitChar (n % 10)]

/-- Decimal rendering of a natural number. -/
def natRepr (n : Nat) : Str := natReprAux (n + 1) n

def digitVal (c : Char) : Nat := c.toNat - 48

def digitsVal (s : Str) : Nat := s.foldl (fun a c => 10 * a + digitVal c) 0

/-- Python `int(s)` restricted to non-empty all-digit strings (the only
shape this code base ever feeds it on the paths under study); other
shapes are rejected (`none` models the `ValueError`). -/
def strToNatQ (s : Str) : Option Nat :=
  if s ≠ [] ∧ s.all Char.isDigit then some (digitsVal s) else none

/-! ### Lemmas about the primitives -/

theorem isPrefixOf_eq_true_iff {l₁ l₂ : Str} :
    l₁.isPrefixOf l₂ = true ↔ l₁ <+: l₂ := by
  exact List.isPrefixOf_iff_prefix

theorem findSub_first {s m : Str} {k : Nat}
    (hk : m <+: s.drop k)
    (hmin : ∀ j, j < k → ¬ m <+: s.drop j) :
    findSub s m = some k := by
  induction s generalizing k with
  | nil =>
    simp only [List.drop_nil] at hk
    have hm : m = [] := List.prefix_nil.mp hk
    subst hm
    have : k = 0 := by
      by_contra h
      exact (hmin 0 (Nat.pos_of_ne_zero h)) (by simp)
    subst this
    simp [findSub]
  | cons x rest ih =>
    cases k with
    | zero =>
      simp only [List.drop_zero] at hk
      simp [findSub, isPrefixOf_eq_true_iff.mpr hk]
    | succ k' =>
      have hnot : ¬ m <+: (x :: rest) := by simpa using hmin 0 (Nat.succ_pos _)
      have h1 : (m.isPrefixOf (x :: rest)) = false := by
        rw [Bool.eq_false_iff]
        intro hc
        exact hnot (isPrefixOf_eq_true_iff.mp hc)
      have h2 : findSub rest m = some k' := by
        apply ih
        · simpa using hk
        · intro j hj
          have := hmin (j + 1) (by omega)
          simpa using this
      simp [findSub, h1, h2]

theorem findSub_none {s m : Str}
    (h : ∀ j, ¬ m <+: s.drop j) : findSub s m = none := by
  induction s with
  | nil =>
    have := h 0
    cases m with
    | nil => simp at this
    | cons c t => simp [findSub]
  | cons x rest ih =>
    have h0 : ¬ m <+: (x :: rest) := by simpa using h 0
    have h1 : (m.isPrefixOf (x :: rest)) = false := by
      rw [Bool.eq_false_iff]
      intro hc
      exact h0 (isPrefixOf_eq_true_iff.mp hc)
    have h2 : findSub rest m = none := by
      apply ih
      intro j
      simpa using h (j + 1)
    simp [findSub, h1, h2]

theorem containsSub_iff {sub s : Str} :
    containsSub sub s = true ↔ ∃ j, sub <+: s.drop j := by
  induction s with
  | nil =>
    simp only [containsSub, List.isEmpty_iff]
    constructor
    · intro h; exact ⟨0, by simp [h]⟩
    · rintro ⟨j, hj⟩
      simp only [List.drop_nil] at hj
      exact List.prefix_nil.mp hj
  | cons x rest ih =>
    simp only [containsSub, Bool.or_eq_true, isPrefixOf_eq_true_iff, ih]
    constructor
    · rintro (h | ⟨j, hj⟩)
      · exact ⟨0, by simpa using h⟩
      · exact ⟨j + 1, by simpa using hj⟩
    · rintro ⟨j, hj⟩
      cases j with
      | zero => exact Or.inl (by simpa using hj)
      | succ j' => exact Or.inr ⟨j', by simpa using hj⟩

theorem containsSub_length_le {sub s : Str} (h : containsSub sub s = true) :
    sub.length ≤ s.length := by
  obtain ⟨j, hj⟩ := containsSub_iff.mp h
  calc sub.length ≤ (s.drop j).length := hj.length_le
    _ ≤ s.length := by simp

theorem natReprAux_mem {fuel n : Nat} {c : Char} (h : c ∈ natReprAux fuel n) :
    ∃ d, d < 10 ∧ c = digitChar d := by
  induction fuel generalizing n with
  | zero => simp [natReprAux] at h
  | succ fuel ih =>
    by_cases hn : n < 10
    · simp only [natReprAux, if_pos hn, List.mem_singleton] at h
      exact ⟨n, hn, h⟩
    · simp only [natReprAux, if_neg hn, List.mem_append, List.mem_singleton] at h
      rcases h with h | h
      · exact ih h
      · exact ⟨n % 10, Nat.mod_lt _ (by norm_num), h⟩

theorem digitChar_isDigit {n : Nat} (h : n < 10) : (digitChar n).isDigit = true := by
  interval_cases n <;> decide

theorem natReprAux_spec {fuel n : Nat} (h : n < fuel) :
    natReprAux fuel n ≠ [] ∧
    ∀ acc, (natReprAux fuel n).foldl (fun a c => 10 * a + digitVal c) acc =
      acc * 10 ^ (natReprAux fuel n).length + n := by
  induction fuel generalizing n with
  | zero => omega
  | succ fuel ih =>
    by_cases hn : n < 10
    · refine ⟨by simp [natReprAux, hn], fun acc => ?_⟩
      have hd : digitVal (digitChar n) = n := by interval_cases n <;> decide
      simp [natReprAux, hn, hd]
      ring
    · have hlt : n / 10 < fuel := by
        have h1 : n / 10 < n := Nat.div_lt_self (by omega) (by norm_num)
        omega
      obtain ⟨hne, hval⟩ := ih hlt
      refine ⟨by simp [natReprAux, hn], fun acc => ?_⟩
      have hd : digitVal (digitChar (n % 10)) = n % 10 := by
        have := Nat.mod_lt n (show 0 < 10 by norm_num)
        interval_cases h : n % 10 <;> decide
      simp only [natReprAux, if_neg hn, List.foldl_append, List.foldl_cons,
        List.foldl_nil, hval, List.length_append, List.length_singleton]
      rw [hd]
      have : 10 ^ ((natReprAux fuel (n / 10)).length + 1) =
          10 ^ (natReprAux fuel (n / 10)).length * 10 := by ring
      rw [this]
      have := Nat.div_add_mod n 10
      ring_nf
      omega

theorem natRepr_ne_nil (n : Nat) : natRepr n ≠ [] :=
  (natReprAux_spec (Nat.lt_succ_self n)).1

theorem natRepr_mem {n : Nat} {c : Char} (h : c ∈ natRepr n) :
    ∃ d, d < 10 ∧ c = digitChar d := natReprAux_mem h

theorem natRepr_all_digit (n : Nat) : (natRepr n).all Char.isDigit = true := by
  rw [List.all_eq_true]
  intro c hc
  obtain ⟨d, hd, rfl⟩ := natRepr_mem hc
  exact digitChar_isDigit hd

theorem digitsVal_natRepr (n : Nat) : digitsVal (natRepr n) = n := by
  have := (natReprAux_spec (Nat.lt_succ_self n)).2 0
  simpa [digitsVal, natRepr] using this

theorem strToNatQ_natRepr (n : Nat) : strToNatQ (natRepr n) = some n := by
  simp [strToNatQ, natRepr_ne_nil, natRepr_all_digit, digitsVal_natRepr]

theorem digitChar_not_special {d : Nat} (h : d < 10) :
    digitChar d ≠ '|' ∧ digitChar d ≠ '\n' ∧ digitChar d ≠ ':' ∧
    digitChar d ≠ 'f' ∧ digitChar d ≠ 'o' ∧ (digitChar d).isWhitespace = false := by
  interval_cases d <;> decide

/-! ### `splitOnChar` / `joinWithNL` -/

theorem splitOnChar_ne_nil {c : Char} {s : Str} : splitOnChar c s ≠ [] := by
  cases s with
  | nil => simp [splitOnChar]
  | cons x rest =>
    simp only [splitOnChar]
    split
    · simp
    · split <;> simp

theorem joinWithNL_splitOnChar (s : Str) : joinWithNL (splitOnChar '\n' s) = s := by
  induction s with
  | nil => simp [splitOnChar, joinWithNL]
  | cons x rest ih =>
    by_cases hx : x = '\n'
    · subst hx
      have hsp : splitOnChar '\n' ('\n' :: rest) = [] :: splitOnChar '\n' rest := by
        simp [splitOnChar]
      rw [hsp]
      cases h : splitOnChar '\n' rest with
      | nil => exact absurd h splitOnChar_ne_nil
      | cons a t =>
        have hj : joinWithNL ([] :: a :: t) = '\n' :: joinWithNL (a :: t) := rfl
        rw [hj, ← h, ih]
    · cases h : splitOnChar '\n' rest with
      | nil => exact absurd h splitOnChar_ne_nil
      | cons a t =>
        have hsp : splitOnChar '\n' (x :: rest) = (x :: a) :: t := by
          simp [splitOnChar, hx, h]
        rw [hsp]
        cases t with
        | nil =>
          have h2 : joinWithNL [a] = rest := by rw [← h]; exact ih
          simp only [joinWithNL] at h2
          simp [joinWithNL, h2]
        | cons b t' =>
          have h2 : joinWithNL (a :: b :: t') = rest := by rw [← h]; exact ih
          have hj : joinWithNL ((x :: a) :: b :: t') =
              (x :: a) ++ '\n' :: joinWithNL (b :: t') := rfl
          have hj2 : joinWithNL (a :: b :: t') = a ++ '\n' :: joinWithNL (b :: t') := rfl
          rw [hj2] at h2
          rw [hj, ← h2]
          simp

theorem splitOnChar_no_sep {c : Char} {s : Str} (h : c ∉ s) :
    splitOnChar c s = [s] := by
  induction s with
  | nil => simp [splitOnChar]
  | cons x rest ih =>
    simp only [List.mem_cons, not_or] at h
    have h1 : ¬ x = c := fun hc => h.1 (by rw [hc])
    simp only [splitOnChar, if_neg h1, ih h.2]

theorem splitOnChar_append {c : Char} {a b : Str} (h : c ∉ a) :
    splitOnChar c (a ++ c :: b) = a :: splitOnChar c b := by
  induction a with
  | nil => simp [splitOnChar]
  | cons x rest ih =>
    simp only [List.mem_cons, not_or] at h
    have h1 : ¬ x = c := fun hc => h.1 (by rw [hc])
    simp [splitOnChar, h1, ih h.2]

theorem splitOnChar_joinWithNL {l : List Str} (hne : l ≠ [])
    (h : ∀ x ∈ l, '\n' ∉ x) : splitOnChar '\n' (joinWithNL l) = l := by
  induction l with
  | nil => exact absurd rfl hne
  | cons x rest ih =>
    cases rest with
    | nil =>
      simp only [joinWithNL]
      exact splitOnChar_no_sep (h x (by simp))
    | cons y t =>
      have hj : joinWithNL (x :: y :: t) = x ++ '\n' :: joinWithNL (y :: t) := rfl
      rw [hj, splitOnChar_append (h x (by simp))]
      rw [ih (by simp) (fun z hz => h z (by simp [hz]))]

/-! ### `pyStrip` -/

theorem trimLeftW_id {s : Str} (h : s.head?.all (fun c => !c.isWhitespace) = true) :
    trimLeftW s = s := by
  cases s with
  | nil => rfl
  | cons x rest =>
    simp only [List.head?_cons, Option.all_some, Bool.not_eq_true'] at h
    simp [trimLeftW, List.dropWhile, h]

theorem trimRightW_id {s : Str} (h : s.getLast?.all (fun c => !c.isWhitespace) = true) :
    trimRightW s = s := by
  unfold trimRightW
  rw [← List.head?_reverse] at h
  have hdw : List.dropWhile Char.isWhitespace s.reverse = s.reverse := by
    cases hs : s.reverse with
    | nil => rfl
    | cons x rest =>
      rw [hs] at h
      simp only [List.head?_cons, Option.all_some, Bool.not_eq_true'] at h
      exact List.dropWhile_cons_of_neg (by simp [h])
  rw [hdw, List.reverse_reverse]

theorem pyStrip_id {s : Str} (h1 : s.head?.all (fun c => !c.isWhitespace) = true)
    (h2 : s.getLast?.all (fun c => !c.isWhitespace) = true) :
    pyStrip s = s := by
  rw [pyStrip, trimLeftW_id h1, trimRightW_id h2]

theorem trimLeftW_cons_space (s : Str) : trimLeftW (' ' :: s) = trimLeftW s := by
  simp [trimLeftW, List.dropWhile]

theorem trimRightW_append_space (s : Str) :
    trimRightW (s ++ [' ']) = trimRightW s := by
  unfold trimRightW
  rw [List.reverse_append]
  simp [List.dropWhile]

theorem pyStrip_spaced (u : Str) : pyStrip (' ' :: (u ++ [' '])) = pyStrip u := by
  unfold pyStrip
  rw [trimLeftW_cons_space]
  have : trimLeftW (u ++ [' ']) = trimLeftW u ++ [' '] ∨
      (trimLeftW (u ++ [' ']) = trimLeftW [' '] ∧ trimLeftW u = []) := by
    induction u with
    | nil => right; simp [trimLeftW]
    | cons x rest ih =>
      by_cases hx : x.isWhitespace
      · rcases ih with ih | ih
        · left
          simp only [List.cons_append, trimLeftW, List.dropWhile_cons_of_pos hx] at *
          exact ih
        · right
          constructor
          · simp only [List.cons_append, trimLeftW, List.dropWhile_cons_of_pos hx] at *
            exact ih.1
          · simp only [trimLeftW, List.dropWhile_cons_of_pos hx] at *
            exact ih.2
      · left
        simp [trimLeftW, List.dropWhile_cons_of_neg hx]
  rcases this with h | ⟨h1, h2⟩
  · rw [h, trimRightW_append_space]
  · rw [h1, h2]
    simp [trimLeftW, trimRightW, List.dropWhile]

theorem pyStrip_cons_space (u : Str) : pyStrip (' ' :: u) = pyStrip u := by
  unfold pyStrip
  rw [trimLeftW_cons_space]

/-! ### First-occurrence lemmas for the separator marker -/

theorem findSub_char {c : Char} {a b : Str} (h : c ∉ a) :
    findSub (a ++ c :: b) [c] = some a.length := by
  apply findSub_first
  · rw [List.drop_left]
    simp
  · intro j hj hpre
    obtain ⟨t, ht⟩ := hpre
    have h0 : (List.drop j (a ++ c :: b))[0]? = some c := by
      rw [← ht]; simp
    rw [List.getElem?_drop, Nat.add_zero, List.getElem?_append_left hj] at h0
    exact h (List.getElem?_mem h0)

theorem findSub_char_none {c : Char} {s : Str} (h : c ∉ s) :
    findSub s [c] = none := by
  apply findSub_none
  intro j hpre
  obtain ⟨t, ht⟩ := hpre
  have h0 : (List.drop j s)[0]? = some c := by rw [← ht]; simp
  rw [List.getElem?_drop, Nat.add_zero] at h0
  exact h (List.getElem?_mem h0)

theorem findSub_self_pre {m rest : Str} : findSub (m ++ rest) m = some 0 :=
  findSub_first (by simp) (by omega)

/-- The separator marker: head token `|` followed by `length` copies of
the extension token `~` (`field_separator_head` in the source). -/
def field_separator_head (length : Nat) : Str := '|' :: List.replicate length '~'

theorem field_separator_head_length (L : Nat) :
    (field_separator_head L).length = L + 1 := by
  simp [field_separator_head]

theorem mem_field_separator_head {c : Char} {L : Nat}
    (h : c ∈ field_separator_head L) : c = '|' ∨ c = '~' := by
  simp only [field_separator_head, List.mem_cons] at h
  rcases h with h | h
  · exact Or.inl h
  · exact Or.inr (List.eq_of_mem_replicate h)

/-- In `value ++ marker ++ tail`, if the marker does not occur inside the
value, then the first occurrence of the marker is exactly at the end of
the value: the marker `|~~…~` has no non-trivial border, so no straddling
occurrence is possible. This is the key well-formedness fact behind the
cursor decoder. -/
theorem findSub_value_marker {v tail : Str} {L : Nat}
    (hnc : containsSub (field_separator_head L) v = false) :
    findSub (v ++ field_separator_head L ++ tail) (field_separator_head L) =
      some v.length := by
  set m := field_separator_head L with hm
  apply findSub_first
  · rw [List.append_assoc, List.drop_left]
    exact ⟨tail, rfl⟩
  · intro j hj hpre
    obtain ⟨t, ht⟩ := hpre
    rw [List.append_assoc] at ht
    by_cases hcase : j + m.length ≤ v.length
    · have hdrop : (v ++ (m ++ tail)).drop j = v.drop j ++ (m ++ tail) :=
        List.drop_append_of_le_length (Nat.le_of_lt hj)
      have hpre2 : m <+: v.drop j ++ (m ++ tail) := by
        rw [← hdrop]; exact ⟨t, ht⟩
      have hlen : m.length ≤ (v.drop j).length := by
        rw [List.length_drop]; omega
      have htake : m = (v.drop j).take m.length := by
        have h1 := List.prefix_iff_eq_take.mp hpre2
        rw [List.take_append_eq_append_take] at h1
        rw [Nat.sub_eq_zero_of_le hlen] at h1
        simpa using h1
      have : containsSub m v = true := by
        rw [containsSub_iff]
        exact ⟨j, htake ▸ List.take_prefix _ _⟩
      rw [this] at hnc
      exact absurd hnc (by simp)
    · -- straddling occurrence: impossible, the marker has no border
      have hi0 : 1 ≤ v.length - j ∧ v.length - j < m.length := by
        constructor <;> omega
      have hsame : (m ++ t)[v.length - j]? = (v ++ (m ++ tail))[v.length]? := by
        rw [ht, List.getElem?_drop]
        congr 1
        omega
      have hL : (v ++ (m ++ tail))[v.length]? = some '|' := by
        rw [List.getElem?_append_right (Nat.le_refl _)]
        simp [hm, field_separator_head]
      have hR : (m ++ t)[v.length - j]? = some '~' := by
        rw [List.getElem?_append_left hi0.2]
        rw [hm]
        show (field_separator_head L)[v.length - j]? = some '~'
        unfold field_separator_head
        rw [List.getElem?_cons]
        rw [if_neg (by omega)]
        rw [List.getElem?_replicate]
        rw [if_pos]
        have := hi0.2
        rw [hm, field_separator_head_length] at this
        omega
      rw [hsame, hL] at hR
      simp at hR

/-! ## Data model

The catalog message class (`pology.file.message`) is not under `src/`;
it is modelled from the spec (§3): identity fields, the tracked mutable
fields, comment line lists, and the two state flags. -/

/-- Modelled from the spec: a catalog message (`Message`/`MessageUnsafe`
of `pology.file.message`, not under `src/`): identity (context, id),
tracked fields, comments as lists of lines, and the fuzzy/obsolete
flags. A fresh message has empty/absent fields. -/
structure Msg where
  msgctxt : Option Str := none
  msgid : Str := []
  msgid_plural : Option Str := none
  msgstr : List Str := []
  msgctxt_previous : Option Str := none
  msgid_previous : Option Str := none
  msgid_plural_previous : Option Str := none
  manual_comment : List Str := []
  auto_comment : List Str := []
  fuzzy : Bool := false
  obsolete : Bool := false
deriving DecidableEq, Repr, Inhabited

/-- The tracked non-identity fields (`_nonid_fields_tracked`). -/
inductive TField
  | msgid_plural
  | msgstr
  | msgctxt_previous
  | msgid_previous
  | msgid_plural_previous
  | manual_comment
deriving DecidableEq, Repr

/-- `_nonid_fields_tracked`, in source order. -/
def nonid_fields_tracked : List TField :=
  [.msgid_plural, .msgstr,
   .msgctxt_previous, .msgid_previous, .msgid_plural_previous,
   .manual_comment]

/-- Membership in `_fields_previous`. -/
def TField.isPrevious : TField → Bool
  | .msgctxt_previous | .msgid_previous | .msgid_plural_previous => true
  | _ => false

/-- Membership in `_multiple_fields` (restricted to tracked fields). -/
def TField.isMultiple : TField → Bool
  | .msgstr | .manual_comment => true
  | _ => false

/-- A raw Python field value: an optional string or a list of strings. -/
inductive FVal
  | opt (v : Option Str)
  | list (v : List Str)
deriving DecidableEq, Repr

/-- Python `msg.get(field)` for the tracked fields. -/
def Msg.fget (m : Msg) : TField → FVal
  | .msgid_plural => .opt m.msgid_plural
  | .msgstr => .list m.msgstr
  | .msgctxt_previous => .opt m.msgctxt_previous
  | .msgid_previous => .opt m.msgid_previous
  | .msgid_plural_previous => .opt m.msgid_plural_previous
  | .manual_comment => .list m.manual_comment

/-- The individual strings of a raw field value, as iterated by
`needed_separator_length` (a present optional string contributes itself,
a list contributes each element, an absent value contributes nothing). -/
def FVal.values : FVal → List Str
  | .opt none => []
  | .opt (some v) => [v]
  | .list l => l

/-- `get_as_sequence`: a field as a positional item sequence. Previous
fields of non-fuzzy messages are dropped on non-ascription messages;
comment fields are reported as a single newline-joined entry. -/
def get_as_sequence (msg : Msg) (field : TField) (asc : Bool := true) : List Str :=
  if !asc && !msg.fuzzy && field.isPrevious then []
  else
    match field with
    | .msgid_plural => msg.msgid_plural.toList
    | .msgstr => msg.msgstr
    | .msgctxt_previous => msg.msgctxt_previous.toList
    | .msgid_previous => msg.msgid_previous.toList
    | .msgid_plural_previous => msg.msgid_plural_previous.toList
    | .manual_comment =>
      if msg.manual_comment.isEmpty then [] else [joinWithNL msg.manual_comment]

/-- `set_from_sequence`: store an item sequence back into a field
(single-valued fields take the head or become absent; comment fields are
split back into lines). -/
def set_from_sequence (msg_seq : List Str) (msg : Msg) (field : TField) : Msg :=
  match field with
  | .msgid_plural => { msg with msgid_plural := msg_seq.head? }
  | .msgstr => { msg with msgstr := msg_seq }
  | .msgctxt_previous => { msg with msgctxt_previous := msg_seq.head? }
  | .msgid_previous => { msg with msgid_previous := msg_seq.head? }
  | .msgid_plural_previous => { msg with msgid_plural_previous := msg_seq.head? }
  | .manual_comment =>
    { msg with manual_comment :=
        match msg_seq with
        | [] => []
        | s :: _ => splitOnChar '\n' s }

/-- The inner `goodsep` check of `needed_separator_length`: the marker of
the given length occurs in none of the tracked raw field values. -/
def goodsep (msg : Msg) (seplen : Nat) : Bool :=
  nonid_fields_tracked.all fun field =>
    (msg.fget field).values.all fun value =>
      !containsSub (field_separator_head seplen) value

def sepSearchFrom (msg : Msg) : Nat → Nat → Nat
  | 0, seplen => seplen
  | fuel + 1, seplen =>
    if goodsep msg seplen then seplen else sepSearchFrom msg fuel (seplen + 1)

def natMax : List Nat → Nat
  | [] => 0
  | x :: r => max x (natMax r)

def maxFieldLen (msg : Msg) : Nat :=
  natMax (nonid_fields_tracked.map fun field =>
    natMax ((msg.fget field).values.map List.length))

/-- `needed_separator_length`: search upward from length 1 for the first
good separator length. The Python `while` loop is unbounded; a marker
longer than every tracked value is always good, which bounds the search
by `maxFieldLen msg + 1`, so the loop is run on that much fuel. -/
def needed_separator_length (msg : Msg) : Nat :=
  sepSearchFrom msg (maxFieldLen msg + 1) 1

theorem le_natMax {x : Nat} {l : List Nat} (h : x ∈ l) : x ≤ natMax l := by
  induction l with
  | nil => simp at h
  | cons y r ih =>
    rcases List.mem_cons.mp h with rfl | h
    · exact Nat.le_max_left _ _
    · exact Nat.le_trans (ih h) (Nat.le_max_right _ _)

theorem value_length_le_maxFieldLen {msg : Msg} {field : TField} {v : Str}
    (hf : field ∈ nonid_fields_tracked) (hv : v ∈ (msg.fget field).values) :
    v.length ≤ maxFieldLen msg := by
  have h1 : v.length ≤ natMax ((msg.fget field).values.map List.length) :=
    le_natMax (List.mem_map_of_mem _ hv)
  have h2 : natMax ((msg.fget field).values.map List.length) ≤ maxFieldLen msg :=
    le_natMax (List.mem_map_of_mem _ hf)
  omega

theorem goodsep_of_long {msg : Msg} {L : Nat} (h : maxFieldLen msg + 1 ≤ L) :
    goodsep msg L = true := by
  rw [goodsep, List.all_eq_true]
  intro field hf
  rw [List.all_eq_true]
  intro v hv
  rw [Bool.not_eq_true']
  rw [Bool.eq_false_iff]
  intro hc
  have h1 := containsSub_length_le hc
  rw [field_separator_head_length] at h1
  have h2 := value_length_le_maxFieldLen hf hv
  omega

theorem sepSearchFrom_min {msg : Msg} :
    ∀ fuel start, (∃ k, k < fuel ∧ goodsep msg (start + k) = true) →
      goodsep msg (sepSearchFrom msg fuel start) = true ∧
      start ≤ sepSearchFrom msg fuel start ∧
      ∀ L, start ≤ L → L < sepSearchFrom msg fuel start → goodsep msg L = false := by
  intro fuel
  induction fuel with
  | zero => rintro start ⟨k, hk, _⟩; omega
  | succ fuel ih =>
    rintro start ⟨k, hk, hg⟩
    by_cases h0 : goodsep msg start = true
    · rw [sepSearchFrom, if_pos h0]
      refine ⟨h0, Nat.le_refl _, ?_⟩
      intro L h1 h2
      omega
    · have hk0 : k ≠ 0 := by rintro rfl; simp at hg; exact h0 hg
      have hex : ∃ k', k' < fuel ∧ goodsep msg (start + 1 + k') = true :=
        ⟨k - 1, by omega, by rwa [show start + 1 + (k - 1) = start + k by omega]⟩
      obtain ⟨hgood, hle, hmin⟩ := ih (start + 1) hex
      rw [sepSearchFrom, if_neg h0]
      refine ⟨hgood, by omega, ?_⟩
      intro L h1 h2
      rcases Nat.eq_or_lt_of_le h1 with rfl | h1'
      · exact Bool.eq_false_iff.mpr h0
      · exact hmin L (by omega) h2

/-- The separator length chosen for a write is good, and minimal among
good lengths, over the tracked raw field values. -/
theorem needed_separator_length_spec (msg : Msg) :
    goodsep msg (needed_separator_length msg) = true ∧
    1 ≤ needed_separator_length msg ∧
    ∀ L, 1 ≤ L → L < needed_separator_length msg → goodsep msg L = false := by
  have hex : ∃ k, k < maxFieldLen msg + 1 ∧ goodsep msg (1 + k) = true :=
    ⟨maxFieldLen msg, Nat.lt_succ_self _, goodsep_of_long (by omega)⟩
  obtain ⟨hgood, hle, hmin⟩ := sepSearchFrom_min (maxFieldLen msg + 1) 1 hex
  exact ⟨hgood, hle, hmin⟩

/-! ## Ascription data and comparison predicates -/

/-- Ascription configuration; only the known-users list matters to the
functions under study. -/
structure Config where
  users : List Str
deriving Repr

/-- `UFUZZ`, the reserved merge-pseudo-user name. -/
def UFUZZ : Str := "fuzzy".toList

def ATYPE_MOD : Str := "modified".toList

def ATYPE_REV : Str := "reviewed".toList

/-- Modelled from the spec: translation completeness as used by
`Message.state()` (`pology.file.message`, not under `src/`). -/
def Msg.translated (m : Msg) : Bool :=
  !m.msgstr.isEmpty && m.msgstr.all (fun s => !s.isEmpty)

/-- Modelled from the spec: `Message.state()` (`pology.file.message`, not
under `src/`): one of T/F/U/OT/OF/OU — an `O` prefix when obsolete,
then F when fuzzy, else T/U by translation completeness. -/
def Msg.state (m : Msg) : Str :=
  (if m.obsolete then ['O'] else []) ++
  (if m.fuzzy then ['F'] else if m.translated then ['T'] else ['U'])

/-- `has_nonid_diff`: do any tracked fields differ, ignoring previous
fields when the (new) message carries no fuzzy flag? -/
def has_nonid_diff (pmsg msg : Msg) : Bool :=
  nonid_fields_tracked.any fun field =>
    let msg_value : FVal :=
      if !msg.fuzzy && field.isPrevious then .opt none else msg.fget field
    decide (msg_value ≠ pmsg.fget field)

/-- `_nonid_fields_eq_nonfuzzy`. -/
def nonid_fields_eq_nonfuzzy : List TField := [.msgid_plural, .msgstr, .manual_comment]

/-- `_nonid_fields_eq_fuzzy`. -/
def nonid_fields_eq_fuzzy : List TField :=
  [.msgid_plural, .msgstr, .manual_comment,
   .msgctxt_previous, .msgid_previous, .msgid_plural_previous]

/-- `asc_eq`: equality from the ascription viewpoint. -/
def asc_eq (msg1 msg2 : Msg) : Bool :=
  if msg1.state ≠ msg2.state then false
  else
    (if msg1.fuzzy then nonid_fields_eq_fuzzy else nonid_fields_eq_nonfuzzy).all
      fun field => msg1.fget field = msg2.fget field

/-- `merge_modified`: whether the second message may be considered
derived from the first by merging. (Python indexes `msgstr[0]`, which
raises on an empty list; modelled with `head?`, never reached on
catalog messages, whose `msgstr` is nonempty.) -/
def merge_modified (msg1 msg2 : Msg) : Bool :=
  if msg1.manual_comment ≠ msg2.manual_comment then false
  else
    let idpart : Bool :=
      if msg1.fuzzy = msg2.fuzzy then
        if msg1.fuzzy then
          decide (msg1.msgctxt_previous = msg2.msgctxt_previous ∧
                  msg1.msgid_previous = msg2.msgid_previous ∧
                  msg1.msgid_plural_previous = msg2.msgid_plural_previous)
        else
          decide (msg1.msgctxt = msg2.msgctxt ∧ msg1.msgid = msg2.msgid ∧
                  msg1.msgid_plural = msg2.msgid_plural)
      else if msg1.fuzzy then
        decide (msg1.msgctxt_previous = msg2.msgctxt ∧
                msg1.msgid_previous = some msg2.msgid ∧
                msg1.msgid_plural_previous = msg2.msgid_plural)
      else
        decide (msg1.msgctxt = msg2.msgctxt_previous ∧
                some msg1.msgid = msg2.msgid_previous ∧
                msg1.msgid_plural = msg2.msgid_plural_previous)
    if !idpart then false
    else if msg1.msgid_plural.isNone = msg2.msgid_plural.isNone then
      decide (msg1.msgstr = msg2.msgstr)
    else if !msg1.fuzzy && !msg2.fuzzy then false
    else if msg1.msgid_plural.isSome then
      decide (msg1.msgstr.head? = msg2.msgstr.head?)
    else
      msg2.msgstr.all fun s => decide (some s = msg1.msgstr.head?)

def _atag_sep : Char := '/'

def _mark_fuzz : Char := 'f'

def _mark_obs : Char := 'o'

def _trsep_mod_none : Char := 'x'

def _trsep_mod_eq : Char := 'e'

def fld_sep : Char := ':'

/-- `asc_append_field`: append one ascription comment line. -/
def asc_append_field (msg : Msg) (field : Str) (value : Str) : Msg :=
  { msg with auto_comment := msg.auto_comment ++ [field ++ fld_sep :: ' ' :: value] }

/-- Dates are modelled as a single natural number: `format_datetime`
renders it in decimal, and `parse_datetime` accepts a bare decimal
string (the source's `parse_datetime` likewise accepts a bare integer,
its last pattern). Ordering of naturals models timestamp ordering. -/
def format_datetime (dt : Nat) : Str := natRepr dt

/-- See `format_datetime`; the `' *'` margins of the source patterns are
the surrounding strip. -/
def parse_datetime (dstr : Str) : Option Nat := strToNatQ (pyStrip dstr)

/-- One parsed ascription tuple
`(user, type, tag, date, seplen, isfuzzy, isobsolete)`. -/
structure AscTuple where
  user : Str
  type : Str
  tag : Str
  date : Nat
  slen : Nat
  fuzz : Bool
  obs : Bool
deriving DecidableEq, Repr

/-- One iteration of the `asc_parse_ascriptions` loop. The
fuzzy/obsolete state variables are assigned only when a modification
line is parsed, so they are threaded as `Option Bool`; referencing them
unassigned is Python's unhandled `NameError`, modelled as an
`Except.error`. Skipped malformed lines return `none` (the warning is
not modelled) while keeping any state mutation already performed. -/
def asc_parse_one (config : Config) (st : Option Bool × Option Bool) (cmnt : Str) :
    Except Str (Option AscTuple × (Option Bool × Option Bool)) :=
  match findSub cmnt [fld_sep] with
  | none => .ok (none, st)
  | some p =>
    let atype0 := pyStrip (cmnt.take p)
    let sp := splitOnceChar _atag_sep atype0
    let atype := match sp.2 with | none => atype0 | some _ => pyStrip sp.1
    let atag := match sp.2 with | none => [] | some t => pyStrip t
    match splitOnChar '|' (cmnt.drop (p + 1)) with
    | l0 :: l1 :: rest =>
      if rest.length > 1 then .ok (none, st)
      else
        let auser := pyStrip l0
        if auser.isEmpty then .ok (none, st)
        else if auser ∉ config.users then .ok (none, st)
        else
          match parse_datetime (pyStrip l1) with
          | none => .ok (none, st)
          | some date =>
            let st1 := if atype = ATYPE_MOD then (some false, some false) else st
            match rest with
            | [] =>
              match st1 with
              | (some f, some o) => .ok (some ⟨auser, atype, atag, date, 0, f, o⟩, st1)
              | _ => .error "NameError".toList
            | l2 :: _ =>
              let tmp0 := pyStrip l2
              let hasf := tmp0.contains _mark_fuzz
              let st2f : Option Bool := if hasf then some true else st1.1
              let tmp1 := if hasf then removeFirstChar _mark_fuzz tmp0 else tmp0
              let haso := tmp1.contains _mark_obs
              let st2o : Option Bool := if haso then some true else st1.2
              let tmp2 := if haso then removeFirstChar _mark_obs tmp1 else tmp1
              if tmp2.isEmpty then
                match st2f, st2o with
                | some f, some o => .ok (some ⟨auser, atype, atag, date, 0, f, o⟩, (st2f, st2o))
                | _, _ => .error "NameError".toList
              else
                match strToNatQ tmp2 with
                | none => .ok (none, (st2f, st2o))
                | some seplen =>
                  match st2f, st2o with
                  | some f, some o =>
                    .ok (some ⟨auser, atype, atag, date, seplen, f, o⟩, (st2f, st2o))
                  | _, _ => .error "NameError".toList
    | _ => .ok (none, st)

def asc_parse_go (config : Config) :
    List Str → (Option Bool × Option Bool) → Except Str (List AscTuple)
  | [], _ => .ok []
  | cmnt :: rest, st =>
    match asc_parse_one config st cmnt with
    | .error e => .error e
    | .ok (none, st') => asc_parse_go config rest st'
    | .ok (some t, st') => (asc_parse_go config rest st').map (t :: ·)

/-- `asc_parse_ascriptions`: parse the record's ascription comment lines. -/
def asc_parse_ascriptions (config : Config) (amsg : Msg) : Except Str (List AscTuple) :=
  asc_parse_go config amsg.auto_comment (none, none)

/-! ## The stateful decoder -/

/-- Per-field decoder state: one forward cursor and one accumulated
prior-value table per item (`spos[field]`, `pvals[field]`). -/
structure StepState where
  spos : List Nat := [0]
  pvals : List (List (Option Str)) := [[]]
deriving DecidableEq, Repr, Inhabited

/-- Python `l.extend([pad] * (n - len(l)))`. -/
def listExtend {α : Type} (l : List α) (n : Nat) (pad : α) : List α :=
  l ++ List.replicate (n - l.length) pad

/-- `amsg_step_value`: consume one token of one item's stored blob and
return the reconstructed value (`none` for an absent item). Python's
`int` on an empty digit run and an out-of-range back-reference raise;
neither is reachable on writer-produced records, and they are modelled
by `0` and `none` respectively. -/
def amsg_step_value (aval shead stail : Str) (st : StepState) (i : Nat) :
    Option Str × StepState :=
  let spos := listExtend st.spos (i + 1) 0
  let pvals := listExtend st.pvals (i + 1) []
  let p0 : Nat := spos.getD i 0
  let p1 : Int := pyFind aval shead (p0 : Int)
  let q : Int := pyFind aval stail (p1 + 1)
  let p2 : Int := if q < 0 then (aval.length : Int) else q
  let spos' := spos.set i (p2 + (stail.length : Int)).toNat
  let mods := pySlice aval (p1 + (shead.length : Int)) p2
  let pval : Option Str :=
    if mods.contains _trsep_mod_eq then
      let q1 : Nat := (pyFind mods [_trsep_mod_eq] 0).toNat + 1
      let q2 : Nat := q1 + ((mods.drop q1).takeWhile Char.isDigit).length
      let nrev := digitsVal (pySlice mods (q1 : Int) (q2 : Int))
      (pvals.getD i []).getD nrev none
    else if mods.contains _trsep_mod_none then none
    else some (pySlice aval (p0 : Int) p1)
  let pvals' := pvals.set i ((pvals.getD i []) ++ [pval])
  (pval, ⟨spos', pvals'⟩)

/-- The per-field inner loop of `asc_collect_history_single`: step every
item of the field, building the reconstructed item sequence. -/
def stepItemsGo (shead : Str) : List Str → Nat → StepState → List Str →
    StepState × List Str
  | [], _, st, acc => (st, acc)
  | aval :: rest, i, st, acc =>
    let r := amsg_step_value aval shead ['\n'] st i
    let acc' :=
      match r.1 with
      | none => acc
      | some v => (listExtend acc (i + 1) []).set i v
    stepItemsGo shead rest (i + 1) r.2 acc'

/-- A fresh message carrying only the identity fields (`_id_fields`)
of the given message. -/
def idFieldsCopy (amsg : Msg) : Msg :=
  { msgctxt := amsg.msgctxt, msgid := amsg.msgid }

/-- Decode one separator-carrying entry: step all tracked fields. -/
def decodeModEntry (amsg : Msg) (shead : Str) (st : TField → StepState) :
    (TField → StepState) × Msg :=
  nonid_fields_tracked.foldl
    (fun acc field =>
      let amsg_seq := get_as_sequence amsg field
      let r := stepItemsGo shead amsg_seq 0 (acc.1 field) []
      (Function.update acc.1 field r.1, set_from_sequence r.2 acc.2 field))
    (st, idFieldsCopy amsg)

/-- `_Ascription`: one history entry. The `rmsg` back-reference to the
raw record is omitted (no studied code path reads it); the Python
`None` defaults of `slen`/`fuzz`/`obs` are modelled by the equally
falsy `0`/`false`. `date` is `none` only on the synthetic head. -/
structure Asc where
  msg : Msg := {}
  user : Option Str := none
  type : Str := []
  tag : Str := []
  date : Option Nat := none
  slen : Nat := 0
  fuzz : Bool := false
  obs : Bool := false
  pos : Nat := 0
deriving DecidableEq, Repr, Inhabited

/-- Apply an entry's own fuzzy/obsolete flags to its snapshot. -/
def applyFlags (pmsg : Msg) (a : AscTuple) : Msg :=
  { pmsg with fuzzy := a.fuzz, obsolete := a.obs }

/-- The entry loop of `asc_collect_history_single`: decode each parsed
entry in file order, sharing the per-field decoder state. An entry with
separator length 0 copies the previous (older-in-file) snapshot, which
"must exist" per the source; an empty history there (IndexError in
Python) is modelled by a default message. -/
def collectSingleGo (amsg : Msg) :
    List AscTuple → (TField → StepState) → List Asc → List Asc
  | [], _, history => history
  | a :: rest, st, history =>
    if a.slen ≠ 0 then
      let shead := field_separator_head a.slen
      let r := decodeModEntry amsg shead st
      let pmsg := applyFlags r.2 a
      collectSingleGo amsg rest r.1
        (history ++ [⟨pmsg, some a.user, a.type, a.tag, some a.date, a.slen, a.fuzz, a.obs, 0⟩])
    else
      let pmsg0 := (history.getLast?).elim {} (·.msg)
      let pmsg := applyFlags pmsg0 a
      collectSingleGo amsg rest st
        (history ++ [⟨pmsg, some a.user, a.type, a.tag, some a.date, 0, a.fuzz, a.obs, 0⟩])

def ascKeyLe (x y : Asc × Nat) : Bool :=
  let dx := x.1.date.getD 0
  let dy := y.1.date.getD 0
  dx < dy || (dx = dy && x.2 ≤ y.2)

def insertAsc (x : Asc × Nat) : List (Asc × Nat) → List (Asc × Nat)
  | [] => [x]
  | y :: rest => if ascKeyLe x y then x :: y :: rest else y :: insertAsc x rest

/-- Stable ascending sort on the (date, original position) key; the keys
are pairwise distinct (positions are), so this matches Python's stable
`sort`. -/
def isortAsc : List (Asc × Nat) → List (Asc × Nat)
  | [] => []
  | x :: rest => insertAsc x (isortAsc rest)

/-- `asc_collect_history_single`: parse the record's comment lines,
decode each entry's snapshot in file order, then sort ascending by
(date, original order) and reverse to newest-first. -/
def asc_collect_history_single (config : Config) (amsg : Msg) :
    Except Str (List Asc) :=
  (asc_parse_ascriptions config amsg).map fun tuples =>
    let history := collectSingleGo amsg tuples (fun _ => {}) []
    ((isortAsc (history.zip (List.range history.length))).map Prod.fst).reverse

/-! ## The writer -/

/-- The inner back-reference search of `add_nonid`: the first
modification entry of `rhistory` (oldest first) whose reconstructed
snapshot already carries this item value; returns its modification
index. -/
def findEqIdx (msg_val : Str) (field : TField) (i : Nat) :
    List Asc → Nat → Option Nat
  | [], _ => none
  | a :: rest, nmod =>
    if a.slen = 0 then findEqIdx msg_val field i rest nmod
    else
      let msg_seq_p := get_as_sequence a.msg field
      if i < msg_seq_p.length ∧ msg_seq_p.getD i [] = msg_val then some nmod
      else findEqIdx msg_val field i rest (nmod + 1)

/-- `add_nonid`: append this write's token to every tracked field item
of the record — the literal value followed by the marker when the item
changed, a back-reference `e<N>` when an older modification already
stored the same value, and the absence token for items the live message
does not have; newly appearing items are first padded with absence
tokens for all prior modifications. -/
def add_nonid (amsg msg : Msg) (slen : Nat) (rhistory : List Asc) : Msg :=
  let shead := field_separator_head slen
  let nones := (rhistory.filter (fun x => x.slen ≠ 0)).map
      (fun x => field_separator_head x.slen ++ [_trsep_mod_none])
  let padnone := joinWithNL nones
  nonid_fields_tracked.foldl
    (fun am field =>
      let msg_seq := get_as_sequence msg field false
      let amsg_seq0 := get_as_sequence am field
      let amsg_seq := amsg_seq0 ++ List.replicate (msg_seq.length - amsg_seq0.length) padnone
      let amsg_seq' := (amsg_seq.zip (List.range amsg_seq.length)).map
        (fun p =>
          let add : Str :=
            if p.2 < msg_seq.length then
              match findEqIdx (msg_seq.getD p.2 []) field p.2 rhistory 0 with
              | none => msg_seq.getD p.2 [] ++ shead
              | some i_eq => shead ++ _trsep_mod_eq :: natRepr i_eq
            else shead ++ [_trsep_mod_none]
          if p.1.isEmpty then add else p.1 ++ '\n' :: add)
      set_from_sequence amsg_seq' am field)
    amsg

/-- `ascribe_msg_any`, for one message's record: `amsg0` is the existing
record, or `none` when the message has no record yet (a fresh record
with copied identity fields is then created). Returns the updated
record. -/
def ascribe_msg_any (config : Config) (amsg0 : Option Msg) (msg : Msg)
    (atype : Str) (atags : List Str) (user : Str) (dt : Nat) :
    Except Str Msg :=
  let amsg := amsg0.getD (idFieldsCopy msg)
  (asc_collect_history_single config amsg).map fun rh =>
    let rhistory := rh.reverse
    let hasdiff_state :=
      match rhistory.getLast? with
      | some a => decide (a.msg.state ≠ msg.state)
      | none => true
    let hasdiff_nonid :=
      match rhistory.getLast? with
      | some a => has_nonid_diff a.msg msg
      | none => true
    let hasdiff := hasdiff_nonid || hasdiff_state
    let seplen := needed_separator_length msg
    let modstr := user ++ " | ".toList ++ format_datetime dt
    let wsep : Str :=
      (if hasdiff_nonid then natRepr seplen else []) ++
      (if msg.obsolete then [_mark_obs] else []) ++
      (if msg.fuzzy then [_mark_fuzz] else [])
    let modstr_wsep :=
      if hasdiff ∧ ¬ wsep.isEmpty then modstr ++ " | ".toList ++ wsep else modstr
    let tagsList := if atags.isEmpty then [([] : Str)] else atags
    let amsg1 := (tagsList.zip (List.range tagsList.length)).foldl
      (fun am p =>
        let field := if p.1.isEmpty then atype else atype ++ _atag_sep :: p.1
        asc_append_field am field (if p.2 = 0 then modstr_wsep else modstr))
      amsg
    let amsg2 := if hasdiff_nonid then add_nonid amsg1 msg seplen rhistory else amsg1
    { amsg2 with fuzzy := msg.fuzzy, obsolete := msg.obsolete }

/-- One writer call: a modification, or a review carrying one tag. -/
structure Write where
  msg : Msg
  user : Str
  date : Nat
  rev : Bool := false
  tag : Str := []
deriving Repr, Inhabited

def applyWrite (config : Config) (amsg0 : Option Msg) (w : Write) : Except Str Msg :=
  ascribe_msg_any config amsg0 w.msg (if w.rev then ATYPE_REV else ATYPE_MOD)
    (if w.rev then [w.tag] else []) w.user w.date

/-- A sequence of writer appends to one message's record. -/
def runWrites (config : Config) : Option Msg → List Write → Except Str (Option Msg)
  | amsg0, [] => .ok amsg0
  | amsg0, w :: rest =>
    match applyWrite config amsg0 w with
    | .error e => .error e
    | .ok amsg => runWrites config (some amsg) rest

/-! ## Catalog-level reconstruction -/

abbrev MsgKey := Option Str × Str

/-- `Message.key`: (context, id). -/
def Msg.key (m : Msg) : MsgKey := (m.msgctxt, m.msgid)

abbrev ACat := List Msg

/-- `msg in acat` / `acat[msg]`: lookup by identity key. -/
def acatFind (acat : ACat) (k : MsgKey) : Option Msg :=
  acat.find? (fun am => decide (am.key = k))

/-- Python compares the (always present) entry datetimes; the `getD`
default is never taken on parsed entries. -/
def dateLeOpt (a b : Option Nat) : Bool := a.getD 0 ≤ b.getD 0

/-- `asc_collect_history_w`, with explicit fuel for the pivot recursion;
`claim_C4` below shows that any fuel of at least `wFuel acat` yields
the same result, i.e. that the visited-set guarded recursion
terminates. -/
def asc_collect_history_w (config : Config) (acat : ACat) :
    Nat → Msg → Option Asc → List MsgKey → Bool → Except Str (List Asc)
  | 0, _, _, _, _ => .ok []
  | fuel + 1, msg, before, seenmsg, shallow =>
    if msg.key ∈ seenmsg then .ok []
    else
      let seen' := msg.key :: seenmsg
      let histE : Except Str (List Asc) :=
        match acatFind acat msg.key with
        | some amsg =>
          (asc_collect_history_single config amsg).map
            (fun hs => hs.filter fun a =>
              match before with
              | none => true
              | some b => dateLeOpt a.date b.date)
        | none => .ok []
      match histE with
      | .error e => .error e
      | .ok history =>
        if shallow then .ok history
        else
          let amsg := (history.getLast?).elim msg (·.msg)
          if amsg.fuzzy ∧ ¬ (amsg.msgid_previous.getD []).isEmpty then
            let pmsg : Msg :=
              { msgctxt := amsg.msgctxt_previous, msgid := amsg.msgid_previous.getD [] }
            let after := (history.getLast?).elim before some
            match asc_collect_history_w config acat fuel pmsg after seen' false with
            | .error e => .error e
            | .ok ct => .ok (history ++ ct)
          else .ok history

/-- Sufficient fuel for `asc_collect_history_w` (proved by `claim_C4`). -/
def wFuel (acat : ACat) : Nat := 2 * (acat.map Msg.key).dedup.length + 3

/-- The synthetic "changed but not yet ascribed" head entry. -/
def syntheticHead (msg : Msg) : Asc :=
  { msg := msg, user := none, type := ATYPE_MOD }

/-- Sequential 1-based position markers, newest first. -/
def assignPos (history : List Asc) : List Asc :=
  (history.zip (List.range history.length)).map (fun p => { p.1 with pos := p.2 + 1 })

/-- The clean-merge elimination pass of `asc_collect_history`. -/
def dropCleanMerges : List Asc → List Asc
  | [] => []
  | [a] => if a.user ≠ some UFUZZ then [a] else []
  | a :: ao :: rest =>
    (if ¬ (a.user = some UFUZZ) ∨ ¬ (merge_modified ao.msg a.msg = true)
     then [a] else []) ++
    dropCleanMerges (ao :: rest)

/-- The `flt` helper of the filtered-collapse pass. -/
def fltMsg (h : Str → Str) (m : Msg) : Msg := { m with msgstr := m.msgstr.map h }

/-- The filtered-collapse loop (oldest first; the `.inv` checksum
equality of the monitored message class, not under `src/`, is modelled
as equality of the filtered messages). -/
def collapseGo (h : Str → Str) : List Asc → Option Msg → List Asc
  | [], _ => []
  | a :: rest, aprev =>
    if a.type ≠ ATYPE_MOD ∨ aprev = none ∨ some (fltMsg h a.msg) ≠ aprev then
      a :: collapseGo h rest (if a.type = ATYPE_MOD then some (fltMsg h a.msg) else aprev)
    else collapseGo h rest aprev

def collapseFiltered (h : Str → Str) (history : List Asc) : List Asc :=
  (collapseGo h history.reverse none).reverse

/-- The diff-reduction (`addrem`) pass of `asc_collect_history`,
walking newest to oldest: each Modification entry whose tail contains
an older Modification has its message replaced by the external
reduction `ediff older newer` — in the source,
`msg_ediff(a.msg, a_nextmod.msg, emsg=a_nextmod.msg, addrem=addrem)`
rewrites the newer entry in place once the next older Modification is
reached, before that older entry is itself ever rewritten. -/
def addremPass (ediff : Msg → Msg → Msg) : List Asc → List Asc
  | [] => []
  | a :: rest =>
    (if a.type = ATYPE_MOD then
      match rest.find? (fun b => decide (b.type = ATYPE_MOD)) with
      | some b => { a with msg := ediff b.msg a.msg }
      | none => a
    else a) :: addremPass ediff rest

/-- `asc_collect_history`: pivot-recursive collection, synthetic
unascribed head, position assignment, and the optional clean-merge /
filter-collapse / diff-reduction passes. `addrem` stands for the
external `msg_ediff` reduction (older, newer ↦ reduced newer). -/
def asc_collect_history (config : Config) (acat : ACat) (msg : Msg)
    (nomrg : Bool := false) (hfilter : Option (Str → Str) := none)
    (shallow : Bool := false) (addrem : Option (Msg → Msg → Msg) := none) :
    Except Str (List Asc) :=
  (asc_collect_history_w config acat (wFuel acat) msg none [] shallow).map
    fun history0 =>
      let history1 :=
        match history0.head? with
        | none => [syntheticHead msg]
        | some a0 =>
          if ¬ asc_eq msg a0.msg then syntheticHead msg :: history0 else history0
      let history2 := assignPos history1
      let history3 := if nomrg then dropCleanMerges history2 else history2
      let history4 :=
        match hfilter with
        | none => history3
        | some flt => collapseFiltered flt history3
      match addrem with
      | none => history4
      | some ediff => addremPass ediff history4

/-! ## The selector combinator -/

/-- A selector result under Python truthiness: a boolean (plain
selector) or a history index with 0 falsy, `nothing` modelling `None`. -/
inductive SelRes
  | bool (b : Bool)
  | idx (n : Nat)
  | nothing
deriving DecidableEq, Repr

def SelRes.truthy : SelRes → Bool
  | .bool b => b
  | .idx n => n ≠ 0
  | .nothing => false

/-- The compound selector closure built by `build_selector`: evaluate
the component selectors left to right, return the first falsy result
unchanged, otherwise the last result (`res0` when there are no
components: `False` for plain compounds, `None` for history ones). -/
def cselector {α : Type} (selectors : List (α → SelRes)) (res0 : SelRes) (x : α) : SelRes :=
  match selectors with
  | [] => res0
  | s :: rest =>
    let res := s x
    if ¬ res.truthy then res else cselector rest res x

/-- `negate_selector`. -/
def negate_selector {α : Type} (s : α → SelRes) : α → SelRes :=
  fun x => .bool (! (s x).truthy)

/-- Python's short-circuit `a and b`. -/
def pyAnd (a b : SelRes) : SelRes := if a.truthy then b else a

/-- The spec's reading of separator safety for C2: the marker occurs in
none of the fields being encoded in the write (the `asc=False` view,
which drops previous-identity fields of non-fuzzy messages). Stated
from the spec's words, for comparison with the source's `goodsep`. -/
def goodsepEnc (msg : Msg) (seplen : Nat) : Bool :=
  nonid_fields_tracked.all fun field =>
    (get_as_sequence msg field false).all fun value =>
      !containsSub (field_separator_head seplen) value

/-- A non-fuzzy message carrying a stale previous-identity field that
contains the length-1 marker. -/
def c2Msg : Msg := { msgctxt_previous := some "|~".toList }


def c3cfg : Config := ⟨["alice".toList, "bob".toList]⟩

/-- Record of the pivoted-to identity `old`: one modification at
timestamp 5 — equal to the anchor's. -/
def c3ROld : Msg :=
  { msgid := "old".toList, msgstr := ["x|~".toList],
    auto_comment := ["modified: alice | 5 | 1".toList] }

/-- Record of `new`: a fuzzy modification at timestamp 5 whose snapshot
carries previous identity `old`. -/
def c3RNew : Msg :=
  { msgid := "new".toList, msgstr := ["y|~".toList],
    msgid_previous := some "old|~".toList, fuzzy := true,
    auto_comment := ["modified: bob | 5 | 1f".toList] }

def c3acat : ACat := [c3ROld, c3RNew]

def c3mNew : Msg :=
  { msgid := "new".toList, msgstr := ["y".toList],
    msgid_previous := some "old".toList, fuzzy := true }

def c3pOld : Msg := { msgctxt := none, msgid := "old".toList }

def c3b : Asc := { date := some 5 }

/-! ## Claim theorems -/

/-- C9: the compound selector built by `build_selector` evaluates its
components left to right, returns the first falsy component result
unchanged (short-circuiting), and otherwise returns the last
component's result; for two components this is exactly Python's
short-circuit `A(x) and B(x)`. -/
theorem claim_C9 {α : Type} (A B : α → SelRes) (x : α) :
    cselector [A, B] (.bool false) x = pyAnd (A x) (B x) := by
  simp only [cselector, pyAnd]
  by_cases h : (A x).truthy <;> simp [h]

/-- C9 witness: a concrete evaluation — a falsy first component is
returned unchanged and a truthy one yields the second component's
result. -/
theorem claim_C9_witness :
    cselector [fun _ => SelRes.idx 0, fun _ => SelRes.bool true] (.bool false) 0 =
      pyAnd (SelRes.idx 0) (SelRes.bool true) ∧
    cselector [fun _ => SelRes.bool true, fun _ => SelRes.idx 3] (.bool false) 0 =
      pyAnd (SelRes.bool true) (SelRes.idx 3) :=
  ⟨claim_C9 (fun _ => SelRes.idx 0) (fun _ => SelRes.bool true) 0,
   claim_C9 (fun _ => SelRes.bool true) (fun _ => SelRes.idx 3) 0⟩

/-- C2 (amended): `needed_separator_length` returns the smallest L ≥ 1
such that the marker of length L occurs in none of the tracked field
values *present on the message* — previous-identity fields included
even when the message is not fuzzy, and comment lines checked
individually — and for every L' with 1 ≤ L' < L the marker of length L'
occurs in at least one of them. (The claim's "fields being encoded in
that write" fails: see `claim_C2_cex`.) -/
theorem claim_C2 (msg : Msg) :
    1 ≤ needed_separator_length msg ∧
    goodsep msg (needed_separator_length msg) = true ∧
    ∀ L, 1 ≤ L → L < needed_separator_length msg → goodsep msg L = false := by
  obtain ⟨hgood, hle, hmin⟩ := needed_separator_length_spec msg
  exact ⟨hle, hgood, hmin⟩

/-- C2 witness: on `c2Msg` the returned length is 2; it is good for the
raw tracked values while length 1 is not. -/
theorem claim_C2_witness :
    1 ≤ needed_separator_length c2Msg ∧
    goodsep c2Msg (needed_separator_length c2Msg) = true ∧
    goodsep c2Msg 1 = false :=
  ⟨(claim_C2 c2Msg).1, (claim_C2 c2Msg).2.1,
   (claim_C2 c2Msg).2.2 1 (Nat.le_refl 1) (by decide)⟩

/-- C2 counterexample: `needed_separator_length c2Msg = 2`, yet the
length-1 marker occurs in none of the fields being encoded in that
write (the previous-identity field is dropped for the non-fuzzy
message), so the smallest length over the encoded fields is 1, not 2 —
the claim's minimality over "the fields being encoded" fails. -/
theorem claim_C2_cex :
    needed_separator_length c2Msg = 2 ∧ goodsepEnc c2Msg 1 = true := by decide

theorem dateLeOpt_trans {x y z : Option Nat} (h1 : dateLeOpt x y = true)
    (h2 : dateLeOpt y z = true) : dateLeOpt x z = true := by
  simp only [dateLeOpt, decide_eq_true_eq] at *
  omega

/-- C3 (amended): when reconstruction is bounded by an anchor entry
(`before`), every collected entry — in particular every entry appended
from a pivoted identity's history, which is collected under the anchor
`after` — has a timestamp older than *or equal to* the anchor's; the
source compares with `a.date <= before.date`, so an entry whose
timestamp equals the anchor's is included (see `claim_C3_cex`). -/
theorem claim_C3 (config : Config) (acat : ACat) :
    ∀ (fuel : Nat) (msg : Msg) (b : Asc) (seen : List MsgKey) (shallow : Bool)
      (hist : List Asc),
      asc_collect_history_w config acat fuel msg (some b) seen shallow = .ok hist →
      ∀ a ∈ hist, dateLeOpt a.date b.date = true := by
  intro fuel
  induction fuel with
  | zero =>
    intro msg b seen shallow hist h
    simp only [asc_collect_history_w] at h
    cases h
    simp
  | succ fuel ih =>
    intro msg b seen shallow hist h
    simp only [asc_collect_history_w] at h
    by_cases hseen : msg.key ∈ seen
    · rw [if_pos hseen] at h
      cases h
      simp
    · rw [if_neg hseen] at h
      cases hcat : acatFind acat (Msg.key msg) with
      | none =>
        rw [hcat] at h
        cases shallow with
        | true => cases h; simp
        | false =>
          simp only [List.getLast?_nil, Option.elim_none, Bool.false_eq_true,
            if_false] at h
          by_cases hpv : (msg.fuzzy = true ∧ ¬((msg.msgid_previous.getD []).isEmpty = true))
          · rw [if_pos hpv] at h
            cases hrec : asc_collect_history_w config acat fuel
                { msgctxt := msg.msgctxt_previous, msgid := msg.msgid_previous.getD [] }
                (some b) (Msg.key msg :: seen) false with
            | error e => rw [hrec] at h; cases h
            | ok ct =>
              rw [hrec] at h
              cases h
              intro a ha
              simp only [List.nil_append] at ha
              exact ih _ b _ false ct hrec a ha
          · rw [if_neg hpv] at h
            cases h
            simp
      | some amsg =>
        rw [hcat] at h
        dsimp only at h
        cases hcs : asc_collect_history_single config amsg with
        | error e => rw [hcs] at h; simp only [Except.map] at h; cases h
        | ok hs =>
          rw [hcs] at h
          simp only [Except.map] at h
          have hmemf : ∀ a ∈ hs.filter (fun a => dateLeOpt a.date b.date),
              dateLeOpt a.date b.date = true := by
            intro a ha
            exact (List.mem_filter.mp ha).2
          cases shallow with
          | true =>
            simp only at h
            exact (Except.ok.inj h) ▸ hmemf
          | false =>
            simp only [Bool.false_eq_true, if_false] at h
            set history := hs.filter (fun a => dateLeOpt a.date b.date) with hhist
            set amsg2 := (history.getLast?).elim msg (fun x => x.msg) with hamsg2
            by_cases hpv : (amsg2.fuzzy = true ∧ ¬((amsg2.msgid_previous.getD []).isEmpty = true))
            · rw [if_pos hpv] at h
              cases hrec : asc_collect_history_w config acat fuel
                  { msgctxt := amsg2.msgctxt_previous, msgid := amsg2.msgid_previous.getD [] }
                  ((history.getLast?).elim (some b) some) (Msg.key msg :: seen) false with
              | error e => rw [hrec] at h; cases h
              | ok ct =>
                rw [hrec] at h
                have hh : history ++ ct = hist := Except.ok.inj h
                intro a ha
                rw [← hh] at ha
                rcases List.mem_append.mp ha with ha | ha
                · exact hmemf a ha
                · cases hlast : history.getLast? with
                  | none =>
                    rw [hlast] at hrec
                    exact ih _ b _ false ct hrec a ha
                  | some lastA =>
                    rw [hlast] at hrec
                    have h1 := ih _ lastA _ false ct hrec a ha
                    have h2 : dateLeOpt lastA.date b.date = true :=
                      hmemf lastA (List.mem_of_mem_getLast? hlast)
                    exact dateLeOpt_trans h1 h2
            · rw [if_neg hpv] at h
              exact (Except.ok.inj h) ▸ hmemf

/-- C3 witness: the theorem applied to the concrete pivoted identity
`old` under an anchor of timestamp 5, evaluated at the first collected
entry. -/
theorem claim_C3_witness :
    dateLeOpt
      ((((asc_collect_history_w c3cfg c3acat (wFuel c3acat) c3pOld (some c3b) []
          false).toOption.getD []).getD 0 default).date) c3b.date = true :=
  claim_C3 c3cfg c3acat (wFuel c3acat) c3pOld c3b [] false
    ((asc_collect_history_w c3cfg c3acat (wFuel c3acat) c3pOld (some c3b) []
        false).toOption.getD [])
    (by rfl)
    (((asc_collect_history_w c3cfg c3acat (wFuel c3acat) c3pOld (some c3b) []
        false).toOption.getD []).getD 0 default)
    (by decide)

/-- C3 counterexample: reconstructing `new` pivots through its fuzzy
oldest snapshot into `old`, whose entry has a timestamp *equal* to the
anchor (the oldest entry collected so far, timestamp 5) — and that
entry is included, contradicting the claim's "strictly older than the
anchor; no pivoted entry with a timestamp equal to the anchor's is
included". -/
theorem claim_C3_cex :
    (asc_collect_history_w c3cfg c3acat (wFuel c3acat) c3mNew none [] false).toOption.map
        (fun hist => hist.map (fun a => (a.user, a.date))) =
      some [(some "bob".toList, some 5), (some "alice".toList, some 5)] := by decide

def keysLeft (acat : ACat) (seen : List MsgKey) : Nat :=
  (((acat.map Msg.key).dedup).filter (fun k => decide (k ∉ seen))).length

def phiW (acat : ACat) (seen : List MsgKey) (msg : Msg) : Nat :=
  2 * keysLeft acat seen + (if (acatFind acat msg.key).isSome then 0 else 1)

theorem filter_length_mono {α : Type} {p q : α → Bool}
    (h : ∀ x, p x = true → q x = true) :
    ∀ l : List α, (l.filter p).length ≤ (l.filter q).length := by
  intro l
  induction l with
  | nil => simp
  | cons a rest ih =>
    by_cases hp : p a = true
    · rw [List.filter_cons_of_pos hp, List.filter_cons_of_pos (h a hp)]
      simpa using ih
    · rw [List.filter_cons_of_neg (by simpa using hp)]
      cases hq : q a
      · rw [List.filter_cons_of_neg (by simp [hq])]
        exact ih
      · rw [List.filter_cons_of_pos hq]
        simp only [List.length_cons]
        omega

theorem keysLeft_dec {acat : ACat} {seen : List MsgKey} {k : MsgKey}
    (hmem : k ∈ acat.map Msg.key) (hns : k ∉ seen) :
    keysLeft acat (k :: seen) + 1 ≤ keysLeft acat seen := by
  unfold keysLeft
  have hk : k ∈ (acat.map Msg.key).dedup := List.mem_dedup.mpr hmem
  have hmono : ∀ l : List MsgKey,
      (l.filter (fun x => decide (x ∉ k :: seen))).length ≤
      (l.filter (fun x => decide (x ∉ seen))).length := by
    apply filter_length_mono
    intro x hx
    simp only [decide_eq_true_eq, List.mem_cons, not_or] at *
    exact hx.2
  have : ∀ l : List MsgKey, k ∈ l →
      ((l.filter (fun x => decide (x ∉ k :: seen))).length + 1 ≤
       (l.filter (fun x => decide (x ∉ seen))).length) := by
    intro l
    induction l with
    | nil => simp
    | cons a rest ih =>
      intro hmem2
      by_cases hak : a = k
      · subst hak
        rw [List.filter_cons_of_neg (by simp), List.filter_cons_of_pos (by simpa using hns)]
        simp only [List.length_cons]
        have := hmono rest
        omega
      · have hk2 : k ∈ rest := by
          rcases List.mem_cons.mp hmem2 with h | h
          · exact absurd h.symm hak
          · exact h
        have heq : (decide (a ∉ k :: seen)) = (decide (a ∉ seen)) := by
          simp only [List.mem_cons, not_or, decide_not]
          by_cases ha : a ∈ seen <;> simp [ha, hak]
        by_cases ha : a ∉ seen
        · rw [List.filter_cons_of_pos (by rw [heq]; simpa using ha),
            List.filter_cons_of_pos (by simpa using ha)]
          simp only [List.length_cons]
          have := ih hk2
          omega
        · rw [List.filter_cons_of_neg (by rw [heq]; simpa using ha),
            List.filter_cons_of_neg (by simpa using ha)]
          exact ih hk2
  exact this _ hk

theorem keysLeft_stable {acat : ACat} {seen : List MsgKey} {k : MsgKey}
    (hnm : k ∉ acat.map Msg.key) :
    keysLeft acat (k :: seen) = keysLeft acat seen := by
  unfold keysLeft
  congr 1
  apply List.filter_congr
  intro x hx
  have hxk : x ≠ k := by
    intro hxe
    subst hxe
    exact hnm (List.mem_dedup.mp hx)
  simp only [List.mem_cons, not_or]
  by_cases hxs : x ∈ seen <;> simp [hxs, hxk]

theorem acatFind_some_memkey {acat : ACat} {k : MsgKey} {amsg : Msg}
    (h : acatFind acat k = some amsg) : k ∈ acat.map Msg.key := by
  unfold acatFind at h
  have hmem := List.mem_of_find?_eq_some h
  have hp := List.find?_some h
  simp only [decide_eq_true_eq] at hp
  subst hp
  exact List.mem_map_of_mem _ hmem

theorem acatFind_none_notmem {acat : ACat} {k : MsgKey}
    (h : acatFind acat k = none) : k ∉ acat.map Msg.key := by
  unfold acatFind at h
  rw [List.find?_eq_none] at h
  intro hmem
  obtain ⟨m, hm, rfl⟩ := List.mem_map.mp hmem
  exact absurd (by simp) (h m hm)

theorem w_guard (config : Config) (acat : ACat) :
    ∀ (fuel : Nat) (msg : Msg) (before : Option Asc) (seen : List MsgKey) (shallow : Bool),
      msg.key ∈ seen →
      asc_collect_history_w config acat fuel msg before seen shallow = .ok [] := by
  intro fuel msg before seen shallow hmem
  cases fuel with
  | zero => rfl
  | succ f => simp [asc_collect_history_w, hmem]

theorem w_terminal (config : Config) (acat : ACat) :
    ∀ (fuel : Nat) (msg : Msg) (before : Option Asc) (seen : List MsgKey),
      acatFind acat msg.key = none → msg.fuzzy = false →
      asc_collect_history_w config acat (fuel + 1) msg before seen false = .ok [] := by
  intro fuel msg before seen hcat hfz
  simp only [asc_collect_history_w]
  by_cases hseen : msg.key ∈ seen
  · rw [if_pos hseen]
  · rw [if_neg hseen, hcat]
    simp [hfz]


theorem w_stable (config : Config) (acat : ACat) :
    ∀ (φ : Nat) (msg : Msg) (before : Option Asc) (seen : List MsgKey) (shallow : Bool)
      (f₁ f₂ : Nat), phiW acat seen msg ≤ φ → φ + 2 ≤ f₁ → φ + 2 ≤ f₂ →
      asc_collect_history_w config acat f₁ msg before seen shallow =
      asc_collect_history_w config acat f₂ msg before seen shallow := by
  intro φ
  induction φ using Nat.strong_induction_on with
  | _ φ ih =>
    intro msg before seen shallow f₁ f₂ hφ h1 h2
    obtain ⟨a, rfl⟩ : ∃ a, f₁ = a + 1 := ⟨f₁ - 1, by omega⟩
    obtain ⟨b, rfl⟩ : ∃ b, f₂ = b + 1 := ⟨f₂ - 1, by omega⟩
    simp only [asc_collect_history_w]
    by_cases hseen : msg.key ∈ seen
    · rw [if_pos hseen, if_pos hseen]
    · rw [if_neg hseen, if_neg hseen]
      cases hcat : acatFind acat (Msg.key msg) with
      | some amsg =>
        -- record found: the recursive call consumes a catalog key
        have hk1 : 1 ≤ keysLeft acat seen := by
          have := keysLeft_dec (acatFind_some_memkey hcat) hseen
          omega
        have hφ1 : 1 ≤ φ := by
          have : phiW acat seen msg = 2 * keysLeft acat seen := by
            unfold phiW; rw [hcat]; simp
          omega
        dsimp only
        cases hcs : asc_collect_history_single config amsg with
        | error e => rfl
        | ok hs =>
          simp only [Except.map]
          cases shallow with
          | true => rfl
          | false =>
            simp only [Bool.false_eq_true, if_false]
            set history := hs.filter (fun x =>
              match before with
              | none => true
              | some b => dateLeOpt x.date b.date) with hhist
            set amsg2 := (history.getLast?).elim msg (fun x => x.msg) with hamsg2
            by_cases hpv : (amsg2.fuzzy = true ∧ ¬((amsg2.msgid_previous.getD []).isEmpty = true))
            · rw [if_pos hpv, if_pos hpv]
              set pmsg : Msg := { msgctxt := amsg2.msgctxt_previous,
                                  msgid := amsg2.msgid_previous.getD [] } with hpmsg
              have hrec : asc_collect_history_w config acat a pmsg
                  ((history.getLast?).elim before some) (Msg.key msg :: seen) false =
                asc_collect_history_w config acat b pmsg
                  ((history.getLast?).elim before some) (Msg.key msg :: seen) false := by
                have hphip : phiW acat (Msg.key msg :: seen) pmsg ≤ φ - 1 := by
                  have hd := keysLeft_dec (acatFind_some_memkey hcat) hseen
                  have : phiW acat seen msg = 2 * keysLeft acat seen := by
                    unfold phiW; rw [hcat]; simp
                  unfold phiW
                  by_cases hfp : (acatFind acat pmsg.key).isSome = true <;>
                    simp [hfp] <;> omega
                exact ih (φ - 1) (by omega) pmsg _ _ false a b hphip (by omega) (by omega)
              rw [hrec]
            · rw [if_neg hpv, if_neg hpv]
      | none =>
        -- no record: empty history, pivot (if any) goes through the live message
        dsimp only
        cases shallow with
        | true => rfl
        | false =>
          simp only [List.getLast?_nil, Option.elim_none, Bool.false_eq_true, if_false]
          by_cases hpv : (msg.fuzzy = true ∧ ¬((msg.msgid_previous.getD []).isEmpty = true))
          · rw [if_pos hpv, if_pos hpv]
            set pmsg : Msg := { msgctxt := msg.msgctxt_previous,
                                msgid := msg.msgid_previous.getD [] } with hpmsg
            have hφ1 : 1 ≤ φ := by
              have : phiW acat seen msg = 2 * keysLeft acat seen + 1 := by
                unfold phiW; rw [hcat]; simp
              omega
            have hrec : asc_collect_history_w config acat a pmsg before
                  (Msg.key msg :: seen) false =
                asc_collect_history_w config acat b pmsg before
                  (Msg.key msg :: seen) false := by
              by_cases hseen2 : pmsg.key ∈ (Msg.key msg :: seen)
              · rw [w_guard config acat a pmsg before _ false hseen2,
                  w_guard config acat b pmsg before _ false hseen2]
              · cases hcat2 : acatFind acat pmsg.key with
                | some amsg2 =>
                  have hphip : phiW acat (Msg.key msg :: seen) pmsg ≤ φ - 1 := by
                    have hst := @keysLeft_stable acat seen (Msg.key msg)
                      (acatFind_none_notmem hcat)
                    have : phiW acat seen msg = 2 * keysLeft acat seen + 1 := by
                      unfold phiW; rw [hcat]; simp
                    unfold phiW
                    rw [hcat2]
                    simp only [Option.isSome_some, if_pos]
                    omega
                  exact ih (φ - 1) (by omega) pmsg _ _ false a b hphip (by omega) (by omega)
                | none =>
                  obtain ⟨a', rfl⟩ : ∃ x, a = x + 1 := ⟨a - 1, by omega⟩
                  obtain ⟨b', rfl⟩ : ∃ x, b = x + 1 := ⟨b - 1, by omega⟩
                  rw [w_terminal config acat a' pmsg before _ hcat2 rfl,
                    w_terminal config acat b' pmsg before _ hcat2 rfl]
            rw [hrec]
          · rw [if_neg hpv, if_neg hpv]

/-- C4: stabilization of the fuel-indexed pivot recursion: any two
fuels of at least the canonical bound `wFuel acat` give the same
result, so the visited-set guarded reconstruction terminates on every
record graph, cycles included; and whenever the chain returns to an
already-visited identity, the recursive collection returns the empty
continuation without revisiting it, so the reconstruction keeps exactly
the partial chain collected up to the cycle. -/
theorem claim_C4 (config : Config) (acat : ACat) :
    (∀ (msg : Msg) (before : Option Asc) (seen : List MsgKey) (shallow : Bool)
       (f₁ f₂ : Nat), wFuel acat ≤ f₁ → wFuel acat ≤ f₂ →
       asc_collect_history_w config acat f₁ msg before seen shallow =
       asc_collect_history_w config acat f₂ msg before seen shallow) ∧
    (∀ (fuel : Nat) (msg : Msg) (before : Option Asc) (seen : List MsgKey)
       (shallow : Bool), msg.key ∈ seen →
       asc_collect_history_w config acat fuel msg before seen shallow = .ok []) := by
  constructor
  · intro msg before seen shallow f₁ f₂ hf1 hf2
    have hb : phiW acat seen msg ≤ wFuel acat - 2 := by
      have h1 : keysLeft acat seen ≤ ((acat.map Msg.key).dedup).length :=
        List.length_filter_le _ _
      have h2 : phiW acat seen msg ≤ 2 * keysLeft acat seen + 1 := by
        unfold phiW
        split <;> omega
      unfold wFuel
      omega
    have hw : 2 ≤ wFuel acat := by unfold wFuel; omega
    exact w_stable config acat (wFuel acat - 2) msg before seen shallow f₁ f₂ hb
      (by omega) (by omega)
  · exact w_guard config acat

def c4RA : Msg :=
  { msgid := "A".toList, msgstr := ["a|~".toList],
    msgid_previous := some "B|~".toList, fuzzy := true,
    auto_comment := ["modified: alice | 9 | 1f".toList] }

def c4RB : Msg :=
  { msgid := "B".toList, msgstr := ["b|~".toList],
    msgid_previous := some "A|~".toList, fuzzy := true,
    auto_comment := ["modified: bob | 4 | 1f".toList] }

/-- A cyclic record graph: A pivots to B and B pivots back to A. -/
def c4acat : ACat := [c4RA, c4RB]

def c4mA : Msg :=
  { msgid := "A".toList, msgstr := ["a".toList],
    msgid_previous := some "B".toList, fuzzy := true }

/-- C4 witness: on the cyclic record graph, the theorem applied at the
canonical fuel and a larger one gives identical reconstructions; the
guard applied to an already-visited identity returns the empty
continuation; and the reconstruction of A is exactly the partial chain
A, B collected up to the cycle. -/
theorem claim_C4_witness :
    asc_collect_history_w c3cfg c4acat (wFuel c4acat) c4mA none [] false =
      asc_collect_history_w c3cfg c4acat (wFuel c4acat + 5) c4mA none [] false ∧
    asc_collect_history_w c3cfg c4acat 10 c4mA none [c4mA.key] false = .ok [] ∧
    (asc_collect_history_w c3cfg c4acat (wFuel c4acat) c4mA none [] false).toOption.map
        (fun hist => hist.map (fun a => (a.user, a.date))) =
      some [(some "alice".toList, some 9), (some "bob".toList, some 4)] :=
  ⟨(claim_C4 c3cfg c4acat).1 c4mA none [] false _ _ (by decide) (by decide),
   (claim_C4 c3cfg c4acat).2 10 c4mA none [c4mA.key] false (by decide),
   by decide⟩

theorem assignPos_cons (x : Asc) (hist : List Asc) :
    assignPos (x :: hist) =
      { x with pos := 1 } :: (assignPos hist).map (fun a => { a with pos := a.pos + 1 }) := by
  unfold assignPos
  simp only [List.length_cons, List.range_succ_eq_map, List.zip_cons_cons,
    List.map_cons, List.zip_map_right, List.map_map]
  rfl

theorem assignPos_strip : ∀ hist : List Asc,
    (assignPos hist).map (fun a => { a with pos := 0 }) =
      hist.map (fun a => { a with pos := 0 }) := by
  intro hist
  induction hist with
  | nil => rfl
  | cons x rest ih =>
    rw [assignPos_cons]
    simp only [List.map_cons, List.map_map]
    congr 1

theorem assignPos_pos_map : ∀ hist : List Asc,
    (assignPos hist).map Asc.pos = (List.range hist.length).map (fun i => i + 1) := by
  intro hist
  induction hist with
  | nil => rfl
  | cons x rest ih =>
    rw [assignPos_cons]
    simp only [List.map_cons, List.map_map, List.length_cons, List.range_succ_eq_map]
    congr 1
    have h1 : List.map (Asc.pos ∘ fun a : Asc => { a with pos := a.pos + 1 }) (assignPos rest)
        = List.map ((fun i => i + 1) ∘ Asc.pos) (assignPos rest) := rfl
    rw [h1, ← List.map_map _ Asc.pos, ih, List.map_map]

/-- C5: whenever the reconstructed history is empty or the live message
differs under ascription-equality from the newest reconstructed
snapshot, `asc_collect_history` prepends exactly one synthetic entry
with user `none`, kind Modification, and the live message as snapshot
(at position 1, the rest of the history following at positions 2..);
instantiated by `claim_C5_witness` on a never-ascribed
currently-translated message, whose history is exactly that one
synthetic entry. -/
theorem claim_C5 (config : Config) (acat : ACat) (msg : Msg) (hw : List Asc)
    (h1 : asc_collect_history_w config acat (wFuel acat) msg none [] false = .ok hw)
    (h2 : hw = [] ∨ ∃ a0, hw.head? = some a0 ∧ asc_eq msg a0.msg = false) :
    ∃ tailR,
      asc_collect_history config acat msg =
        .ok ({ msg := msg, user := none, type := ATYPE_MOD, tag := [], date := none,
               slen := 0, fuzz := false, obs := false, pos := 1 } :: tailR) ∧
      tailR.map (fun a => { a with pos := 0 }) = hw.map (fun a => { a with pos := 0 }) ∧
      tailR.map Asc.pos = (List.range hw.length).map (fun i => i + 2) := by
  refine ⟨(assignPos hw).map (fun a => { a with pos := a.pos + 1 }), ?_, ?_, ?_⟩
  · unfold asc_collect_history
    rw [h1]
    simp only [Except.map]
    have hins : (match hw.head? with
        | none => [syntheticHead msg]
        | some a0 => if ¬ asc_eq msg a0.msg then syntheticHead msg :: hw else hw) =
        syntheticHead msg :: hw := by
      rcases h2 with rfl | ⟨a0, ha0, hne⟩
      · rfl
      · rw [ha0]
        simp [hne]
    rw [hins, assignPos_cons]
    rfl
  · rw [List.map_map]
    have : ((fun a => { a with pos := 0 }) ∘ fun a : Asc => { a with pos := a.pos + 1 }) =
        (fun a : Asc => { a with pos := 0 }) := rfl
    rw [this, assignPos_strip]
  · rw [List.map_map]
    have : (Asc.pos ∘ fun a : Asc => { a with pos := a.pos + 1 }) =
        (fun i => i + 1) ∘ Asc.pos := rfl
    rw [this, ← List.map_map, assignPos_pos_map, List.map_map]
    rfl

def c5m : Msg := { msgid := "t".toList, msgstr := ["tr".toList] }

/-- C5 witness: a never-ascribed, currently-translated message — the
returned history is exactly one synthetic entry (user `none`, kind
Modification, snapshot = live message, position 1, empty tail). -/
theorem claim_C5_witness :
    ∃ tailR,
      asc_collect_history c3cfg c3acat c5m =
        .ok ({ msg := c5m, user := none, type := ATYPE_MOD, tag := [], date := none,
               slen := 0, fuzz := false, obs := false, pos := 1 } :: tailR) ∧
      tailR.map (fun a => { a with pos := 0 }) =
        ([] : List Asc).map (fun a => { a with pos := 0 }) ∧
      tailR.map Asc.pos = (List.range ([] : List Asc).length).map (fun i => i + 2) :=
  claim_C5 c3cfg c3acat c5m [] (by rfl) (Or.inl rfl)




/-- Modelled from the spec: the external differencer `msg_ediff` with
`addrem="a"` (`pology.misc.diff`, not under `src/`, consumed as a black
box): each translation item of the newer message is reduced to only its
added segments relative to the older message; for a text extending the
older one by an appended suffix, the added segment is that suffix. -/
def ediffAdded (older newer : Msg) : Msg :=
  let reduce : Str × Option Str → Str := fun p =>
    match p.2 with
    | some o => if o.isPrefixOf p.1 then p.1.drop o.length else p.1
    | none => p.1
  let paired := newer.msgstr.zip (older.msgstr.map some ++ List.replicate newer.msgstr.length none)
  { newer with msgstr := paired.map reduce }

theorem addremPass_getElem? (ediff : Msg → Msg → Msg) :
    ∀ (hist : List Asc) (i : Nat),
      (addremPass ediff hist)[i]? = (hist[i]?).map (fun a =>
        if a.type = ATYPE_MOD then
          match (hist.drop (i + 1)).find? (fun b => decide (b.type = ATYPE_MOD)) with
          | some b => { a with msg := ediff b.msg a.msg }
          | none => a
        else a) := by
  intro hist
  induction hist with
  | nil => intro i; simp [addremPass]
  | cons a rest ih =>
    intro i
    cases i with
    | zero => simp [addremPass]
    | succ i' => simpa [addremPass] using ih i'

theorem find?_of_first {α : Type} {p : α → Bool} :
    ∀ (l : List α) (m : Nat) (x : α), l[m]? = some x → p x = true →
      (∀ k, k < m → ∀ y, l[k]? = some y → p y = false) →
      l.find? p = some x := by
  intro l
  induction l with
  | nil => intro m x h; simp at h
  | cons a rest ih =>
    intro m x hx hp hlt
    cases m with
    | zero =>
      simp only [List.getElem?_cons_zero, Option.some.injEq] at hx
      subst hx
      exact List.find?_cons_of_pos _ hp
    | succ m' =>
      have ha : p a = false := hlt 0 (Nat.succ_pos _) a (by simp)
      simp only [List.getElem?_cons_succ] at hx
      rw [List.find?_cons_of_neg _ (by simp [ha])]
      exact ih m' x hx hp (fun k hk y hy => hlt (k + 1) (by omega) y (by simpa using hy))

/-- C7 (amended): the `addrem` pass walks the history newest to oldest
and replaces each Modification entry's message with the external
reduction relative to the *nearest older* Modification entry; Review
entries and the *oldest* Modification entry (not the newest entry, see
`claim_C7_cex`) are left untouched; and for two Modification entries
where the newer translation is the older plus an appended suffix, the
reduced "added" snapshot of the newer entry contains only that
suffix. -/
theorem claim_C7 (ediff : Msg → Msg → Msg) (hist : List Asc) :
    (∀ (i : Nat) (x : Asc), hist[i]? = some x → x.type ≠ ATYPE_MOD →
       (addremPass ediff hist)[i]? = some x) ∧
    (∀ (i : Nat) (x : Asc), hist[i]? = some x → x.type = ATYPE_MOD →
       (∀ (k : Nat) (y : Asc), i < k → hist[k]? = some y → y.type ≠ ATYPE_MOD) →
       (addremPass ediff hist)[i]? = some x) ∧
    (∀ (i j : Nat) (x y : Asc), hist[i]? = some x → hist[j]? = some y → i < j →
       x.type = ATYPE_MOD → y.type = ATYPE_MOD →
       (∀ (k : Nat) (z : Asc), i < k → k < j → hist[k]? = some z → z.type ≠ ATYPE_MOD) →
       (addremPass ediff hist)[i]? = some { x with msg := ediff y.msg x.msg }) ∧
    (∀ (s t : Str) (a1 a2 : Asc), a1.type = ATYPE_MOD → a2.type = ATYPE_MOD →
       a1.msg.msgstr = [s ++ t] → a2.msg.msgstr = [s] →
       (addremPass ediffAdded [a1, a2]).head?.map (fun a => a.msg.msgstr) = some [t]) := by
  refine ⟨?_, ?_, ?_, ?_⟩
  · intro i x hx hntype
    rw [addremPass_getElem? ediff hist i, hx]
    simp [hntype]
  · intro i x hx htype hnone
    rw [addremPass_getElem? ediff hist i, hx]
    have hfind : (hist.drop (i + 1)).find? (fun b => decide (b.type = ATYPE_MOD)) = none := by
      rw [List.find?_eq_none]
      intro z hz
      obtain ⟨k, hk⟩ := List.mem_iff_getElem?.mp hz
      rw [List.getElem?_drop] at hk
      have := hnone (i + 1 + k) z (by omega) hk
      simp [this]
    simp [htype, hfind]
  · intro i j x y hx hy hij hxt hyt hbetween
    rw [addremPass_getElem? ediff hist i, hx]
    have hfind : (hist.drop (i + 1)).find? (fun b => decide (b.type = ATYPE_MOD)) = some y := by
      apply find?_of_first _ (j - (i + 1)) y
      · rw [List.getElem?_drop]
        rwa [show i + 1 + (j - (i + 1)) = j by omega]
      · simp [hyt]
      · intro k hk z hz
        rw [List.getElem?_drop] at hz
        have := hbetween (i + 1 + k) z (by omega) (by omega) hz
        simp [this]
    simp [hxt, hfind]
  · intro s t a1 a2 h1 h2 hm1 hm2
    simp only [addremPass, h1, if_pos rfl]
    have hfind : ([a2].find? (fun b => decide (b.type = ATYPE_MOD))) = some a2 :=
      List.find?_cons_of_pos _ (by simp [h2])
    rw [hfind]
    simp only [List.head?_cons, Option.map_some]
    simp only [ediffAdded, hm1, hm2]
    have hpfx : s.isPrefixOf (s ++ t) = true :=
      isPrefixOf_eq_true_iff.mpr (List.prefix_append s t)
    simp [hpfx]

def c7m1 : Msg := { msgid := "id".toList, msgstr := ["ab".toList] }

def c7m2 : Msg := { msgid := "id".toList, msgstr := ["a".toList] }

def c7a1 : Asc := { msg := c7m1, user := some "bob".toList, type := ATYPE_MOD, date := some 2 }

def c7a2 : Asc := { msg := c7m2, user := some "alice".toList, type := ATYPE_MOD, date := some 1 }

/-- C7 witness: applying the theorem to the concrete two-entry history
`[c7a1, c7a2]` — the newer entry is reduced to the appended suffix, the
older (oldest Modification) is untouched. -/
theorem claim_C7_witness :
    (addremPass ediffAdded [c7a1, c7a2]).head?.map (fun a => a.msg.msgstr) =
      some ["b".toList] ∧
    (addremPass ediffAdded [c7a1, c7a2])[1]? = some c7a2 :=
  ⟨by
    have h := (claim_C7 ediffAdded [c7a1, c7a2]).2.2.2 "a".toList "b".toList c7a1 c7a2
      (by decide) (by decide) (by decide) (by decide)
    simpa using h,
   (claim_C7 ediffAdded [c7a1, c7a2]).2.1 1 c7a2 (by decide) (by decide)
     (fun k y hk hy => by
       rw [List.getElem?_eq_none (by simp; omega)] at hy
       exact absurd hy (by simp))⟩

/-- C7 counterexample: on a two-Modification history the *newest* entry
is rewritten by the pass (its translation is reduced to the appended
suffix), contradicting the claim's "the single newest entry is left
untouched". -/
theorem claim_C7_cex :
    (addremPass ediffAdded [c7a1, c7a2]).head?.map (fun a => a.msg.msgstr) =
      some ["b".toList] ∧ c7a1.msg.msgstr = ["ab".toList] := by decide

end Pology

namespace Pology

/-! ## The token model of a stored blob

A tracked-field item's stored blob is a newline-joined sequence of
tokens, one per separator-carrying entry (oldest first): a literal
value followed by its marker, a back-reference `e<N>`, or the absence
token `x`. -/

inductive Tok
  | lit (v : Str) (slen : Nat)
  | eqref (n : Nat) (slen : Nat)
  | absent (slen : Nat)
deriving DecidableEq, Repr

def Tok.slen : Tok → Nat
  | .lit _ s => s
  | .eqref _ s => s
  | .absent s => s

def Tok.render : Tok → Str
  | .lit v s => v ++ field_separator_head s
  | .eqref n s => field_separator_head s ++ _trsep_mod_eq :: natRepr n
  | .absent s => field_separator_head s ++ [_trsep_mod_none]

def renderBlob (toks : List Tok) : Str := joinWithNL (toks.map Tok.render)

/-- Cursor position at the start of the m-th token (each token is
followed by one separator slot). -/
def tokEnd (toks : List Tok) (m : Nat) : Nat :=
  ((toks.take m).map (fun t => t.render.length + 1)).sum

/-- The value each token decodes to: literals decode to themselves,
absence to `none`, and a back-reference to the n-th decoded value. -/
def decodedValsGo : List Tok → List (Option Str) → List (Option Str)
  | [], acc => acc
  | t :: rest, acc =>
    let v : Option Str :=
      match t with
      | .lit v _ => some v
      | .absent _ => none
      | .eqref n _ => acc.getD n none
    decodedValsGo rest (acc ++ [v])

def decodedVals (toks : List Tok) : List (Option Str) := decodedValsGo toks []

/-- Well-formed writer-produced token lists: literal values never
contain their own marker, and back-references point strictly
backwards. -/
def TokListWF (toks : List Tok) : Prop :=
  ∀ k t, toks[k]? = some t →
    (∀ v s, t = Tok.lit v s → containsSub (field_separator_head s) v = false) ∧
    (∀ n s, t = Tok.eqref n s → n < k)

theorem decodedValsGo_length (toks : List Tok) :
    ∀ acc, (decodedValsGo toks acc).length = acc.length + toks.length := by
  induction toks with
  | nil => intro acc; simp [decodedValsGo]
  | cons t rest ih =>
    intro acc
    simp only [decodedValsGo, ih, List.length_append, List.length_cons,
      List.length_nil]
    omega

theorem decodedVals_length (toks : List Tok) :
    (decodedVals toks).length = toks.length := by
  simpa using decodedValsGo_length toks []

theorem decodedValsGo_stable (toks : List Tok) :
    ∀ acc j, j < acc.length → (decodedValsGo toks acc)[j]? = acc[j]? := by
  induction toks with
  | nil => intro acc j hj; rfl
  | cons t rest ih =>
    intro acc j hj
    simp only [decodedValsGo]
    rw [ih _ j (by simp; omega), List.getElem?_append_left hj]

theorem decodedValsGo_getElem (toks : List Tok) :
    ∀ acc m t, toks[m]? = some t →
      (∀ n s, t = Tok.eqref n s → n < acc.length + m) →
      (decodedValsGo toks acc)[acc.length + m]? =
        some (match t with
          | .lit v _ => some v
          | .absent _ => none
          | .eqref n _ => ((decodedValsGo toks acc)[n]?).getD none) := by
  induction toks with
  | nil => intro acc m t h; simp at h
  | cons t0 rest ih =>
    intro acc m t ht hwf
    cases m with
    | zero =>
      simp only [List.getElem?_cons_zero, Option.some.injEq] at ht
      subst ht
      simp only [decodedValsGo, Nat.add_zero]
      rw [decodedValsGo_stable rest _ acc.length (by simp)]
      rw [List.getElem?_append_right (Nat.le_refl _)]
      simp only [Nat.sub_self, List.getElem?_cons_zero]
      cases t0 with
      | lit v s => rfl
      | absent s => rfl
      | eqref n s =>
        have hn : n < acc.length := by simpa using hwf n s rfl
        simp only
        congr 1
        rw [decodedValsGo_stable rest _ n (by simp; omega),
          List.getElem?_append_left hn]
        rw [List.getD_eq_getElem?_getD]
    | succ m' =>
      simp only [List.getElem?_cons_succ] at ht
      simp only [decodedValsGo]
      have := ih (acc ++ [match t0 with
          | .lit v _ => some v
          | .absent _ => none
          | .eqref n _ => acc.getD n none]) m' t ht
        (by intro n s hts; have := hwf n s hts; simp; omega)
      rw [show acc.length + (m' + 1) = (acc ++ [match t0 with
          | .lit v _ => some v
          | .absent _ => none
          | .eqref n _ => acc.getD n none]).length + m' by simp; omega]
      exact this

def tokVal (toks : List Tok) (t : Tok) : Option Str :=
  match t with
  | .lit v _ => some v
  | .absent _ => none
  | .eqref n _ => ((decodedVals toks)[n]?).getD none

theorem decodedVals_getElem {toks : List Tok} {m : Nat} {t : Tok}
    (ht : toks[m]? = some t) (hwf : ∀ n s, t = Tok.eqref n s → n < m) :
    (decodedVals toks)[m]? = some (tokVal toks t) := by
  have h := decodedValsGo_getElem toks [] m t ht (by simpa using hwf)
  simp only [List.length_nil, Nat.zero_add] at h
  rw [decodedVals, h]
  cases t <;> rfl

end Pology

namespace Pology

theorem contains_false_of_not_mem {l : Str} {a : Char} (h : a ∉ l) :
    l.contains a = false := by
  rw [Bool.eq_false_iff]
  intro hc
  exact h (List.mem_of_elem_eq_true hc)

theorem contains_true_of_mem {l : Str} {a : Char} (h : a ∈ l) :
    l.contains a = true :=
  List.elem_eq_true_of_mem h

theorem render_ne_nil (t : Tok) : t.render ≠ [] := by
  cases t <;> simp [Tok.render, field_separator_head]

theorem tokEnd_zero (toks : List Tok) : tokEnd toks 0 = 0 := by
  simp [tokEnd]

theorem tokEnd_cons_succ (t0 : Tok) (rest : List Tok) (m : Nat) :
    tokEnd (t0 :: rest) (m + 1) = t0.render.length + 1 + tokEnd rest m := by
  simp only [tokEnd, List.take_succ_cons, List.map_cons, List.sum_cons]

theorem tokEnd_succ {toks : List Tok} {m : Nat} {t : Tok} (ht : toks[m]? = some t) :
    tokEnd toks (m + 1) = tokEnd toks m + t.render.length + 1 := by
  induction toks generalizing m with
  | nil => simp at ht
  | cons t0 rest ih =>
    cases m with
    | zero =>
      simp only [List.getElem?_cons_zero, Option.some.injEq] at ht
      subst ht
      rw [tokEnd_cons_succ, tokEnd_zero, tokEnd_zero]
      omega
    | succ m' =>
      simp only [List.getElem?_cons_succ] at ht
      rw [tokEnd_cons_succ, tokEnd_cons_succ, ih ht]
      omega

theorem renderBlob_cons (t0 : Tok) (rest : List Tok) (hne : rest ≠ []) :
    renderBlob (t0 :: rest) = t0.render ++ '\n' :: renderBlob rest := by
  unfold renderBlob
  cases rest with
  | nil => exact absurd rfl hne
  | cons t1 r2 => rfl

theorem renderBlob_drop : ∀ (toks : List Tok) (m : Nat) (t : Tok), toks[m]? = some t →
    (renderBlob toks).drop (tokEnd toks m) =
      t.render ++
        (if toks.length = m + 1 then [] else '\n' :: renderBlob (toks.drop (m + 1))) := by
  intro toks
  induction toks with
  | nil => intro m t ht; simp at ht
  | cons t0 rest ih =>
    intro m t ht
    cases m with
    | zero =>
      simp only [List.getElem?_cons_zero, Option.some.injEq] at ht
      subst ht
      rw [tokEnd_zero, List.drop_zero]
      cases rest with
      | nil => simp [renderBlob, joinWithNL]
      | cons t1 r2 =>
        rw [renderBlob_cons _ _ (by simp)]
        simp
    | succ m' =>
      simp only [List.getElem?_cons_succ] at ht
      have hne : rest ≠ [] := by
        intro he
        rw [he] at ht
        simp at ht
      rw [renderBlob_cons _ _ hne, tokEnd_cons_succ]
      have hsplit : t0.render ++ '\n' :: renderBlob rest =
          (t0.render ++ ['\n']) ++ renderBlob rest := by simp
      rw [hsplit, show t0.render.length + 1 + tokEnd rest m' =
        (t0.render ++ ['\n']).length + tokEnd rest m' by simp]
      rw [List.drop_append]
      rw [ih m' t ht]
      simp only [List.length_cons, List.drop_succ_cons]
      congr 1
      by_cases hc : rest.length = m' + 1
      · rw [if_pos hc, if_pos (by omega)]
      · rw [if_neg hc, if_neg (by omega)]

theorem renderBlob_length_at {toks : List Tok} {m : Nat} {t : Tok}
    (ht : toks[m]? = some t) :
    tokEnd toks m + t.render.length ≤ (renderBlob toks).length ∧
    (toks.length = m + 1 →
      (renderBlob toks).length = tokEnd toks m + t.render.length) := by
  have h := renderBlob_drop toks m t ht
  have hlen := congrArg List.length h
  rw [List.length_drop, List.length_append] at hlen
  by_cases hlast : toks.length = m + 1
  · rw [if_pos hlast] at hlen
    simp only [List.length_nil] at hlen
    have hr := render_ne_nil t
    have hrl : 1 ≤ t.render.length := by
      cases hre : t.render with
      | nil => exact absurd hre hr
      | cons a b => simp
    constructor
    · omega
    · intro
      omega
  · rw [if_neg hlast] at hlen
    simp only [List.length_cons] at hlen
    have hr := render_ne_nil t
    have hrl : 1 ≤ t.render.length := by
      cases hre : t.render with
      | nil => exact absurd hre hr
      | cons a b => simp
    exact ⟨by omega, fun hc => absurd hc hlast⟩

end Pology

namespace Pology

theorem listExtend_of_le {α : Type} {l : List α} {n : Nat} (pad : α) (h : n ≤ l.length) :
    listExtend l n pad = l := by
  simp [listExtend, Nat.sub_eq_zero_of_le h]

theorem pyFind_nat (s sub : Str) (p : Nat) :
    pyFind s sub ((p : Nat) : Int) =
      match findSub (s.drop p) sub with
      | some k => (((p + k : Nat) : Nat) : Int)
      | none => -1 := by
  unfold pyFind
  have h1 : ¬ ((p : Int) < 0) := by omega
  simp only [h1, if_false, Int.toNat_natCast]

theorem pySlice_nat {s : Str} {a b : Nat} (hab : a ≤ b) (hb : b ≤ s.length) :
    pySlice s ((a : Nat) : Int) ((b : Nat) : Int) = (s.drop a).take (b - a) := by
  unfold pySlice sliceIdx
  have h1 : ¬ ((a : Int) < 0) := by omega
  have h2 : ¬ ((b : Int) < 0) := by omega
  simp only [h1, h2, if_false, Int.toNat_natCast]
  rw [Nat.min_eq_left hb, Nat.min_eq_left (Nat.le_trans hab hb)]
  rw [List.drop_take]

theorem nl_not_mem_marker (L : Nat) : '\n' ∉ field_separator_head L := by
  intro h
  rcases mem_field_separator_head h with h | h <;> simp at h

theorem nl_not_mem_replicate (L : Nat) : '\n' ∉ List.replicate L '~' := by
  intro h
  have := List.eq_of_mem_replicate h
  simp at this

theorem nl_not_mem_natRepr (n : Nat) : '\n' ∉ natRepr n := by
  intro h
  obtain ⟨d, hd, he⟩ := natRepr_mem h
  exact absurd he.symm (digitChar_not_special hd).2.1

theorem pyFind_found {s sub : Str} {p k : Nat} (h : findSub (s.drop p) sub = some k) :
    pyFind s sub ((p : Nat) : Int) = (((p + k : Nat)) : Int) := by
  rw [pyFind_nat, h]

theorem pyFind_missing {s sub : Str} {p : Nat} (h : findSub (s.drop p) sub = none) :
    pyFind s sub ((p : Nat) : Int) = -1 := by
  rw [pyFind_nat, h]

theorem pyFind_zero_found {s sub : Str} {k : Nat} (h : findSub s sub = some k) :
    pyFind s sub 0 = ((k : Nat) : Int) := by
  have h3 : pyFind s sub (((0 : Nat)) : Int) = (((0 + k : Nat)) : Int) :=
    pyFind_found (show findSub (s.drop 0) sub = some k from h)
  simpa using h3

theorem drop_sep_head (s : Nat) (W : Str) :
    (field_separator_head s ++ W).drop (s + 1) = W := by
  show ('|' :: (List.replicate s '~' ++ W)).drop (s + 1) = W
  rw [List.drop_succ_cons, List.drop_append_of_le_length (by simp)]
  simp

theorem drop_sep_one (s : Nat) (W : Str) :
    (field_separator_head s ++ W).drop 1 = List.replicate s '~' ++ W := rfl

theorem nl_not_mem_eqref_blob (s n : Nat) :
    '\n' ∉ List.replicate s '~' ++ (_trsep_mod_eq :: natRepr n) := by
  intro hmem
  rcases List.mem_append.mp hmem with h | h
  · exact nl_not_mem_replicate s h
  · rcases List.mem_cons.mp h with h | h
    · exact absurd h (by decide)
    · exact nl_not_mem_natRepr n h

theorem nl_not_mem_absent_blob (s : Nat) :
    '\n' ∉ List.replicate s '~' ++ [_trsep_mod_none] := by
  intro hmem
  rcases List.mem_append.mp hmem with h | h
  · exact nl_not_mem_replicate s h
  · rcases List.mem_cons.mp h with h | h
    · exact absurd h (by decide)
    · simp at h

theorem amsg_step_value_spec (toks : List Tok) (m : Nat) (t : Tok)
    (ht : toks[m]? = some t)
    (hwf : TokListWF toks)
    (i : Nat) (st : StepState)
    (hisp : i < st.spos.length) (hipv : i < st.pvals.length)
    (hsp : st.spos[i]? = some (tokEnd toks m))
    (hpv : st.pvals[i]? = some ((decodedVals toks).take m)) :
    amsg_step_value (renderBlob toks) (field_separator_head t.slen) ['\n'] st i =
      (((decodedVals toks)[m]?).getD none,
       ⟨st.spos.set i (tokEnd toks (m + 1)),
        st.pvals.set i ((decodedVals toks).take (m + 1))⟩) := by
  have hm : m < toks.length := by
    by_contra hc
    rw [List.getElem?_eq_none (by omega)] at ht
    exact absurd ht (by simp)
  have hdrop := renderBlob_drop toks m t ht
  have hlen := (renderBlob_length_at ht).1
  have hlast := (renderBlob_length_at ht).2
  have hsucc := tokEnd_succ ht
  have hdm := decodedVals_getElem ht (fun n s hts => ((hwf m t ht).2 n s hts))
  have htake : (decodedVals toks).take (m + 1) =
      (decodedVals toks).take m ++ [tokVal toks t] := by
    rw [List.take_succ, hdm]
    rfl
  simp only [amsg_step_value]
  rw [listExtend_of_le 0 (by omega), listExtend_of_le ([] : List (Option Str)) (by omega)]
  have hspD : st.spos.getD i 0 = tokEnd toks m := by
    rw [List.getD_eq_getElem?_getD, hsp]
    rfl
  have hpvD : st.pvals.getD i [] = (decodedVals toks).take m := by
    rw [List.getD_eq_getElem?_getD, hpv]
    rfl
  rw [hspD, hpvD]
  cases t with
  | lit v s =>
    simp only [Tok.slen]
    have hnc : containsSub (field_separator_head s) v = false :=
      (hwf m _ ht).1 v s rfl
    have hrlen : (Tok.lit v s).render.length = v.length + (s + 1) := by
      simp only [Tok.render, List.length_append, field_separator_head_length]
    by_cases hl : toks.length = m + 1
    · rw [if_pos hl] at hdrop
      have hXdrop : (renderBlob toks).drop (tokEnd toks m) =
          v ++ field_separator_head s := by
        rw [hdrop, List.append_nil]
        rfl
      have hfind1 : findSub ((renderBlob toks).drop (tokEnd toks m))
          (field_separator_head s) = some v.length := by
        rw [hXdrop, show (v ++ field_separator_head s : Str) =
          v ++ field_separator_head s ++ ([] : Str) from (List.append_nil _).symm]
        exact findSub_value_marker hnc
      have hdrop2 : (renderBlob toks).drop (tokEnd toks m + (v.length + 1)) =
          List.replicate s '~' := by
        rw [List.drop_add, hXdrop, List.drop_append 1]
        rfl
      have hfind2 : findSub ((renderBlob toks).drop (tokEnd toks m + (v.length + 1)))
          ['\n'] = none := by
        rw [hdrop2]
        exact findSub_char_none (nl_not_mem_replicate s)
      have hlen2 : (renderBlob toks).length = tokEnd toks m + (v.length + (s + 1)) := by
        rw [hlast hl, hrlen]
      rw [pyFind_found hfind1]
      rw [show ((((tokEnd toks m + v.length : Nat)) : Int) + 1) =
        (((tokEnd toks m + (v.length + 1) : Nat)) : Int) from by omega]
      rw [pyFind_missing hfind2]
      rw [if_pos (show ((-1 : Int) < 0) from by norm_num)]
      rw [field_separator_head_length]
      rw [show ((((tokEnd toks m + v.length : Nat)) : Int) + ((s + 1 : Nat) : Int)) =
        (((tokEnd toks m + (v.length + (s + 1)) : Nat)) : Int) from by omega]
      rw [pySlice_nat (show tokEnd toks m + (v.length + (s + 1)) ≤
            (renderBlob toks).length from by omega) (le_refl _)]
      rw [show (renderBlob toks).length - (tokEnd toks m + (v.length + (s + 1))) = 0
        from by omega, List.take_zero]
      rw [show (List.contains ([] : Str) _trsep_mod_eq) = false from rfl,
          show (List.contains ([] : Str) _trsep_mod_none) = false from rfl]
      simp only [Bool.false_eq_true, if_false]
      rw [pySlice_nat (show tokEnd toks m ≤ tokEnd toks m + v.length from by omega)
            (show tokEnd toks m + v.length ≤ (renderBlob toks).length from by omega)]
      rw [show tokEnd toks m + v.length - tokEnd toks m = v.length from by omega]
      rw [hXdrop, List.take_left]
      rw [hdm, htake]
      rw [show ((((renderBlob toks).length : Nat) : Int) +
            ((List.length (['\n'] : Str) : Nat) : Int)).toNat = tokEnd toks (m + 1)
        from by simp only [List.length_cons, List.length_nil]; omega]
      rfl
    · rw [if_neg hl] at hdrop
      have hXdrop : (renderBlob toks).drop (tokEnd toks m) =
          v ++ (field_separator_head s ++ ('\n' :: renderBlob (toks.drop (m + 1)))) := by
        rw [hdrop, ← List.append_assoc]
        rfl
      have hfind1 : findSub ((renderBlob toks).drop (tokEnd toks m))
          (field_separator_head s) = some v.length := by
        rw [hXdrop, ← List.append_assoc]
        exact findSub_value_marker hnc
      have hdrop2 : (renderBlob toks).drop (tokEnd toks m + (v.length + 1)) =
          List.replicate s '~' ++ ('\n' :: renderBlob (toks.drop (m + 1))) := by
        rw [List.drop_add, hXdrop, List.drop_append 1, drop_sep_one]
      have hfind2 : findSub ((renderBlob toks).drop (tokEnd toks m + (v.length + 1)))
          ['\n'] = some s := by
        rw [hdrop2]
        have h : findSub (List.replicate s '~' ++
            '\n' :: renderBlob (toks.drop (m + 1))) ['\n'] =
            some (List.replicate s '~').length :=
          findSub_char (nl_not_mem_replicate s)
        rw [List.length_replicate] at h
        exact h
      rw [pyFind_found hfind1]
      rw [show ((((tokEnd toks m + v.length : Nat)) : Int) + 1) =
        (((tokEnd toks m + (v.length + 1) : Nat)) : Int) from by omega]
      rw [pyFind_found hfind2]
      rw [if_neg (show ¬ ((((tokEnd toks m + (v.length + 1) + s : Nat)) : Int) < 0)
        from by omega)]
      rw [field_separator_head_length]
      rw [show ((((tokEnd toks m + v.length : Nat)) : Int) + ((s + 1 : Nat) : Int)) =
        (((tokEnd toks m + (v.length + (s + 1)) : Nat)) : Int) from by omega]
      rw [pySlice_nat (show tokEnd toks m + (v.length + (s + 1)) ≤
            tokEnd toks m + (v.length + 1) + s from by omega)
          (show tokEnd toks m + (v.length + 1) + s ≤ (renderBlob toks).length
            from by omega)]
      rw [show tokEnd toks m + (v.length + 1) + s -
        (tokEnd toks m + (v.length + (s + 1))) = 0 from by omega, List.take_zero]
      rw [show (List.contains ([] : Str) _trsep_mod_eq) = false from rfl,
          show (List.contains ([] : Str) _trsep_mod_none) = false from rfl]
      simp only [Bool.false_eq_true, if_false]
      rw [pySlice_nat (show tokEnd toks m ≤ tokEnd toks m + v.length from by omega)
            (show tokEnd toks m + v.length ≤ (renderBlob toks).length from by omega)]
      rw [show tokEnd toks m + v.length - tokEnd toks m = v.length from by omega]
      rw [hXdrop, List.take_left]
      rw [hdm, htake]
      rw [show ((((tokEnd toks m + (v.length + 1) + s : Nat)) : Int) +
            ((List.length (['\n'] : Str) : Nat) : Int)).toNat = tokEnd toks (m + 1)
        from by simp only [List.length_cons, List.length_nil]; omega]
      rfl
  | eqref n s =>
    simp only [Tok.slen]
    have hn : n < m := (hwf m _ ht).2 n s rfl
    have hrlen : (Tok.eqref n s).render.length = (s + 1) + (1 + (natRepr n).length) := by
      simp only [Tok.render, List.length_append, field_separator_head_length,
        List.length_cons]
      omega
    by_cases hl : toks.length = m + 1
    · rw [if_pos hl] at hdrop
      have hXdrop : (renderBlob toks).drop (tokEnd toks m) =
          field_separator_head s ++ (_trsep_mod_eq :: natRepr n) := by
        rw [hdrop, List.append_nil]
        rfl
      have hfind1 : findSub ((renderBlob toks).drop (tokEnd toks m))
          (field_separator_head s) = some 0 := by
        rw [hXdrop]
        exact findSub_self_pre
      have hdrop2 : (renderBlob toks).drop (tokEnd toks m + 1) =
          List.replicate s '~' ++ (_trsep_mod_eq :: natRepr n) := by
        rw [List.drop_add, hXdrop, drop_sep_one]
      have hfind2 : findSub ((renderBlob toks).drop (tokEnd toks m + 1)) ['\n'] =
          none := by
        rw [hdrop2]
        exact findSub_char_none (nl_not_mem_eqref_blob s n)
      have hlen2 : (renderBlob toks).length =
          tokEnd toks m + ((s + 1) + (1 + (natRepr n).length)) := by
        rw [hlast hl, hrlen]
      rw [pyFind_found hfind1]
      rw [show (((tokEnd toks m + 0 : Nat)) : Int) = (((tokEnd toks m : Nat)) : Int)
        from by omega]
      rw [show ((((tokEnd toks m : Nat)) : Int) + 1) =
        (((tokEnd toks m + 1 : Nat)) : Int) from by omega]
      rw [pyFind_missing hfind2]
      rw [if_pos (show ((-1 : Int) < 0) from by norm_num)]
      rw [field_separator_head_length]
      rw [show ((((tokEnd toks m : Nat)) : Int) + ((s + 1 : Nat) : Int)) =
        (((tokEnd toks m + (s + 1) : Nat)) : Int) from by omega]
      have hdropM : (renderBlob toks).drop (tokEnd toks m + (s + 1)) =
          _trsep_mod_eq :: natRepr n := by
        rw [List.drop_add, hXdrop, drop_sep_head]
      rw [pySlice_nat (show tokEnd toks m + (s + 1) ≤ (renderBlob toks).length
            from by omega) (le_refl _)]
      rw [hdropM]
      rw [show (renderBlob toks).length - (tokEnd toks m + (s + 1)) =
        (_trsep_mod_eq :: natRepr n).length from by simp only [List.length_cons]; omega]
      rw [List.take_length]
      rw [show (List.contains (_trsep_mod_eq :: natRepr n) _trsep_mod_eq) = true
        from contains_true_of_mem (List.mem_cons_self _ _)]
      rw [if_pos rfl]
      have hfe : findSub (_trsep_mod_eq :: natRepr n) [_trsep_mod_eq] = some 0 := by
        show findSub (([_trsep_mod_eq] : Str) ++ natRepr n) [_trsep_mod_eq] = some 0
        exact findSub_self_pre
      rw [show (pyFind (_trsep_mod_eq :: natRepr n) [_trsep_mod_eq] 0).toNat + 1 = 1
        from by rw [pyFind_zero_found hfe]; rfl]
      have hTW : (natRepr n).takeWhile Char.isDigit = natRepr n :=
        List.takeWhile_eq_self_iff.mpr (fun a ha => by
          have hall := natRepr_all_digit n
          rw [List.all_eq_true] at hall
          exact hall a ha)
      rw [show (((_trsep_mod_eq :: natRepr n).drop 1).takeWhile Char.isDigit).length =
        (natRepr n).length from by rw [List.drop_one, List.tail_cons, hTW]]
      rw [pySlice_nat (show 1 ≤ 1 + (natRepr n).length from by omega)
            (show 1 + (natRepr n).length ≤ (_trsep_mod_eq :: natRepr n).length
              from by simp only [List.length_cons]; omega)]
      rw [show ((_trsep_mod_eq :: natRepr n).drop 1) = natRepr n
        from by rw [List.drop_one, List.tail_cons]]
      rw [show 1 + (natRepr n).length - 1 = (natRepr n).length from by omega,
          List.take_length, digitsVal_natRepr]
      rw [List.getD_eq_getElem?_getD, List.getElem?_take_of_lt hn]
      rw [hdm, htake]
      rw [show ((((renderBlob toks).length : Nat) : Int) +
            ((List.length (['\n'] : Str) : Nat) : Int)).toNat = tokEnd toks (m + 1)
        from by simp only [List.length_cons, List.length_nil]; omega]
      rfl
    · rw [if_neg hl] at hdrop
      have hXdrop : (renderBlob toks).drop (tokEnd toks m) =
          field_separator_head s ++ ((_trsep_mod_eq :: natRepr n) ++
            ('\n' :: renderBlob (toks.drop (m + 1)))) := by
        rw [hdrop, ← List.append_assoc]
        rfl
      have hfind1 : findSub ((renderBlob toks).drop (tokEnd toks m))
          (field_separator_head s) = some 0 := by
        rw [hXdrop]
        exact findSub_self_pre
      have hdrop2 : (renderBlob toks).drop (tokEnd toks m + 1) =
          (List.replicate s '~' ++ (_trsep_mod_eq :: natRepr n)) ++
            ('\n' :: renderBlob (toks.drop (m + 1))) := by
        rw [List.drop_add, hXdrop, drop_sep_one, ← List.append_assoc]
      have hfind2 : findSub ((renderBlob toks).drop (tokEnd toks m + 1)) ['\n'] =
          some (s + (1 + (natRepr n).length)) := by
        rw [hdrop2]
        have h : findSub ((List.replicate s '~' ++ (_trsep_mod_eq :: natRepr n)) ++
            '\n' :: renderBlob (toks.drop (m + 1))) ['\n'] =
            some (List.replicate s '~' ++ (_trsep_mod_eq :: natRepr n)).length :=
          findSub_char (nl_not_mem_eqref_blob s n)
        rw [h]
        congr 1
        simp only [List.length_append, List.length_replicate, List.length_cons]
        omega
      rw [pyFind_found hfind1]
      rw [show (((tokEnd toks m + 0 : Nat)) : Int) = (((tokEnd toks m : Nat)) : Int)
        from by omega]
      rw [show ((((tokEnd toks m : Nat)) : Int) + 1) =
        (((tokEnd toks m + 1 : Nat)) : Int) from by omega]
      rw [pyFind_found hfind2]
      rw [if_neg (show ¬ ((((tokEnd toks m + 1 + (s + (1 + (natRepr n).length)) : Nat))
        : Int) < 0) from by omega)]
      rw [field_separator_head_length]
      rw [show ((((tokEnd toks m : Nat)) : Int) + ((s + 1 : Nat) : Int)) =
        (((tokEnd toks m + (s + 1) : Nat)) : Int) from by omega]
      have hdropM : (renderBlob toks).drop (tokEnd toks m + (s + 1)) =
          (_trsep_mod_eq :: natRepr n) ++ ('\n' :: renderBlob (toks.drop (m + 1))) := by
        rw [List.drop_add, hXdrop, drop_sep_head]
      rw [pySlice_nat (show tokEnd toks m + (s + 1) ≤
            tokEnd toks m + 1 + (s + (1 + (natRepr n).length)) from by omega)
          (show tokEnd toks m + 1 + (s + (1 + (natRepr n).length)) ≤
            (renderBlob toks).length from by omega)]
      rw [hdropM]
      rw [show tokEnd toks m + 1 + (s + (1 + (natRepr n).length)) -
        (tokEnd toks m + (s + 1)) = (_trsep_mod_eq :: natRepr n).length
        from by simp only [List.length_cons]; omega]
      rw [List.take_left]
      rw [show (List.contains (_trsep_mod_eq :: natRepr n) _trsep_mod_eq) = true
        from contains_true_of_mem (List.mem_cons_self _ _)]
      rw [if_pos rfl]
      have hfe : findSub (_trsep_mod_eq :: natRepr n) [_trsep_mod_eq] = some 0 := by
        show findSub (([_trsep_mod_eq] : Str) ++ natRepr n) [_trsep_mod_eq] = some 0
        exact findSub_self_pre
      rw [show (pyFind (_trsep_mod_eq :: natRepr n) [_trsep_mod_eq] 0).toNat + 1 = 1
        from by rw [pyFind_zero_found hfe]; rfl]
      have hTW : (natRepr n).takeWhile Char.isDigit = natRepr n :=
        List.takeWhile_eq_self_iff.mpr (fun a ha => by
          have hall := natRepr_all_digit n
          rw [List.all_eq_true] at hall
          exact hall a ha)
      rw [show (((_trsep_mod_eq :: natRepr n).drop 1).takeWhile Char.isDigit).length =
        (natRepr n).length from by rw [List.drop_one, List.tail_cons, hTW]]
      rw [pySlice_nat (show 1 ≤ 1 + (natRepr n).length from by omega)
            (show 1 + (natRepr n).length ≤ (_trsep_mod_eq :: natRepr n).length
              from by simp only [List.length_cons]; omega)]
      rw [show ((_trsep_mod_eq :: natRepr n).drop 1) = natRepr n
        from by rw [List.drop_one, List.tail_cons]]
      rw [show 1 + (natRepr n).length - 1 = (natRepr n).length from by omega,
          List.take_length, digitsVal_natRepr]
      rw [List.getD_eq_getElem?_getD, List.getElem?_take_of_lt hn]
      rw [hdm, htake]
      rw [show ((((tokEnd toks m + 1 + (s + (1 + (natRepr n).length)) : Nat)) : Int) +
            ((List.length (['\n'] : Str) : Nat) : Int)).toNat = tokEnd toks (m + 1)
        from by simp only [List.length_cons, List.length_nil]; omega]
      rfl
  | absent s =>
    simp only [Tok.slen]
    have hrlen : (Tok.absent s).render.length = (s + 1) + 1 := by
      simp only [Tok.render, List.length_append, field_separator_head_length,
        List.length_cons, List.length_nil]
    by_cases hl : toks.length = m + 1
    · rw [if_pos hl] at hdrop
      have hXdrop : (renderBlob toks).drop (tokEnd toks m) =
          field_separator_head s ++ [_trsep_mod_none] := by
        rw [hdrop, List.append_nil]
        rfl
      have hfind1 : findSub ((renderBlob toks).drop (tokEnd toks m))
          (field_separator_head s) = some 0 := by
        rw [hXdrop]
        exact findSub_self_pre
      have hdrop2 : (renderBlob toks).drop (tokEnd toks m + 1) =
          List.replicate s '~' ++ [_trsep_mod_none] := by
        rw [List.drop_add, hXdrop, drop_sep_one]
      have hfind2 : findSub ((renderBlob toks).drop (tokEnd toks m + 1)) ['\n'] =
          none := by
        rw [hdrop2]
        exact findSub_char_none (nl_not_mem_absent_blob s)
      have hlen2 : (renderBlob toks).length = tokEnd toks m + ((s + 1) + 1) := by
        rw [hlast hl, hrlen]
      rw [pyFind_found hfind1]
      rw [show (((tokEnd toks m + 0 : Nat)) : Int) = (((tokEnd toks m : Nat)) : Int)
        from by omega]
      rw [show ((((tokEnd toks m : Nat)) : Int) + 1) =
        (((tokEnd toks m + 1 : Nat)) : Int) from by omega]
      rw [pyFind_missing hfind2]
      rw [if_pos (show ((-1 : Int) < 0) from by norm_num)]
      rw [field_separator_head_length]
      rw [show ((((tokEnd toks m : Nat)) : Int) + ((s + 1 : Nat) : Int)) =
        (((tokEnd toks m + (s + 1) : Nat)) : Int) from by omega]
      have hdropM : (renderBlob toks).drop (tokEnd toks m + (s + 1)) =
          [_trsep_mod_none] := by
        rw [List.drop_add, hXdrop, drop_sep_head]
      rw [pySlice_nat (show tokEnd toks m + (s + 1) ≤ (renderBlob toks).length
            from by omega) (le_refl _)]
      rw [hdropM]
      rw [show (renderBlob toks).length - (tokEnd toks m + (s + 1)) =
        ([_trsep_mod_none] : Str).length
        from by simp only [List.length_cons, List.length_nil]; omega]
      rw [List.take_length]
      rw [show (List.contains ([_trsep_mod_none] : Str) _trsep_mod_eq) = false
        from by decide]
      simp only [Bool.false_eq_true, if_false]
      rw [show (List.contains ([_trsep_mod_none] : Str) _trsep_mod_none) = true
        from by decide]
      rw [if_pos rfl]
      rw [hdm, htake]
      rw [show ((((renderBlob toks).length : Nat) : Int) +
            ((List.length (['\n'] : Str) : Nat) : Int)).toNat = tokEnd toks (m + 1)
        from by simp only [List.length_cons, List.length_nil]; omega]
      rfl
    · rw [if_neg hl] at hdrop
      have hXdrop : (renderBlob toks).drop (tokEnd toks m) =
          field_separator_head s ++ (([_trsep_mod_none] : Str) ++
            ('\n' :: renderBlob (toks.drop (m + 1)))) := by
        rw [hdrop, ← List.append_assoc]
        rfl
      have hfind1 : findSub ((renderBlob toks).drop (tokEnd toks m))
          (field_separator_head s) = some 0 := by
        rw [hXdrop]
        exact findSub_self_pre
      have hdrop2 : (renderBlob toks).drop (tokEnd toks m + 1) =
          (List.replicate s '~' ++ [_trsep_mod_none]) ++
            ('\n' :: renderBlob (toks.drop (m + 1))) := by
        rw [List.drop_add, hXdrop, drop_sep_one, ← List.append_assoc]
      have hfind2 : findSub ((renderBlob toks).drop (tokEnd toks m + 1)) ['\n'] =
          some (s + 1) := by
        rw [hdrop2]
        have h : findSub ((List.replicate s '~' ++ [_trsep_mod_none]) ++
            '\n' :: renderBlob (toks.drop (m + 1))) ['\n'] =
            some (List.replicate s '~' ++ [_trsep_mod_none]).length :=
          findSub_char (nl_not_mem_absent_blob s)
        rw [h]
        congr 1
        simp only [List.length_append, List.length_replicate, List.length_cons,
          List.length_nil]
      rw [pyFind_found hfind1]
      rw [show (((tokEnd toks m + 0 : Nat)) : Int) = (((tokEnd toks m : Nat)) : Int)
        from by omega]
      rw [show ((((tokEnd toks m : Nat)) : Int) + 1) =
        (((tokEnd toks m + 1 : Nat)) : Int) from by omega]
      rw [pyFind_found hfind2]
      rw [if_neg (show ¬ ((((tokEnd toks m + 1 + (s + 1) : Nat)) : Int) < 0)
        from by omega)]
      rw [field_separator_head_length]
      rw [show ((((tokEnd toks m : Nat)) : Int) + ((s + 1 : Nat) : Int)) =
        (((tokEnd toks m + (s + 1) : Nat)) : Int) from by omega]
      have hdropM : (renderBlob toks).drop (tokEnd toks m + (s + 1)) =
          ([_trsep_mod_none] : Str) ++ ('\n' :: renderBlob (toks.drop (m + 1))) := by
        rw [List.drop_add, hXdrop, drop_sep_head]
      rw [pySlice_nat (show tokEnd toks m + (s + 1) ≤ tokEnd toks m + 1 + (s + 1)
            from by omega)
          (show tokEnd toks m + 1 + (s + 1) ≤ (renderBlob toks).length from by omega)]
      rw [hdropM]
      rw [show tokEnd toks m + 1 + (s + 1) - (tokEnd toks m + (s + 1)) =
        ([_trsep_mod_none] : Str).length
        from by simp only [List.length_cons, List.length_nil]; omega]
      rw [List.take_left]
      rw [show (List.contains ([_trsep_mod_none] : Str) _trsep_mod_eq) = false
        from by decide]
      simp only [Bool.false_eq_true, if_false]
      rw [show (List.contains ([_trsep_mod_none] : Str) _trsep_mod_none) = true
        from by decide]
      rw [if_pos rfl]
      rw [hdm, htake]
      rw [show ((((tokEnd toks m + 1 + (s + 1) : Nat)) : Int) +
            ((List.length (['\n'] : Str) : Nat) : Int)).toNat = tokEnd toks (m + 1)
        from by simp only [List.length_cons, List.length_nil]; omega]
      rfl

theorem range_map_getD {α : Type} (l : List α) (d : α) :
    (List.range l.length).map (fun i => l.getD i d) = l := by
  induction l with
  | nil => rfl
  | cons a r ih =>
    rw [List.length_cons, List.range_succ_eq_map, List.map_cons, List.map_map]
    refine congrArg₂ _ (by simp) ?_
    refine (List.map_congr_left (fun i _ => ?_)).trans ih
    simp [List.getD_cons_succ]

theorem length_listExtend {α : Type} (l : List α) (n : Nat) (pad : α) :
    (listExtend l n pad).length = max l.length n := by
  simp only [listExtend, List.length_append, List.length_replicate]
  omega

theorem getD_listExtend {α : Type} (l : List α) (n : Nat) (pad : α) (i : Nat) :
    (listExtend l n pad).getD i pad = l.getD i pad := by
  rw [List.getD_eq_getElem?_getD, List.getD_eq_getElem?_getD]
  simp only [listExtend]
  by_cases h : i < l.length
  · rw [List.getElem?_append_left h]
  · rw [show l[i]? = none from List.getElem?_eq_none (by omega)]
    by_cases h2 : i < l.length + (n - l.length)
    · rw [List.getElem?_append_right (by omega), List.getElem?_replicate]
      rw [if_pos (by omega)]
      rfl
    · rw [show (l ++ List.replicate (n - l.length) pad)[i]? = none from
        List.getElem?_eq_none
          (by simp only [List.length_append, List.length_replicate]; omega)]

theorem listExtend_idem {α : Type} (l : List α) (n : Nat) (pad : α) :
    listExtend (listExtend l n pad) n pad = listExtend l n pad := by
  simp only [listExtend, List.length_append, List.length_replicate]
  rw [show n - (l.length + (n - l.length)) = 0 from by omega]
  simp

theorem getElem?_of_getD {α : Type} (l : List α) (d : α) (i : Nat) (h : i < l.length) :
    l[i]? = some (l.getD i d) := by
  rw [List.getD_eq_getElem?_getD, List.getElem?_eq_getElem h]
  rfl

theorem getD_set_self {α : Type} {l : List α} {i : Nat} (a d : α) (h : i < l.length) :
    (l.set i a).getD i d = a := by
  rw [List.getD_eq_getElem?_getD, List.getElem?_set_eq h]
  rfl

theorem getD_set_ne {α : Type} {l : List α} {i j : Nat} (a d : α) (h : i ≠ j) :
    (l.set i a).getD j d = l.getD j d := by
  rw [List.getD_eq_getElem?_getD, List.getElem?_set_ne h, List.getD_eq_getElem?_getD]

theorem amsg_step_value_extend (aval shead stail : Str) (st : StepState) (i : Nat) :
    amsg_step_value aval shead stail st i =
      amsg_step_value aval shead stail
        ⟨listExtend st.spos (i + 1) 0, listExtend st.pvals (i + 1) []⟩ i := by
  simp only [amsg_step_value, listExtend_idem]

/-- The step lemma restated against the padded-state defaults: no length
hypotheses, `getD` throughout; this matches Python's on-demand
`extend` of the per-item cursor tables. -/
theorem amsg_step_value_getD (toks : List Tok) (m : Nat) (t : Tok)
    (ht : toks[m]? = some t) (hwf : TokListWF toks)
    (i : Nat) (st : StepState)
    (hsp : st.spos.getD i 0 = tokEnd toks m)
    (hpv : st.pvals.getD i [] = (decodedVals toks).take m) :
    amsg_step_value (renderBlob toks) (field_separator_head t.slen) ['\n'] st i =
      (((decodedVals toks)[m]?).getD none,
       ⟨(listExtend st.spos (i + 1) 0).set i (tokEnd toks (m + 1)),
        (listExtend st.pvals (i + 1) []).set i ((decodedVals toks).take (m + 1))⟩) := by
  rw [amsg_step_value_extend]
  exact amsg_step_value_spec toks m t ht hwf i
    ⟨listExtend st.spos (i + 1) 0, listExtend st.pvals (i + 1) []⟩
    (by rw [length_listExtend]; omega) (by rw [length_listExtend]; omega)
    (by rw [getElem?_of_getD _ 0 i (by rw [length_listExtend]; omega), getD_listExtend, hsp])
    (by rw [getElem?_of_getD _ [] i (by rw [length_listExtend]; omega), getD_listExtend, hpv])

theorem listExtend_snoc {α : Type} {l : List α} {j : Nat} (pad : α) (h : l.length = j) :
    listExtend l (j + 1) pad = l ++ [pad] := by
  simp only [listExtend, h]
  rw [show j + 1 - j = 1 from by omega]
  rfl

theorem append_singleton_set {α : Type} (l : List α) (a b : α) :
    (l ++ [a]).set l.length b = l ++ [b] := by
  induction l with
  | nil => rfl
  | cons x r ih =>
    simp only [List.cons_append, List.length_cons, List.set_cons_succ]
    rw [ih]

/-- One field's inner loop: stepping the remaining items `j..C-1` of a
blob family `toksF` (empty beyond `C`) at entry `m` advances every item
cursor past the m-th token and produces exactly the length-`L` prefix of
decoded item values. -/
theorem stepItemsGo_spec (sl m C L : Nat) (toksF : Nat → List Tok)
    (hwfF : ∀ i, TokListWF (toksF i))
    (hbeyond : ∀ i, C ≤ i → toksF i = [])
    (hslen : ∀ i, i < C → ∃ t, (toksF i)[m]? = some t ∧ t.slen = sl)
    (hsome : ∀ i, i < C →
      (i < L ↔ (((decodedVals (toksF i))[m]?).getD none).isSome = true))
    (hLC : L ≤ C) :
    ∀ n j st acc, n = C - j → j ≤ C →
      (∀ i, st.spos.getD i 0 = tokEnd (toksF i) (if i < j then m + 1 else m)) →
      (∀ i, st.pvals.getD i [] =
        (decodedVals (toksF i)).take (if i < j then m + 1 else m)) →
      acc = (List.range (min j L)).map
        (fun i => (((decodedVals (toksF i))[m]?).getD none).getD []) →
      ∃ st',
        stepItemsGo (field_separator_head sl)
            ((List.range' j (C - j)).map (fun i => renderBlob (toksF i))) j st acc =
          (st', (List.range L).map
            (fun i => (((decodedVals (toksF i))[m]?).getD none).getD [])) ∧
        (∀ i, st'.spos.getD i 0 = tokEnd (toksF i) (m + 1)) ∧
        (∀ i, st'.pvals.getD i [] = (decodedVals (toksF i)).take (m + 1)) := by
  intro n
  induction n with
  | zero =>
    intro j st acc hn hj hsp hpv hacc
    have hjC : j = C := by omega
    subst hjC
    rw [show j - j = 0 from by omega]
    refine ⟨st, ?_, ?_, ?_⟩
    · simp only [stepItemsGo]
      rw [hacc, Nat.min_eq_right hLC]
    · intro i
      by_cases hi : i < j
      · have := hsp i
        rw [if_pos hi] at this
        exact this
      · have := hsp i
        rw [if_neg hi] at this
        rw [this, hbeyond i (by omega)]
        simp [tokEnd]
    · intro i
      by_cases hi : i < j
      · have := hpv i
        rw [if_pos hi] at this
        exact this
      · have := hpv i
        rw [if_neg hi] at this
        rw [this, hbeyond i (by omega)]
        simp [decodedVals, decodedValsGo]
  | succ k ih =>
    intro j st acc hn hj hsp hpv hacc
    have hjC : j < C := by omega
    rw [show C - j = k + 1 from by omega]
    rw [show List.range' j (k + 1) = j :: List.range' (j + 1) k from rfl, List.map_cons]
    simp only [stepItemsGo]
    obtain ⟨t, htm, hts⟩ := hslen j hjC
    have hsp0 := hsp j
    rw [if_neg (by omega)] at hsp0
    have hpv0 := hpv j
    rw [if_neg (by omega)] at hpv0
    have hstep := amsg_step_value_getD (toksF j) m t htm (hwfF j) j st hsp0 hpv0
    rw [hts] at hstep
    rw [hstep]
    dsimp only
    have hsp1 : ∀ i,
        ((listExtend st.spos (j + 1) 0).set j (tokEnd (toksF j) (m + 1))).getD i 0 =
        tokEnd (toksF i) (if i < j + 1 then m + 1 else m) := by
      intro i
      by_cases hij : i = j
      · subst hij
        rw [getD_set_self _ _ (by rw [length_listExtend]; omega), if_pos (by omega)]
      · rw [getD_set_ne _ _ (fun he => hij he.symm), getD_listExtend]
        have := hsp i
        by_cases hil : i < j
        · rw [if_pos hil] at this
          rw [if_pos (by omega)]
          exact this
        · rw [if_neg hil] at this
          rw [if_neg (by omega)]
          exact this
    have hpv1 : ∀ i,
        ((listExtend st.pvals (j + 1) []).set j
          ((decodedVals (toksF j)).take (m + 1))).getD i [] =
        (decodedVals (toksF i)).take (if i < j + 1 then m + 1 else m) := by
      intro i
      by_cases hij : i = j
      · subst hij
        rw [getD_set_self _ _ (by rw [length_listExtend]; omega), if_pos (by omega)]
      · rw [getD_set_ne _ _ (fun he => hij he.symm), getD_listExtend]
        have := hpv i
        by_cases hil : i < j
        · rw [if_pos hil] at this
          rw [if_pos (by omega)]
          exact this
        · rw [if_neg hil] at this
          rw [if_neg (by omega)]
          exact this
    by_cases hjL : j < L
    · obtain ⟨v, hv⟩ := Option.isSome_iff_exists.mp ((hsome j hjC).mp hjL)
      rw [hv]
      dsimp only
      rw [show k = C - (j + 1) from by omega]
      have hlen : acc.length = j := by
        rw [hacc, List.length_map, List.length_range, Nat.min_eq_left (by omega)]
      have hacc1 : (listExtend acc (j + 1) []).set j v =
          (List.range (min (j + 1) L)).map
            (fun i => (((decodedVals (toksF i))[m]?).getD none).getD []) := by
        rw [listExtend_snoc [] hlen, ← hlen, append_singleton_set, hlen]
        rw [Nat.min_eq_left (by omega), List.range_succ, List.map_append, hacc,
            Nat.min_eq_left (by omega)]
        simp only [List.map_cons, List.map_nil]
        rw [hv]
        rfl
      exact ih (j + 1)
        ⟨(listExtend st.spos (j + 1) 0).set j (tokEnd (toksF j) (m + 1)),
         (listExtend st.pvals (j + 1) []).set j ((decodedVals (toksF j)).take (m + 1))⟩
        _ (by omega) (by omega) hsp1 hpv1 hacc1
    · have hnone : ((decodedVals (toksF j))[m]?).getD none = none :=
        Option.not_isSome_iff_eq_none.mp (fun hs => hjL ((hsome j hjC).mpr hs))
      rw [hnone]
      dsimp only
      rw [show k = C - (j + 1) from by omega]
      have hacc1 : acc = (List.range (min (j + 1) L)).map
          (fun i => (((decodedVals (toksF i))[m]?).getD none).getD []) := by
        rw [hacc, Nat.min_eq_right (by omega), Nat.min_eq_right (by omega)]
      exact ih (j + 1)
        ⟨(listExtend st.spos (j + 1) 0).set j (tokEnd (toksF j) (m + 1)),
         (listExtend st.pvals (j + 1) []).set j ((decodedVals (toksF j)).take (m + 1))⟩
        _ (by omega) (by omega) hsp1 hpv1 hacc1

/-- The decoded item sequence of one field at entry `m`. -/
def decSeq (toks2 : TField → Nat → List Tok) (L : TField → Nat) (m : Nat)
    (f : TField) : List Str :=
  (List.range (L f)).map (fun i => (((decodedVals (toks2 f i))[m]?).getD none).getD [])

/-- The snapshot message decoded for one separator entry: identity from
the record, tracked fields rebuilt from the decoded sequences. -/
def decMsg (amsg : Msg) (toks2 : TField → Nat → List Tok) (L : TField → Nat)
    (m : Nat) : Msg :=
  { msgctxt := amsg.msgctxt, msgid := amsg.msgid,
    msgid_plural := (decSeq toks2 L m .msgid_plural).head?,
    msgstr := decSeq toks2 L m .msgstr,
    msgctxt_previous := (decSeq toks2 L m .msgctxt_previous).head?,
    msgid_previous := (decSeq toks2 L m .msgid_previous).head?,
    msgid_plural_previous := (decSeq toks2 L m .msgid_plural_previous).head?,
    manual_comment :=
      match decSeq toks2 L m .manual_comment with
      | [] => []
      | s :: _ => splitOnChar '\n' s }

theorem decodeFieldsGo_spec (sl m : Nat) (C : TField → Nat)
    (toks2 : TField → Nat → List Tok) (L : TField → Nat) (amsg : Msg)
    (hshape : ∀ f, get_as_sequence amsg f =
      (List.range (C f)).map (fun i => renderBlob (toks2 f i)))
    (hwfF : ∀ f i, TokListWF (toks2 f i))
    (hbeyond : ∀ f i, C f ≤ i → toks2 f i = [])
    (hslen : ∀ f i, i < C f → ∃ t, (toks2 f i)[m]? = some t ∧ t.slen = sl)
    (hsome : ∀ f i, i < C f →
      (i < L f ↔ (((decodedVals (toks2 f i))[m]?).getD none).isSome = true))
    (hLC : ∀ f, L f ≤ C f) :
    ∀ (fields : List TField), fields.Nodup →
    ∀ (stf : TField → StepState) (macc : Msg),
      (∀ f ∈ fields, ∀ i, (stf f).spos.getD i 0 = tokEnd (toks2 f i) m) →
      (∀ f ∈ fields, ∀ i, (stf f).pvals.getD i [] = (decodedVals (toks2 f i)).take m) →
      ∃ stf',
        fields.foldl
          (fun acc field =>
            let amsg_seq := get_as_sequence amsg field
            let r := stepItemsGo (field_separator_head sl) amsg_seq 0 (acc.1 field) []
            (Function.update acc.1 field r.1, set_from_sequence r.2 acc.2 field))
          (stf, macc) =
        (stf', fields.foldl
          (fun mm field => set_from_sequence (decSeq toks2 L m field) mm field) macc) ∧
        (∀ f ∈ fields,
          (∀ i, (stf' f).spos.getD i 0 = tokEnd (toks2 f i) (m + 1)) ∧
          (∀ i, (stf' f).pvals.getD i [] = (decodedVals (toks2 f i)).take (m + 1))) ∧
        (∀ f, f ∉ fields → stf' f = stf f) := by
  intro fields
  induction fields with
  | nil =>
    intro _ stf macc _ _
    exact ⟨stf, rfl, by simp, fun f _ => rfl⟩
  | cons f rest ih =>
    intro hnodup stf macc ha hb
    obtain ⟨hfr, hnd⟩ := List.nodup_cons.mp hnodup
    simp only [List.foldl]
    obtain ⟨s1, he1, ha1, hb1⟩ := stepItemsGo_spec sl m (C f) (L f) (toks2 f)
      (hwfF f) (hbeyond f) (hslen f) (hsome f) (hLC f) (C f) 0 (stf f) []
      rfl (by omega)
      (fun i => by rw [if_neg (by omega)]; exact ha f (List.mem_cons_self f rest) i)
      (fun i => by rw [if_neg (by omega)]; exact hb f (List.mem_cons_self f rest) i)
      (by simp)
    rw [Nat.sub_zero] at he1
    rw [show (List.range (L f)).map
        (fun i => (((decodedVals (toks2 f i))[m]?).getD none).getD []) =
      decSeq toks2 L m f from rfl] at he1
    rw [hshape f, List.range_eq_range', he1]
    dsimp only
    obtain ⟨stf', hmain, hinv, hout⟩ := ih hnd (Function.update stf f s1)
      (set_from_sequence (decSeq toks2 L m f) macc f)
      (fun g hg i => by
        rw [Function.update_noteq (fun he => hfr (by rw [← he]; exact hg))]
        exact ha g (List.mem_cons_of_mem f hg) i)
      (fun g hg i => by
        rw [Function.update_noteq (fun he => hfr (by rw [← he]; exact hg))]
        exact hb g (List.mem_cons_of_mem f hg) i)
    refine ⟨stf', hmain, ?_, ?_⟩
    · intro g hg
      rcases List.mem_cons.mp hg with he | hg2
      · subst he
        rw [hout g hfr, Function.update_same]
        exact ⟨ha1, hb1⟩
      · exact hinv g hg2
    · intro g hg
      have hgf : g ≠ f := fun he => hg (he ▸ List.mem_cons_self f rest)
      rw [hout g (fun hh => hg (List.mem_cons_of_mem f hh)), Function.update_noteq hgf]

/-- Decoding one separator entry: the cursor state of every field
advances one token, and the snapshot is `decMsg`. -/
theorem decodeModEntry_spec (sl m : Nat) (C : TField → Nat)
    (toks2 : TField → Nat → List Tok) (L : TField → Nat) (amsg : Msg)
    (st : TField → StepState)
    (hshape : ∀ f, get_as_sequence amsg f =
      (List.range (C f)).map (fun i => renderBlob (toks2 f i)))
    (hwfF : ∀ f i, TokListWF (toks2 f i))
    (hbeyond : ∀ f i, C f ≤ i → toks2 f i = [])
    (hslen : ∀ f i, i < C f → ∃ t, (toks2 f i)[m]? = some t ∧ t.slen = sl)
    (hsome : ∀ f i, i < C f →
      (i < L f ↔ (((decodedVals (toks2 f i))[m]?).getD none).isSome = true))
    (hLC : ∀ f, L f ≤ C f)
    (hst : ∀ f i, (st f).spos.getD i 0 = tokEnd (toks2 f i) m)
    (hst2 : ∀ f i, (st f).pvals.getD i [] = (decodedVals (toks2 f i)).take m) :
    ∃ st',
      decodeModEntry amsg (field_separator_head sl) st =
        (st', decMsg amsg toks2 L m) ∧
      (∀ f i, (st' f).spos.getD i 0 = tokEnd (toks2 f i) (m + 1)) ∧
      (∀ f i, (st' f).pvals.getD i [] = (decodedVals (toks2 f i)).take (m + 1)) := by
  obtain ⟨st', hmain, hinv, _⟩ := decodeFieldsGo_spec sl m C toks2 L amsg hshape hwfF
    hbeyond hslen hsome hLC nonid_fields_tracked (by decide) st (idFieldsCopy amsg)
    (fun f _ i => hst f i) (fun f _ i => hst2 f i)
  refine ⟨st', ?_, fun f i => (hinv f (by cases f <;> decide)).1 i,
    fun f i => (hinv f (by cases f <;> decide)).2 i⟩
  rw [decodeModEntry, hmain]
  rfl

/-! ## Sortedness and parsing helpers -/

theorem isortAsc_sorted (l : List (Asc × Nat))
    (h : List.Chain' (fun a b => ascKeyLe a b = true) l) : isortAsc l = l := by
  induction l with
  | nil => rfl
  | cons x rest ih =>
    rw [isortAsc, ih h.tail]
    cases rest with
    | nil => rfl
    | cons y r2 =>
      rw [insertAsc, if_pos (List.chain'_cons.mp h).1]

theorem contains_append (a b : Str) (c : Char) :
    (a ++ b).contains c = (a.contains c || b.contains c) := by
  by_cases h : c ∈ a ++ b
  · rw [contains_true_of_mem h]
    rcases List.mem_append.mp h with h1 | h1
    · rw [contains_true_of_mem h1]
      rfl
    · rw [contains_true_of_mem h1, Bool.or_true]
  · rw [contains_false_of_not_mem h]
    rw [List.mem_append, not_or] at h
    rw [contains_false_of_not_mem h.1, contains_false_of_not_mem h.2]
    rfl

theorem splitOnceChar_first {c : Char} {a b : Str} (h : c ∉ a) :
    splitOnceChar c (a ++ c :: b) = (a, some b) := by
  induction a with
  | nil => simp [splitOnceChar]
  | cons x r ih =>
    simp only [List.mem_cons, not_or] at h
    have h1 : ¬ x = c := fun hc => h.1 hc.symm
    simp only [List.cons_append, splitOnceChar, if_neg h1]
    rw [show r.append (c :: b) = r ++ c :: b from rfl, ih h.2]

theorem removeFirstChar_append {c : Char} {a b : Str} (h : c ∉ a) :
    removeFirstChar c (a ++ b) = a ++ removeFirstChar c b := by
  induction a with
  | nil => rfl
  | cons x r ih =>
    simp only [List.mem_cons, not_or] at h
    have h1 : ¬ x = c := fun hc => h.1 hc.symm
    simp only [List.cons_append, removeFirstChar, if_neg h1]
    rw [show r.append b = r ++ b from rfl, ih h.2]

theorem pyStrip_of_no_ws {s : Str} (h : ∀ c ∈ s, c.isWhitespace = false) :
    pyStrip s = s := by
  apply pyStrip_id
  · cases hs : s.head? with
    | none => rfl
    | some c =>
      simp only [Option.all_some]
      rw [h c (List.mem_of_mem_head? hs)]
      rfl
  · cases hs : s.getLast? with
    | none => rfl
    | some c =>
      simp only [Option.all_some]
      rw [h c (List.mem_of_mem_getLast? hs)]
      rfl

theorem mark_fuzz_not_mem_natRepr (n : Nat) : _mark_fuzz ∉ natRepr n := by
  intro h
  obtain ⟨d, hd, he⟩ := natRepr_mem h
  exact absurd he.symm (digitChar_not_special hd).2.2.2.1

theorem mark_obs_not_mem_natRepr (n : Nat) : _mark_obs ∉ natRepr n := by
  intro h
  obtain ⟨d, hd, he⟩ := natRepr_mem h
  exact absurd he.symm (digitChar_not_special hd).2.2.2.2.1

theorem bar_not_mem_natRepr (n : Nat) : '|' ∉ natRepr n := by
  intro h
  obtain ⟨d, hd, he⟩ := natRepr_mem h
  exact absurd he.symm (digitChar_not_special hd).1

theorem colon_not_mem_natRepr (n : Nat) : fld_sep ∉ natRepr n := by
  intro h
  obtain ⟨d, hd, he⟩ := natRepr_mem h
  exact absurd he.symm (digitChar_not_special hd).2.2.1

theorem natRepr_no_ws (n : Nat) : ∀ c ∈ natRepr n, c.isWhitespace = false := by
  intro c hc
  obtain ⟨d, hd, he⟩ := natRepr_mem hc
  rw [he]
  exact (digitChar_not_special hd).2.2.2.2.2

/-- The writer's third-field content: separator digits (when the write
carries a field diff) followed by the obsolete and fuzzy marks. -/
def wsepOf (dig : Bool) (sl : Nat) (ob fz : Bool) : Str :=
  (if dig then natRepr sl else []) ++ (if ob then [_mark_obs] else []) ++
  (if fz then [_mark_fuzz] else [])

theorem wsepOf_mem {dig : Bool} {sl : Nat} {ob fz : Bool} {c : Char}
    (h : c ∈ wsepOf dig sl ob fz) :
    c ∈ natRepr sl ∨ c = _mark_obs ∨ c = _mark_fuzz := by
  simp only [wsepOf, List.mem_append] at h
  rcases h with (h | h) | h
  · split at h
    · exact Or.inl h
    · simp at h
  · split at h
    · simp at h
      exact Or.inr (Or.inl h)
    · simp at h
  · split at h
    · simp at h
      exact Or.inr (Or.inr h)
    · simp at h

theorem wsepOf_no_ws (dig : Bool) (sl : Nat) (ob fz : Bool) :
    ∀ c ∈ wsepOf dig sl ob fz, c.isWhitespace = false := by
  intro c hc
  rcases wsepOf_mem hc with h | h | h
  · exact natRepr_no_ws sl c h
  · rw [h]
    rfl
  · rw [h]
    rfl

theorem bar_not_mem_wsepOf (dig : Bool) (sl : Nat) (ob fz : Bool) :
    '|' ∉ wsepOf dig sl ob fz := by
  intro hc
  rcases wsepOf_mem hc with h | h | h
  · exact bar_not_mem_natRepr sl h
  · exact absurd h (by decide)
  · exact absurd h (by decide)

theorem mem_if_list {c : Char} {b : Bool} {l : Str}
    (h : c ∈ (if b = true then l else [])) : b = true ∧ c ∈ l := by
  split at h
  · exact ⟨by assumption, h⟩
  · simp at h

theorem wsepOf_contains_fuzz (dig : Bool) (sl : Nat) (ob fz : Bool) :
    (wsepOf dig sl ob fz).contains _mark_fuzz = fz := by
  cases fz
  · apply contains_false_of_not_mem
    intro h
    simp only [wsepOf, List.mem_append] at h
    rcases h with (h | h) | h
    · exact mark_fuzz_not_mem_natRepr sl (mem_if_list h).2
    · have h2 := (mem_if_list h).2
      simp only [List.mem_cons, List.not_mem_nil, or_false] at h2
      exact absurd h2 (by decide)
    · exact absurd (mem_if_list h).1 (by decide)
  · apply contains_true_of_mem
    simp [wsepOf]

theorem wsepOf_remove_fuzz (dig : Bool) (sl : Nat) (ob : Bool) :
    removeFirstChar _mark_fuzz (wsepOf dig sl ob true) = wsepOf dig sl ob false := by
  have hnm : _mark_fuzz ∉
      ((if dig = true then natRepr sl else []) ++
        (if ob = true then [_mark_obs] else [])) := by
    intro h
    rcases List.mem_append.mp h with h | h
    · exact mark_fuzz_not_mem_natRepr sl (mem_if_list h).2
    · have h2 := (mem_if_list h).2
      simp only [List.mem_cons, List.not_mem_nil, or_false] at h2
      exact absurd h2 (by decide)
  rw [show wsepOf dig sl ob true =
    ((if dig = true then natRepr sl else []) ++
      (if ob = true then [_mark_obs] else [])) ++ [_mark_fuzz] from by simp [wsepOf]]
  rw [removeFirstChar_append hnm]
  simp [wsepOf, removeFirstChar]

theorem wsepOf_contains_obs (dig : Bool) (sl : Nat) (ob : Bool) :
    (wsepOf dig sl ob false).contains _mark_obs = ob := by
  cases ob
  · apply contains_false_of_not_mem
    intro h
    simp only [wsepOf, List.mem_append] at h
    rcases h with (h | h) | h
    · exact mark_obs_not_mem_natRepr sl (mem_if_list h).2
    · exact absurd (mem_if_list h).1 (by decide)
    · exact absurd (mem_if_list h).1 (by decide)
  · apply contains_true_of_mem
    simp [wsepOf]

theorem wsepOf_remove_obs (dig : Bool) (sl : Nat) :
    removeFirstChar _mark_obs (wsepOf dig sl true false) = wsepOf dig sl false false := by
  have hnm : _mark_obs ∉ (if dig = true then natRepr sl else []) := by
    intro h
    exact mark_obs_not_mem_natRepr sl (mem_if_list h).2
  rw [show wsepOf dig sl true false =
    (if dig = true then natRepr sl else []) ++ [_mark_obs] from by simp [wsepOf]]
  rw [removeFirstChar_append hnm]
  simp [wsepOf, removeFirstChar]

theorem wsepOf_digits (dig : Bool) (sl : Nat) :
    wsepOf dig sl false false = if dig = true then natRepr sl else [] := by
  simp [wsepOf]

theorem opt_flag_or (x y : Bool) :
    (if x = true then some true else some y) = some (x || y) := by
  cases x <;> rfl

theorem wsepOf_tmp1 (dig : Bool) (sl : Nat) (ob fz : Bool) :
    (if fz = true then removeFirstChar _mark_fuzz (wsepOf dig sl ob fz)
     else wsepOf dig sl ob fz) = wsepOf dig sl ob false := by
  cases fz
  · simp
  · rw [if_pos rfl, wsepOf_remove_fuzz]

theorem wsepOf_tmp2 (dig : Bool) (sl : Nat) (ob : Bool) :
    (if ob = true then removeFirstChar _mark_obs (wsepOf dig sl ob false)
     else wsepOf dig sl ob false) = wsepOf dig sl false false := by
  cases ob
  · simp
  · rw [if_pos rfl, wsepOf_remove_obs]

theorem isEmpty_natRepr (n : Nat) : (natRepr n).isEmpty = false := by
  cases h : natRepr n with
  | nil => exact absurd h (natRepr_ne_nil n)
  | cons a l => rfl

/-- Parsing one rendered three-field ascription line: the user, type,
tag, date, separator digits and state marks are recovered, and the
fuzzy/obsolete state variables are updated from the marks. -/
theorem asc_parse_one_render3 (config : Config) (st : Option Bool × Option Bool)
    (af sp1 : Str) (sp2 : Option Str) (atype atag user : Str) (dt : Nat)
    (dig : Bool) (sl : Nat) (ob fz : Bool) (b1 b2 : Bool)
    (hcolon : fld_sep ∉ af)
    (hsp : splitOnceChar _atag_sep (pyStrip af) = (sp1, sp2))
    (hnone : sp2 = none → pyStrip af = atype ∧ atag = [])
    (hsome : ∀ t, sp2 = some t → pyStrip sp1 = atype ∧ pyStrip t = atag)
    (huser1 : user ∈ config.users) (huser2 : user ≠ []) (huser3 : '|' ∉ user)
    (huser4 : pyStrip user = user)
    (hst1 : (if atype = ATYPE_MOD
      then ((some false, some false) : Option Bool × Option Bool) else st) =
      (some b1, some b2)) :
    asc_parse_one config st
      (af ++ fld_sep :: ' ' :: (user ++ " | ".toList ++ natRepr dt ++
        " | ".toList ++ wsepOf dig sl ob fz)) =
    .ok (some ⟨user, atype, atag, dt, (if dig = true then sl else 0),
          (fz || b1), (ob || b2)⟩,
         (some (fz || b1), some (ob || b2))) := by
  rw [show (" | ".toList : Str) = [' ', '|', ' '] from rfl]
  have hue : user.isEmpty = false := by
    cases user with
    | nil => exact absurd rfl huser2
    | cons a l => rfl
  have hbar1 : '|' ∉ ' ' :: (user ++ [' ']) := by
    intro h
    rcases List.mem_cons.mp h with h | h
    · exact absurd h (by decide)
    · rcases List.mem_append.mp h with h | h
      · exact huser3 h
      · simp only [List.mem_cons, List.not_mem_nil, or_false] at h
        exact absurd h (by decide)
  have hbar2 : '|' ∉ ' ' :: (natRepr dt ++ [' ']) := by
    intro h
    rcases List.mem_cons.mp h with h | h
    · exact absurd h (by decide)
    · rcases List.mem_append.mp h with h | h
      · exact bar_not_mem_natRepr dt h
      · simp only [List.mem_cons, List.not_mem_nil, or_false] at h
        exact absurd h (by decide)
  have hbar3 : '|' ∉ ' ' :: wsepOf dig sl ob fz := by
    intro h
    rcases List.mem_cons.mp h with h | h
    · exact absurd h (by decide)
    · exact bar_not_mem_wsepOf dig sl ob fz h
  have e1 : ' ' :: (user ++ [' ', '|', ' '] ++ natRepr dt ++ [' ', '|', ' '] ++
      wsepOf dig sl ob fz) =
      (' ' :: (user ++ [' '])) ++ '|' :: ((' ' :: (natRepr dt ++ [' '])) ++
        '|' :: (' ' :: wsepOf dig sl ob fz)) := by
    simp
  have hsplit2 : splitOnChar '|' (' ' :: (user ++ [' ', '|', ' '] ++ natRepr dt ++
      [' ', '|', ' '] ++ wsepOf dig sl ob fz)) =
      [' ' :: (user ++ [' ']), ' ' :: (natRepr dt ++ [' ']),
       ' ' :: wsepOf dig sl ob fz] := by
    rw [e1, splitOnChar_append hbar1, splitOnChar_append hbar2,
        splitOnChar_no_sep hbar3]
  simp only [asc_parse_one]
  rw [findSub_char hcolon]
  dsimp only
  rw [List.take_left, List.drop_append 1, List.drop_one, List.tail_cons]
  rw [hsp]
  dsimp only
  cases sp2 with
  | none =>
    obtain ⟨ha1, ha2⟩ := hnone rfl
    subst ha1
    subst ha2
    dsimp only
    rw [hsplit2]
    dsimp only
    rw [if_neg (by simp)]
    rw [pyStrip_spaced, huser4, hue]
    simp only [Bool.false_eq_true, if_false]
    rw [if_neg (not_not_intro huser1)]
    rw [pyStrip_spaced, pyStrip_of_no_ws (natRepr_no_ws dt)]
    simp only [parse_datetime]
    rw [pyStrip_of_no_ws (natRepr_no_ws dt), strToNatQ_natRepr]
    dsimp only
    rw [hst1]
    dsimp only
    rw [pyStrip_cons_space, pyStrip_of_no_ws (wsepOf_no_ws dig sl ob fz)]
    rw [wsepOf_contains_fuzz, opt_flag_or, wsepOf_tmp1, wsepOf_contains_obs,
        opt_flag_or, wsepOf_tmp2, wsepOf_digits]
    cases dig
    · simp only [Bool.false_eq_true, if_false]
      rw [if_pos (show List.isEmpty ([] : Str) = true from rfl)]
    · rw [if_pos rfl, isEmpty_natRepr]
      simp only [Bool.false_eq_true, if_false]
      rw [strToNatQ_natRepr]
      rfl
  | some t =>
    obtain ⟨ha1, ha2⟩ := hsome t rfl
    subst ha1
    subst ha2
    dsimp only
    rw [hsplit2]
    dsimp only
    rw [if_neg (by simp)]
    rw [pyStrip_spaced, huser4, hue]
    simp only [Bool.false_eq_true, if_false]
    rw [if_neg (not_not_intro huser1)]
    rw [pyStrip_spaced, pyStrip_of_no_ws (natRepr_no_ws dt)]
    simp only [parse_datetime]
    rw [pyStrip_of_no_ws (natRepr_no_ws dt), strToNatQ_natRepr]
    dsimp only
    rw [hst1]
    dsimp only
    rw [pyStrip_cons_space, pyStrip_of_no_ws (wsepOf_no_ws dig sl ob fz)]
    rw [wsepOf_contains_fuzz, opt_flag_or, wsepOf_tmp1, wsepOf_contains_obs,
        opt_flag_or, wsepOf_tmp2, wsepOf_digits]
    cases dig
    · simp only [Bool.false_eq_true, if_false]
      rw [if_pos (show List.isEmpty ([] : Str) = true from rfl)]
    · rw [if_pos rfl, isEmpty_natRepr]
      simp only [Bool.false_eq_true, if_false]
      rw [strToNatQ_natRepr]
      rfl

/-- Parsing one rendered two-field ascription line (no trailing block):
the entry inherits the current fuzzy/obsolete state variables. -/
theorem asc_parse_one_render2 (config : Config) (st : Option Bool × Option Bool)
    (af sp1 : Str) (sp2 : Option Str) (atype atag user : Str) (dt : Nat)
    (b1 b2 : Bool)
    (hcolon : fld_sep ∉ af)
    (hsp : splitOnceChar _atag_sep (pyStrip af) = (sp1, sp2))
    (hnone : sp2 = none → pyStrip af = atype ∧ atag = [])
    (hsome : ∀ t, sp2 = some t → pyStrip sp1 = atype ∧ pyStrip t = atag)
    (huser1 : user ∈ config.users) (huser2 : user ≠ []) (huser3 : '|' ∉ user)
    (huser4 : pyStrip user = user)
    (hst1 : (if atype = ATYPE_MOD
      then ((some false, some false) : Option Bool × Option Bool) else st) =
      (some b1, some b2)) :
    asc_parse_one config st
      (af ++ fld_sep :: ' ' :: (user ++ " | ".toList ++ natRepr dt)) =
    .ok (some ⟨user, atype, atag, dt, 0, b1, b2⟩, (some b1, some b2)) := by
  rw [show (" | ".toList : Str) = [' ', '|', ' '] from rfl]
  have hue : user.isEmpty = false := by
    cases user with
    | nil => exact absurd rfl huser2
    | cons a l => rfl
  have hbar1 : '|' ∉ ' ' :: (user ++ [' ']) := by
    intro h
    rcases List.mem_cons.mp h with h | h
    · exact absurd h (by decide)
    · rcases List.mem_append.mp h with h | h
      · exact huser3 h
      · simp only [List.mem_cons, List.not_mem_nil, or_false] at h
        exact absurd h (by decide)
  have hbar2 : '|' ∉ ' ' :: natRepr dt := by
    intro h
    rcases List.mem_cons.mp h with h | h
    · exact absurd h (by decide)
    · exact bar_not_mem_natRepr dt h
  have e1 : ' ' :: (user ++ [' ', '|', ' '] ++ natRepr dt) =
      (' ' :: (user ++ [' '])) ++ '|' :: (' ' :: natRepr dt) := by
    simp
  have hsplit2 : splitOnChar '|' (' ' :: (user ++ [' ', '|', ' '] ++ natRepr dt)) =
      [' ' :: (user ++ [' ']), ' ' :: natRepr dt] := by
    rw [e1, splitOnChar_append hbar1, splitOnChar_no_sep hbar2]
  simp only [asc_parse_one]
  rw [findSub_char hcolon]
  dsimp only
  rw [List.take_left, List.drop_append 1, List.drop_one, List.tail_cons]
  rw [hsp]
  dsimp only
  cases sp2 with
  | none =>
    obtain ⟨ha1, ha2⟩ := hnone rfl
    subst ha1
    subst ha2
    dsimp only
    rw [hsplit2]
    dsimp only
    rw [if_neg (by simp)]
    rw [pyStrip_spaced, huser4, hue]
    simp only [Bool.false_eq_true, if_false]
    rw [if_neg (not_not_intro huser1)]
    rw [pyStrip_cons_space, pyStrip_of_no_ws (natRepr_no_ws dt)]
    simp only [parse_datetime]
    rw [pyStrip_of_no_ws (natRepr_no_ws dt), strToNatQ_natRepr]
    dsimp only
    rw [hst1]
  | some t =>
    obtain ⟨ha1, ha2⟩ := hsome t rfl
    subst ha1
    subst ha2
    dsimp only
    rw [hsplit2]
    dsimp only
    rw [if_neg (by simp)]
    rw [pyStrip_spaced, huser4, hue]
    simp only [Bool.false_eq_true, if_false]
    rw [if_neg (not_not_intro huser1)]
    rw [pyStrip_cons_space, pyStrip_of_no_ws (natRepr_no_ws dt)]
    simp only [parse_datetime]
    rw [pyStrip_of_no_ws (natRepr_no_ws dt), strToNatQ_natRepr]
    dsimp only
    rw [hst1]

/-! ## The write-sequence mirror for the round-trip analysis -/

/-- The j-th write's message. -/
def wMsg (ws : List Write) (j : Nat) : Msg := (ws.getD j default).msg

/-- Whether the j-th write carries a tracked-field difference against the
previous write's values (the record's first write always does). -/
def hasNDs (ws : List Write) : Nat → Bool
  | 0 => true
  | j + 1 => has_nonid_diff (wMsg ws j) (wMsg ws (j + 1))

/-- The separator length stored by the j-th write (`0`: no field block). -/
def wSlen (ws : List Write) (j : Nat) : Nat :=
  if hasNDs ws j then needed_separator_length (wMsg ws j) else 0

/-- The fuzzy/obsolete state variables as the parser leaves them after
the j-th rendered line (the decoded flags of entry j). -/
def wFlags (ws : List Write) : Nat → Bool × Bool
  | 0 => ((wMsg ws 0).fuzzy, (wMsg ws 0).obsolete)
  | j + 1 =>
    let m := wMsg ws (j + 1)
    let fl := wFlags ws j
    let st1 := if (ws.getD (j + 1) default).rev then fl else (false, false)
    let prevState := Msg.state
      { msgstr := (wMsg ws j).msgstr, fuzzy := fl.1, obsolete := fl.2 }
    let three := (hasNDs ws (j + 1) || decide (prevState ≠ m.state)) &&
      !(!hasNDs ws (j + 1) && !m.obsolete && !m.fuzzy)
    if three then (m.fuzzy || st1.1, m.obsolete || st1.2) else st1

/-- Whether the j-th rendered line carries a third field. -/
def threeOf (ws : List Write) : Nat → Bool
  | 0 => true
  | j + 1 =>
    let m := wMsg ws (j + 1)
    let fl := wFlags ws j
    let prevState := Msg.state
      { msgstr := (wMsg ws j).msgstr, fuzzy := fl.1, obsolete := fl.2 }
    (hasNDs ws (j + 1) || decide (prevState ≠ m.state)) &&
      !(!hasNDs ws (j + 1) && !m.obsolete && !m.fuzzy)

/-- The j-th rendered ascription comment line. -/
def lineOf (ws : List Write) (j : Nat) : Str :=
  let w := ws.getD j default
  let af : Str :=
    if w.rev then
      (if w.tag.isEmpty then ATYPE_REV else ATYPE_REV ++ _atag_sep :: w.tag)
    else ATYPE_MOD
  let value : Str :=
    if threeOf ws j then
      w.user ++ " | ".toList ++ natRepr w.date ++ " | ".toList ++
        wsepOf (hasNDs ws j) (needed_separator_length w.msg) w.msg.obsolete w.msg.fuzzy
    else w.user ++ " | ".toList ++ natRepr w.date
  af ++ fld_sep :: ' ' :: value

/-- The parsed tuple of the j-th line. -/
def tupOf (ws : List Write) (j : Nat) : AscTuple :=
  { user := (ws.getD j default).user,
    type := if (ws.getD j default).rev then ATYPE_REV else ATYPE_MOD,
    tag := if (ws.getD j default).rev then (ws.getD j default).tag else [],
    date := (ws.getD j default).date,
    slen := wSlen ws j,
    fuzz := (wFlags ws j).1,
    obs := (wFlags ws j).2 }

/-- The parser's state pair before reading line j. -/
def stAt (ws : List Write) : Nat → Option Bool × Option Bool
  | 0 => (none, none)
  | j + 1 => (some (wFlags ws j).1, some (wFlags ws j).2)

/-- The expected decoded snapshot of the j-th write: live tracked values
with previous-identity fields dropped on non-fuzzy messages, identity
from the first write, and the decoded state flags. -/
def snapOf (ws : List Write) (j : Nat) : Msg :=
  let m := wMsg ws j
  { msgctxt := (wMsg ws 0).msgctxt, msgid := (wMsg ws 0).msgid,
    msgid_plural := m.msgid_plural, msgstr := m.msgstr,
    msgctxt_previous := if m.fuzzy then m.msgctxt_previous else none,
    msgid_previous := if m.fuzzy then m.msgid_previous else none,
    msgid_plural_previous := if m.fuzzy then m.msgid_plural_previous else none,
    manual_comment := m.manual_comment,
    fuzzy := (wFlags ws j).1, obsolete := (wFlags ws j).2 }

/-- A message whose comment lines are newline-free and whose
previous-identity fields are absent unless it is fuzzy. -/
def goodMsg (m : Msg) : Prop :=
  (∀ c ∈ m.manual_comment, '\n' ∉ c) ∧
  (m.fuzzy = false → m.msgctxt_previous = none ∧ m.msgid_previous = none ∧
    m.msgid_plural_previous = none)

/-- Well-formedness of one write against the configuration. -/
def goodWrite (config : Config) (w : Write) : Prop :=
  w.user ∈ config.users ∧ w.user ≠ [] ∧ '|' ∉ w.user ∧ pyStrip w.user = w.user ∧
  (w.rev = true → pyStrip w.tag = w.tag ∧ fld_sep ∉ w.tag) ∧
  goodMsg w.msg

/-- Well-formedness of a write sequence: every write is good, the first
write is a modification, and timestamps never decrease. -/
def goodWrites (config : Config) (ws : List Write) : Prop :=
  ws ≠ [] ∧ (ws.getD 0 default).rev = false ∧
  (∀ w ∈ ws, goodWrite config w) ∧
  (∀ j, j + 1 < ws.length →
    (ws.getD j default).date ≤ (ws.getD (j + 1) default).date)

theorem dropWhile_eq_self_head {p : Char → Bool} {l : Str} (h : l.dropWhile p = l) :
    l.head?.all (fun a => !p a) = true := by
  cases l with
  | nil => rfl
  | cons a r =>
    simp only [List.dropWhile] at h
    by_cases hp : p a
    · rw [hp] at h
      simp at h
      have hlen := congrArg List.length h
      simp at hlen
      have h2 := List.IsSuffix.length_le
        (show r.dropWhile p <:+ r from List.dropWhile_suffix p)
      omega
    · simp only [Option.all_some, List.head?_cons]
      rw [Bool.eq_false_iff.mpr hp]
      rfl

theorem trimRightW_length_le (s : Str) : (trimRightW s).length ≤ s.length := by
  have := List.IsSuffix.length_le
    (show s.reverse.dropWhile (fun c : Char => c.isWhitespace) <:+ s.reverse from
      List.dropWhile_suffix (fun c : Char => c.isWhitespace))
  simp only [trimRightW, List.length_reverse]
  simp only [List.length_reverse] at this
  exact this

theorem pyStrip_id_parts {s : Str} (h : pyStrip s = s) :
    trimLeftW s = s ∧ trimRightW s = s := by
  have hlen := congrArg List.length h
  have h1 : (trimLeftW s).length ≤ s.length :=
    List.IsSuffix.length_le (List.dropWhile_suffix _)
  have h2 : (trimRightW (trimLeftW s)).length ≤ (trimLeftW s).length :=
    trimRightW_length_le _
  rw [pyStrip] at hlen h
  have hL : trimLeftW s = s :=
    List.IsSuffix.eq_of_length (List.dropWhile_suffix _) (by omega)
  refine ⟨hL, ?_⟩
  rw [hL] at h
  exact h

theorem head_not_ws_of_pyStrip {s : Str} (h : pyStrip s = s) :
    s.head?.all (fun c => !c.isWhitespace) = true :=
  dropWhile_eq_self_head (pyStrip_id_parts h).1

theorem getLast_not_ws_of_pyStrip {s : Str} (h : pyStrip s = s) :
    s.getLast?.all (fun c => !c.isWhitespace) = true := by
  have hR := (pyStrip_id_parts h).2
  rw [trimRightW] at hR
  have h2 : s.reverse.dropWhile (fun c => c.isWhitespace) = s.reverse := by
    have := congrArg List.reverse hR
    simpa using this
  rw [List.getLast?_eq_head?_reverse]
  exact dropWhile_eq_self_head h2

theorem pyStrip_revtag {tag : Str} (ht : pyStrip tag = tag) (hne : tag ≠ []) :
    pyStrip (ATYPE_REV ++ _atag_sep :: tag) = ATYPE_REV ++ _atag_sep :: tag := by
  apply pyStrip_id
  · rfl
  · rw [List.getLast?_append_of_ne_nil ATYPE_REV (by simp)]
    rw [show (_atag_sep :: tag : Str) = [_atag_sep] ++ tag from rfl,
        List.getLast?_append_of_ne_nil [_atag_sep] hne]
    exact getLast_not_ws_of_pyStrip ht

theorem split_field_revtag {tag : Str} (ht : pyStrip tag = tag) (hne : tag ≠ []) :
    splitOnceChar _atag_sep (pyStrip (ATYPE_REV ++ _atag_sep :: tag)) =
      (ATYPE_REV, some tag) := by
  rw [pyStrip_revtag ht hne]
  exact splitOnceChar_first (by decide)

theorem colon_not_mem_revtag {tag : Str} (h : fld_sep ∉ tag) :
    fld_sep ∉ ATYPE_REV ++ _atag_sep :: tag := by
  intro hm
  rcases List.mem_append.mp hm with hm | hm
  · exact absurd hm (by decide)
  · rcases List.mem_cons.mp hm with hm | hm
    · exact absurd hm (by decide)
    · exact h hm

theorem wFlags_three {ws : List Write} {j : Nat} (h3 : threeOf ws (j + 1) = true) :
    wFlags ws (j + 1) =
      ((wMsg ws (j + 1)).fuzzy ||
        (if (ws.getD (j + 1) default).rev then wFlags ws j else (false, false)).1,
       (wMsg ws (j + 1)).obsolete ||
        (if (ws.getD (j + 1) default).rev then wFlags ws j else (false, false)).2) := by
  simp only [wFlags]
  rw [if_pos (by simpa only [threeOf] using h3)]

theorem wFlags_two {ws : List Write} {j : Nat} (h3 : threeOf ws (j + 1) = false) :
    wFlags ws (j + 1) =
      (if (ws.getD (j + 1) default).rev then wFlags ws j else (false, false)) := by
  simp only [wFlags]
  rw [if_neg (by simp only [threeOf] at h3; rw [h3]; decide)]

theorem hasNDs_false_of_three_false {ws : List Write} {j : Nat}
    (h3 : threeOf ws (j + 1) = false) : hasNDs ws (j + 1) = false := by
  by_contra h
  have h' : hasNDs ws (j + 1) = true := by
    revert h
    cases hasNDs ws (j + 1) <;> simp
  simp only [threeOf, h'] at h3
  simp at h3

theorem isEmpty_false_ne_nil {l : Str} (h : l.isEmpty = false) : l ≠ [] := by
  intro he
  rw [he] at h
  exact absurd h (by decide)

/-- Parsing the j-th rendered line recovers the j-th tuple and leaves
the state variables at the decoded flags of entry j. -/
theorem asc_parse_one_lineOf (config : Config) (ws : List Write) (j : Nat)
    (hgw : goodWrite config (ws.getD j default))
    (hmod0 : (ws.getD 0 default).rev = false) :
    asc_parse_one config (stAt ws j) (lineOf ws j) =
      .ok (some (tupOf ws j), stAt ws (j + 1)) := by
  obtain ⟨hu1, hu2, hu3, hu4, htag, hgm⟩ := hgw
  cases j with
  | zero =>
    simp only [lineOf]
    rw [hmod0]
    simp only [Bool.false_eq_true, if_false]
    rw [if_pos (show threeOf ws 0 = true from rfl)]
    rw [asc_parse_one_render3 config (stAt ws 0) ATYPE_MOD ATYPE_MOD none ATYPE_MOD []
      (ws.getD 0 default).user (ws.getD 0 default).date (hasNDs ws 0)
      (needed_separator_length (ws.getD 0 default).msg)
      (ws.getD 0 default).msg.obsolete (ws.getD 0 default).msg.fuzzy false false
      (by decide) (by decide) (fun _ => ⟨by decide, rfl⟩) (fun t ht => nomatch ht)
      hu1 hu2 hu3 hu4 (by rw [if_pos rfl])]
    simp only [tupOf, stAt, wSlen, wMsg, wFlags, hmod0, Bool.or_false,
      Bool.false_eq_true, if_false]
  | succ j' =>
    cases hrev : (ws.getD (j' + 1) default).rev with
    | false =>
      simp only [lineOf]
      rw [hrev]
      simp only [Bool.false_eq_true, if_false]
      cases h3 : threeOf ws (j' + 1) with
      | true =>
        rw [if_pos rfl]
        rw [asc_parse_one_render3 config (stAt ws (j' + 1)) ATYPE_MOD ATYPE_MOD none
          ATYPE_MOD [] (ws.getD (j' + 1) default).user (ws.getD (j' + 1) default).date
          (hasNDs ws (j' + 1)) (needed_separator_length (ws.getD (j' + 1) default).msg)
          (ws.getD (j' + 1) default).msg.obsolete (ws.getD (j' + 1) default).msg.fuzzy
          false false
          (by decide) (by decide) (fun _ => ⟨by decide, rfl⟩) (fun t ht => nomatch ht)
          hu1 hu2 hu3 hu4 (by rw [if_pos rfl])]
        simp only [tupOf, stAt, wSlen, wMsg, hrev, Bool.false_eq_true, if_false,
          Bool.or_false]
        rw [wFlags_three h3, hrev]
        simp [wMsg]
      | false =>
        rw [if_neg (by decide)]
        rw [asc_parse_one_render2 config (stAt ws (j' + 1)) ATYPE_MOD ATYPE_MOD none
          ATYPE_MOD [] (ws.getD (j' + 1) default).user (ws.getD (j' + 1) default).date
          false false
          (by decide) (by decide) (fun _ => ⟨by decide, rfl⟩) (fun t ht => nomatch ht)
          hu1 hu2 hu3 hu4 (by rw [if_pos rfl])]
        simp only [tupOf, stAt, wSlen, wMsg, hrev, Bool.false_eq_true, if_false]
        rw [wFlags_two h3, hrev, hasNDs_false_of_three_false h3]
        simp [wMsg]
    | true =>
      have hst1 : (if ATYPE_REV = ATYPE_MOD
          then ((some false, some false) : Option Bool × Option Bool)
          else stAt ws (j' + 1)) =
          (some (wFlags ws j').1, some (wFlags ws j').2) := by
        rw [if_neg (by decide)]
        rfl
      simp only [lineOf]
      rw [hrev]
      rw [if_pos rfl]
      cases htg : (ws.getD (j' + 1) default).tag.isEmpty with
      | true =>
        have htg' : (ws.getD (j' + 1) default).tag = [] := List.isEmpty_iff.mp htg
        rw [if_pos rfl]
        cases h3 : threeOf ws (j' + 1) with
        | true =>
          rw [if_pos rfl]
          rw [asc_parse_one_render3 config (stAt ws (j' + 1)) ATYPE_REV ATYPE_REV none
            ATYPE_REV [] (ws.getD (j' + 1) default).user
            (ws.getD (j' + 1) default).date (hasNDs ws (j' + 1))
            (needed_separator_length (ws.getD (j' + 1) default).msg)
            (ws.getD (j' + 1) default).msg.obsolete
            (ws.getD (j' + 1) default).msg.fuzzy (wFlags ws j').1 (wFlags ws j').2
            (by decide) (by decide) (fun _ => ⟨by decide, rfl⟩) (fun t ht => nomatch ht)
            hu1 hu2 hu3 hu4 hst1]
          simp only [tupOf, stAt, wSlen, wMsg, hrev, htg', if_pos rfl]
          rw [wFlags_three h3, hrev]
          simp [wMsg]
        | false =>
          rw [if_neg (by decide)]
          rw [asc_parse_one_render2 config (stAt ws (j' + 1)) ATYPE_REV ATYPE_REV none
            ATYPE_REV [] (ws.getD (j' + 1) default).user
            (ws.getD (j' + 1) default).date (wFlags ws j').1 (wFlags ws j').2
            (by decide) (by decide) (fun _ => ⟨by decide, rfl⟩) (fun t ht => nomatch ht)
            hu1 hu2 hu3 hu4 hst1]
          simp only [tupOf, stAt, wSlen, wMsg, hrev, htg', if_pos rfl]
          rw [wFlags_two h3, hrev, hasNDs_false_of_three_false h3]
          simp [wMsg]
      | false =>
        have hne : (ws.getD (j' + 1) default).tag ≠ [] := isEmpty_false_ne_nil htg
        have htagp := htag hrev
        rw [if_neg (by decide)]
        cases h3 : threeOf ws (j' + 1) with
        | true =>
          rw [if_pos rfl]
          rw [asc_parse_one_render3 config (stAt ws (j' + 1))
            (ATYPE_REV ++ _atag_sep :: (ws.getD (j' + 1) default).tag) ATYPE_REV
            (some (ws.getD (j' + 1) default).tag) ATYPE_REV
            (ws.getD (j' + 1) default).tag (ws.getD (j' + 1) default).user
            (ws.getD (j' + 1) default).date (hasNDs ws (j' + 1))
            (needed_separator_length (ws.getD (j' + 1) default).msg)
            (ws.getD (j' + 1) default).msg.obsolete
            (ws.getD (j' + 1) default).msg.fuzzy (wFlags ws j').1 (wFlags ws j').2
            (colon_not_mem_revtag htagp.2) (split_field_revtag htagp.1 hne)
            (fun ht => nomatch ht)
            (fun t ht => by
              have hti := Option.some.inj ht
              exact ⟨by decide, by rw [← hti]; exact htagp.1⟩)
            hu1 hu2 hu3 hu4 hst1]
          simp only [tupOf, stAt, wSlen, wMsg, hrev, if_pos rfl]
          rw [wFlags_three h3, hrev]
          simp [wMsg]
        | false =>
          rw [if_neg (by decide)]
          rw [asc_parse_one_render2 config (stAt ws (j' + 1))
            (ATYPE_REV ++ _atag_sep :: (ws.getD (j' + 1) default).tag) ATYPE_REV
            (some (ws.getD (j' + 1) default).tag) ATYPE_REV
            (ws.getD (j' + 1) default).tag (ws.getD (j' + 1) default).user
            (ws.getD (j' + 1) default).date (wFlags ws j').1 (wFlags ws j').2
            (colon_not_mem_revtag htagp.2) (split_field_revtag htagp.1 hne)
            (fun ht => nomatch ht)
            (fun t ht => by
              have hti := Option.some.inj ht
              exact ⟨by decide, by rw [← hti]; exact htagp.1⟩)
            hu1 hu2 hu3 hu4 hst1]
          simp only [tupOf, stAt, wSlen, wMsg, hrev, if_pos rfl]
          rw [wFlags_two h3, hrev, hasNDs_false_of_three_false h3]
          simp [wMsg]

theorem getD_mem {α : Type} {l : List α} {n : Nat} (d : α) (h : n < l.length) :
    l.getD n d ∈ l := by
  rw [List.getD_eq_getElem?_getD, List.getElem?_eq_getElem h]
  exact List.getElem_mem h

/-- Parsing the rendered lines `j..k-1` from the state left by line j-1
yields exactly the tuples `j..k-1`. -/
theorem asc_parse_go_lines (config : Config) (ws : List Write) (k : Nat)
    (hgw : ∀ w ∈ ws, goodWrite config w)
    (hk : k ≤ ws.length)
    (hmod0 : (ws.getD 0 default).rev = false) :
    ∀ n j, n = k - j → j ≤ k →
      asc_parse_go config ((List.range' j (k - j)).map (lineOf ws)) (stAt ws j) =
        .ok ((List.range' j (k - j)).map (tupOf ws)) := by
  intro n
  induction n with
  | zero =>
    intro j hn hj
    rw [show k - j = 0 from by omega]
    rfl
  | succ n' ih =>
    intro j hn hj
    rw [show k - j = n' + 1 from by omega]
    rw [show List.range' j (n' + 1) = j :: List.range' (j + 1) n' from rfl,
        List.map_cons, List.map_cons]
    simp only [asc_parse_go]
    rw [asc_parse_one_lineOf config ws j (hgw _ (getD_mem default (by omega))) hmod0]
    dsimp only
    rw [show n' = k - (j + 1) from by omega]
    rw [ih (j + 1) (by omega) (by omega)]
    rfl

theorem isSome_getElem? {α : Type} (l : List α) (i : Nat) :
    (l[i]?).isSome = true ↔ i < l.length := by
  constructor
  · intro h
    by_contra hc
    rw [List.getElem?_eq_none (by omega)] at h
    simp at h
  · intro h
    rw [List.getElem?_eq_getElem h]
    rfl

/-- The snapshot message of the m-th separator entry, in terms of the
expected per-field decoded sequences. -/
def snapFromSeqs (A : Msg) (seqs : TField → Nat → List Str) (m : Nat) : Msg :=
  { msgctxt := A.msgctxt, msgid := A.msgid,
    msgid_plural := (seqs .msgid_plural m).head?,
    msgstr := seqs .msgstr m,
    msgctxt_previous := (seqs .msgctxt_previous m).head?,
    msgid_previous := (seqs .msgid_previous m).head?,
    msgid_plural_previous := (seqs .msgid_plural_previous m).head?,
    manual_comment :=
      match seqs .manual_comment m with
      | [] => []
      | s :: _ => splitOnChar '\n' s }

/-- The separator lengths of the separator-carrying entries. -/
def modSlens (tups : List AscTuple) : List Nat :=
  (tups.filter (fun t => t.slen ≠ 0)).map AscTuple.slen

/-- The expected history entries produced by the entry loop. -/
def expEntries (A : Msg) (seqs : TField → Nat → List Str) :
    List AscTuple → Nat → Msg → List Asc
  | [], _, _ => []
  | t :: rest, m, prev =>
    if t.slen ≠ 0 then
      let pmsg := applyFlags (snapFromSeqs A seqs m) t
      ⟨pmsg, some t.user, t.type, t.tag, some t.date, t.slen, t.fuzz, t.obs, 0⟩ ::
        expEntries A seqs rest (m + 1) pmsg
    else
      let pmsg := applyFlags prev t
      ⟨pmsg, some t.user, t.type, t.tag, some t.date, 0, t.fuzz, t.obs, 0⟩ ::
        expEntries A seqs rest m pmsg

theorem modSlens_cons_mod {t : AscTuple} {rest : List AscTuple} (h : t.slen ≠ 0) :
    modSlens (t :: rest) = t.slen :: modSlens rest := by
  simp [modSlens, List.filter_cons, h]

theorem modSlens_cons_zero {t : AscTuple} {rest : List AscTuple} (h : t.slen = 0) :
    modSlens (t :: rest) = modSlens rest := by
  simp only [modSlens, List.filter_cons]
  split
  · rename_i hx
    rw [h] at hx
    simp at hx
  · rfl

theorem range_map_getElem? {α : Type} (l : List α) (d : α) :
    (List.range l.length).map (fun i => (l[i]?).getD d) = l := by
  have h := range_map_getD l d
  refine (List.map_congr_left (fun i _ => ?_)).trans h
  rw [List.getD_eq_getElem?_getD]

theorem decMsg_eq_snapFromSeqs (A : Msg) (toks2 : TField → Nat → List Tok)
    (seqs : TField → Nat → List Str) (m : Nat) (C : TField → Nat)
    (hdec : ∀ f i, i < C f → (decodedVals (toks2 f i))[m]? = some ((seqs f m)[i]?))
    (hlen : ∀ f, (seqs f m).length ≤ C f) :
    decMsg A toks2 (fun f => (seqs f m).length) m = snapFromSeqs A seqs m := by
  have hseq : ∀ f, decSeq toks2 (fun f => (seqs f m).length) m f = seqs f m := by
    intro f
    rw [decSeq]
    have hc : ∀ i ∈ List.range (seqs f m).length,
        (((decodedVals (toks2 f i))[m]?).getD none).getD [] =
        ((seqs f m)[i]?).getD [] := by
      intro i hi
      rw [List.mem_range] at hi
      rw [hdec f i (lt_of_lt_of_le hi (hlen f))]
      rfl
    rw [List.map_congr_left hc]
    exact range_map_getElem? (seqs f m) []
  simp only [decMsg, snapFromSeqs]
  rw [hseq TField.msgid_plural, hseq TField.msgstr, hseq TField.msgctxt_previous,
      hseq TField.msgid_previous, hseq TField.msgid_plural_previous,
      hseq TField.manual_comment]

/-- The entry loop of the decoder on a reference-shaped record: each
separator entry decodes to its expected snapshot; zero entries copy the
previous snapshot; flags come from the tuples. -/
theorem collectSingleGo_spec (A : Msg) (C : TField → Nat)
    (toks2 : TField → Nat → List Tok) (seqs : TField → Nat → List Str) (M : Nat)
    (hshape : ∀ f, get_as_sequence A f =
      (List.range (C f)).map (fun i => renderBlob (toks2 f i)))
    (hwfF : ∀ f i, TokListWF (toks2 f i))
    (hbeyond : ∀ f i, C f ≤ i → toks2 f i = [])
    (hdec : ∀ f m, m < M → ∀ i, i < C f →
      (decodedVals (toks2 f i))[m]? = some ((seqs f m)[i]?))
    (hlen : ∀ f m, m < M → (seqs f m).length ≤ C f) :
    ∀ (tups : List AscTuple) (m : Nat) (st : TField → StepState)
      (history : List Asc) (prev : Msg),
      m + (modSlens tups).length ≤ M →
      (∀ f i, i < C f → ((toks2 f i).map Tok.slen).drop m = modSlens tups) →
      (∀ f i, (st f).spos.getD i 0 = tokEnd (toks2 f i) m) →
      (∀ f i, (st f).pvals.getD i [] = (decodedVals (toks2 f i)).take m) →
      prev = (history.getLast?).elim {} (·.msg) →
      collectSingleGo A tups st history = history ++ expEntries A seqs tups m prev := by
  intro tups
  induction tups with
  | nil =>
    intro m st history prev _ _ _ _ _
    simp [collectSingleGo, expEntries]
  | cons t rest ih =>
    intro m st history prev hm htoksl hst1 hst2 hprev
    by_cases hts : t.slen = 0
    · simp only [collectSingleGo, expEntries]
      rw [if_neg (show ¬ (t.slen ≠ 0) from by omega)]
      rw [← hprev]
      have h1 : m + (modSlens rest).length ≤ M := by
        rw [← modSlens_cons_zero hts]
        exact hm
      have h2 : ∀ f i, i < C f → ((toks2 f i).map Tok.slen).drop m = modSlens rest := by
        intro f i hc
        rw [htoksl f i hc, modSlens_cons_zero hts]
      have h5 : applyFlags prev t = ((history ++
          [⟨applyFlags prev t, some t.user, t.type, t.tag, some t.date, 0,
            t.fuzz, t.obs, 0⟩] : List Asc).getLast?).elim {} (·.msg) := by
        rw [List.getLast?_concat]
        rfl
      have hrec := ih m st (history ++
            [⟨applyFlags prev t, some t.user, t.type, t.tag, some t.date, 0,
              t.fuzz, t.obs, 0⟩]) (applyFlags prev t) h1 h2 hst1 hst2 h5
      rw [hrec]
      simp [hts]
    · simp only [collectSingleGo, expEntries]
      rw [if_pos hts]
      have hmM : m < M := by
        rw [modSlens_cons_mod hts] at hm
        simp only [List.length_cons] at hm
        omega
      have hslen2 : ∀ f i, i < C f →
          ∃ tk, (toks2 f i)[m]? = some tk ∧ tk.slen = t.slen := by
        intro f i hc
        have h0 := htoksl f i hc
        rw [modSlens_cons_mod hts] at h0
        have h1 : ((toks2 f i).map Tok.slen)[m]? = some t.slen := by
          have h2 := congrArg (fun l => l[0]?) h0
          simp only [List.getElem?_drop, Nat.add_zero, List.getElem?_cons_zero] at h2
          exact h2
        rw [List.getElem?_map] at h1
        cases hx : (toks2 f i)[m]? with
        | none =>
          rw [hx] at h1
          exact absurd h1 (by simp)
        | some tk =>
          rw [hx] at h1
          exact ⟨tk, rfl, by simpa using h1⟩
      obtain ⟨st1, heq, hsp1, hpv1⟩ := decodeModEntry_spec t.slen m C toks2
        (fun f => (seqs f m).length) A st hshape hwfF hbeyond hslen2
        (fun f i hc => by
          rw [hdec f m hmM i hc]
          simp only [Option.getD_some]
          rw [isSome_getElem?])
        (fun f => hlen f m hmM) hst1 hst2
      rw [heq]
      dsimp only
      rw [decMsg_eq_snapFromSeqs A toks2 seqs m C (fun f i hc => hdec f m hmM i hc)
        (fun f => hlen f m hmM)]
      have h1 : m + 1 + (modSlens rest).length ≤ M := by
        rw [modSlens_cons_mod hts] at hm
        simp only [List.length_cons] at hm
        omega
      have h2 : ∀ f i, i < C f →
          ((toks2 f i).map Tok.slen).drop (m + 1) = modSlens rest := by
        intro f i hc
        rw [List.drop_add, htoksl f i hc, modSlens_cons_mod hts,
            List.drop_one, List.tail_cons]
      have h5 : applyFlags (snapFromSeqs A seqs m) t = ((history ++
          [⟨applyFlags (snapFromSeqs A seqs m) t, some t.user, t.type, t.tag,
            some t.date, t.slen, t.fuzz, t.obs, 0⟩] : List Asc).getLast?).elim
          {} (·.msg) := by
        rw [List.getLast?_concat]
        rfl
      have hrec := ih (m + 1) st1 (history ++
            [⟨applyFlags (snapFromSeqs A seqs m) t, some t.user, t.type, t.tag,
              some t.date, t.slen, t.fuzz, t.obs, 0⟩])
          (applyFlags (snapFromSeqs A seqs m) t) h1 h2 hsp1 hpv1 h5
      rw [hrec]
      simp [hts]

theorem expEntries_dates (A : Msg) (seqs : TField → Nat → List Str) :
    ∀ (tups : List AscTuple) (m : Nat) (prev : Msg),
      (expEntries A seqs tups m prev).map Asc.date =
        tups.map (fun t => some t.date) := by
  intro tups
  induction tups with
  | nil =>
    intro m prev
    rfl
  | cons t rest ih =>
    intro m prev
    simp only [expEntries]
    by_cases h : t.slen ≠ 0
    · rw [if_pos h]
      simp only [List.map_cons, ih]
    · rw [if_neg h]
      simp only [List.map_cons, ih]

theorem chain_zip_of_dates {l : List Asc}
    (h : ∀ i, i + 1 < l.length →
      (l.getD i default).date.getD 0 ≤ (l.getD (i + 1) default).date.getD 0) :
    List.Chain' (fun a b => ascKeyLe a b = true) (l.zip (List.range l.length)) := by
  rw [List.chain'_iff_get]
  intro i hi
  have hlen : (l.zip (List.range l.length)).length = l.length := by simp
  rw [hlen] at hi
  simp only [List.get_eq_getElem, List.getElem_zip, List.getElem_range]
  have hd := h i (by omega)
  rw [List.getD_eq_getElem?_getD, List.getElem?_eq_getElem (by omega),
      List.getD_eq_getElem?_getD, List.getElem?_eq_getElem (by omega)] at hd
  simp only [Option.getD_some] at hd
  simp only [ascKeyLe]
  simp
  omega

/-- `asc_collect_history_single` on a reference-shaped record with
nondecreasing entry dates: the expected entries, newest first. -/
theorem collect_single_ref (config : Config) (A : Msg) (tups : List AscTuple)
    (C : TField → Nat) (toks2 : TField → Nat → List Tok)
    (seqs : TField → Nat → List Str)
    (hparse : asc_parse_ascriptions config A = .ok tups)
    (hshape : ∀ f, get_as_sequence A f =
      (List.range (C f)).map (fun i => renderBlob (toks2 f i)))
    (hwfF : ∀ f i, TokListWF (toks2 f i))
    (hbeyond : ∀ f i, C f ≤ i → toks2 f i = [])
    (hdec : ∀ f m, m < (modSlens tups).length → ∀ i, i < C f →
      (decodedVals (toks2 f i))[m]? = some ((seqs f m)[i]?))
    (hlen : ∀ f m, m < (modSlens tups).length → (seqs f m).length ≤ C f)
    (htoksl : ∀ f i, i < C f → (toks2 f i).map Tok.slen = modSlens tups)
    (hdates : ∀ i, i + 1 < (expEntries A seqs tups 0 {}).length →
      ((expEntries A seqs tups 0 {}).getD i default).date.getD 0 ≤
      ((expEntries A seqs tups 0 {}).getD (i + 1) default).date.getD 0) :
    asc_collect_history_single config A =
      .ok ((expEntries A seqs tups 0 {}).reverse) := by
  have hinit1 : ∀ (f : TField) (i : Nat),
      (({} : StepState)).spos.getD i 0 = tokEnd (toks2 f i) 0 := by
    intro f i
    rw [tokEnd_zero]
    cases i <;> rfl
  have hinit2 : ∀ (f : TField) (i : Nat),
      (({} : StepState)).pvals.getD i [] = (decodedVals (toks2 f i)).take 0 := by
    intro f i
    rw [List.take_zero]
    cases i <;> rfl
  have hhist : collectSingleGo A tups (fun _ => {}) [] =
      expEntries A seqs tups 0 {} := by
    have h := collectSingleGo_spec A C toks2 seqs (modSlens tups).length hshape hwfF
      hbeyond hdec hlen tups 0 (fun _ => {}) [] {} (by omega)
      (fun f i hc => by simpa using htoksl f i hc)
      (fun f i => hinit1 f i) (fun f i => hinit2 f i) rfl
    simpa using h
  simp only [asc_collect_history_single]
  rw [hparse]
  simp only [Except.map]
  rw [hhist]
  rw [isortAsc_sorted _ (chain_zip_of_dates hdates)]
  rw [List.map_fst_zip _ _ (by simp)]

/-! ## Writer-side lemmas -/

theorem containsSub_append_cons {m a b : Str} {c : Char} (hc : c ∉ m)
    (h : containsSub m (a ++ c :: b) = true) :
    containsSub m a = true ∨ containsSub m b = true := by
  obtain ⟨j, hj⟩ := containsSub_iff.mp h
  by_cases hja : j + m.length ≤ a.length
  · left
    rw [containsSub_iff]
    refine ⟨j, ?_⟩
    have hd : (a ++ c :: b).drop j = a.drop j ++ c :: b :=
      List.drop_append_of_le_length (by omega)
    rw [hd] at hj
    have hlen : m.length ≤ (a.drop j).length := by
      rw [List.length_drop]
      omega
    have htake := List.prefix_iff_eq_take.mp hj
    rw [List.take_append_eq_append_take, Nat.sub_eq_zero_of_le hlen] at htake
    simp only [List.take_zero, List.append_nil] at htake
    rw [htake]
    exact List.take_prefix _ _
  · by_cases hjb : a.length + 1 ≤ j
    · right
      rw [containsSub_iff]
      refine ⟨j - (a.length + 1), ?_⟩
      have hd : (a ++ c :: b).drop j = b.drop (j - (a.length + 1)) := by
        rw [List.drop_append_eq_append_drop, List.drop_eq_nil_of_le (by omega),
            List.nil_append,
            show j - a.length = (j - (a.length + 1)) + 1 from by omega,
            List.drop_succ_cons]
      rw [hd] at hj
      exact hj
    · exfalso
      obtain ⟨t, ht⟩ := hj
      have hml : a.length - j < m.length := by omega
      have hme : (m ++ t)[a.length - j]? = ((a ++ c :: b).drop j)[a.length - j]? := by
        rw [ht]
      rw [List.getElem?_append_left hml, List.getElem?_drop,
          show j + (a.length - j) = a.length from by omega,
          List.getElem?_append_right (by omega), Nat.sub_self,
          List.getElem?_cons_zero] at hme
      exact hc (List.getElem?_mem hme)

theorem containsSub_join {m : Str} {lines : List Str} (hm : m ≠ []) (hc : '\n' ∉ m)
    (h : ∀ x ∈ lines, containsSub m x = false) :
    containsSub m (joinWithNL lines) = false := by
  induction lines with
  | nil =>
    simp only [joinWithNL, containsSub]
    cases hx : m with
    | nil => exact absurd hx hm
    | cons y r => rfl
  | cons x rest ih =>
    cases rest with
    | nil => exact h x (by simp)
    | cons y t =>
      rw [show joinWithNL (x :: y :: t) = x ++ '\n' :: joinWithNL (y :: t) from rfl]
      rw [Bool.eq_false_iff]
      intro hcon
      rcases containsSub_append_cons hc hcon with h1 | h1
      · rw [h x (by simp)] at h1
        exact absurd h1 (by decide)
      · rw [ih (fun z hz => h z (by simp [hz]))] at h1
        exact absurd h1 (by decide)

theorem goodsep_value {msg : Msg} {L : Nat} (hgs : goodsep msg L = true)
    {f : TField} {v : Str} (hv : v ∈ (msg.fget f).values) :
    containsSub (field_separator_head L) v = false := by
  rw [goodsep, List.all_eq_true] at hgs
  have h1 := hgs f (by cases f <;> decide)
  rw [List.all_eq_true] at h1
  have h2 := h1 v hv
  rw [Bool.not_eq_true'] at h2
  exact h2

theorem values_opt (o : Option Str) : FVal.values (.opt o) = o.toList := by
  cases o <;> rfl

theorem get_as_sequence_marker_free {msg : Msg} {L : Nat} {f : TField} {v : Str}
    (hgs : goodsep msg L = true) (hv : v ∈ get_as_sequence msg f false) :
    containsSub (field_separator_head L) v = false := by
  simp only [get_as_sequence] at hv
  split at hv
  · simp at hv
  · revert hv
    cases f <;> intro hv
    case msgid_plural =>
      exact goodsep_value hgs (show v ∈ (Msg.fget msg .msgid_plural).values from by
        rw [show Msg.fget msg .msgid_plural = .opt msg.msgid_plural from rfl, values_opt]
        exact hv)
    case msgstr =>
      exact goodsep_value hgs (show v ∈ (Msg.fget msg .msgstr).values from hv)
    case msgctxt_previous =>
      exact goodsep_value hgs
        (show v ∈ (Msg.fget msg .msgctxt_previous).values from by
        rw [show Msg.fget msg .msgctxt_previous = .opt msg.msgctxt_previous from rfl,
            values_opt]
        exact hv)
    case msgid_previous =>
      exact goodsep_value hgs (show v ∈ (Msg.fget msg .msgid_previous).values from by
        rw [show Msg.fget msg .msgid_previous = .opt msg.msgid_previous from rfl,
            values_opt]
        exact hv)
    case msgid_plural_previous =>
      exact goodsep_value hgs
        (show v ∈ (Msg.fget msg .msgid_plural_previous).values from by
        rw [show Msg.fget msg .msgid_plural_previous =
          .opt msg.msgid_plural_previous from rfl, values_opt]
        exact hv)
    case manual_comment =>
      have hv2 : v ∈ (if msg.manual_comment.isEmpty then ([] : List Str)
          else [joinWithNL msg.manual_comment]) := hv
      split at hv2
      · simp at hv2
      · simp only [List.mem_cons, List.not_mem_nil, or_false] at hv2
        rw [hv2]
        refine containsSub_join (by simp [field_separator_head]) (nl_not_mem_marker L)
          (fun x hx => ?_)
        exact goodsep_value hgs (show x ∈ (Msg.fget msg .manual_comment).values from hx)

theorem findEqIdx_spec (v : Str) (f : TField) (i : Nat) (seqs : Nat → List Str) :
    ∀ (rh : List Asc) (nm : Nat),
      (∀ jj a, (rh.filter (fun x => x.slen ≠ 0))[jj]? = some a →
        get_as_sequence a.msg f = seqs (nm + jj)) →
      ∀ r, findEqIdx v f i rh nm = some r →
        nm ≤ r ∧ r < nm + (rh.filter (fun x => x.slen ≠ 0)).length ∧
        i < (seqs r).length ∧ (seqs r)[i]? = some v := by
  intro rh
  induction rh with
  | nil =>
    intro nm _ r h
    simp [findEqIdx] at h
  | cons a rest ih =>
    intro nm hs r h
    rw [findEqIdx] at h
    by_cases ha : a.slen = 0
    · rw [if_pos ha] at h
      have hf : (a :: rest).filter (fun x => x.slen ≠ 0) =
          rest.filter (fun x => x.slen ≠ 0) := by
        simp [List.filter_cons, ha]
      obtain ⟨h1, h2, h3, h4⟩ := ih nm (fun jj b hb => hs jj b (by rw [hf]; exact hb)) r h
      rw [hf]
      exact ⟨h1, h2, h3, h4⟩
    · rw [if_neg ha] at h
      dsimp only at h
      have hf : (a :: rest).filter (fun x => x.slen ≠ 0) =
          a :: rest.filter (fun x => x.slen ≠ 0) := by
        simp [List.filter_cons, ha]
      rw [hf]
      split at h
      · rename_i hcond
        have hr : r = nm := (Option.some.inj h).symm
        subst hr
        have hseq := hs 0 a (by rw [hf]; simp)
        rw [Nat.add_zero] at hseq
        rw [← hseq]
        refine ⟨Nat.le_refl _, by simp, hcond.1, ?_⟩
        rw [← hcond.2, List.getD_eq_getElem?_getD,
            List.getElem?_eq_getElem hcond.1]
        rfl
      · obtain ⟨h1, h2, h3, h4⟩ := ih (nm + 1)
          (fun jj b hb => by
            have := hs (jj + 1) b (by rw [hf]; simpa using hb)
            rwa [show nm + (jj + 1) = nm + 1 + jj from by omega] at this) r h
        simp only [List.length_cons]
        exact ⟨by omega, by omega, h3, h4⟩

theorem decodedValsGo_cons (t : Tok) (rest : List Tok) (acc : List (Option Str)) :
    decodedValsGo (t :: rest) acc = decodedValsGo rest (acc ++
      [match t with
       | .lit v _ => some v
       | .absent _ => none
       | .eqref n _ => acc.getD n none]) := by
  cases t <;> rfl

theorem decodedValsGo_append (a b : List Tok) :
    ∀ acc, decodedValsGo (a ++ b) acc = decodedValsGo b (decodedValsGo a acc) := by
  induction a with
  | nil => intro acc; rfl
  | cons t rest ih =>
    intro acc
    rw [List.cons_append, decodedValsGo_cons, decodedValsGo_cons, ih]

theorem decodedVals_snoc (ts : List Tok) (t : Tok) :
    decodedVals (ts ++ [t]) = decodedVals ts ++
      [match t with
       | .lit v _ => some v
       | .absent _ => none
       | .eqref n _ => (decodedVals ts).getD n none] := by
  rw [decodedVals, decodedValsGo_append]
  cases t <;> rfl

theorem joinWithNL_snoc (xs : List Str) (y : Str) :
    joinWithNL (xs ++ [y]) = if xs.isEmpty then y else joinWithNL xs ++ '\n' :: y := by
  induction xs with
  | nil => rfl
  | cons x rest ih =>
    cases rest with
    | nil => rfl
    | cons z t =>
      rw [show joinWithNL ((x :: z :: t) ++ [y]) =
        x ++ '\n' :: joinWithNL ((z :: t) ++ [y]) from rfl]
      rw [ih, if_neg (by simp), if_neg (by simp)]
      rw [show joinWithNL (x :: z :: t) = x ++ '\n' :: joinWithNL (z :: t) from rfl]
      simp

theorem renderBlob_snoc (ts : List Tok) (t : Tok) :
    renderBlob (ts ++ [t]) =
      if (renderBlob ts).isEmpty then t.render
      else renderBlob ts ++ '\n' :: t.render := by
  rw [renderBlob, List.map_append, List.map_cons, List.map_nil, joinWithNL_snoc]
  cases hts : ts with
  | nil => rfl
  | cons t0 r =>
    rw [if_neg (by simp)]
    have hne : ¬ (renderBlob (t0 :: r)).isEmpty = true := by
      cases hr : r with
      | nil =>
        rw [show renderBlob [t0] = Tok.render t0 from rfl]
        simpa [List.isEmpty_iff] using render_ne_nil t0
      | cons t1 r2 =>
        rw [show renderBlob (t0 :: t1 :: r2) =
          Tok.render t0 ++ '\n' :: joinWithNL ((t1 :: r2).map Tok.render) from rfl]
        simp
    rw [if_neg hne]
    rfl

theorem wf_snoc {ts : List Tok} {t : Tok} (hwf : TokListWF ts)
    (h1 : ∀ v s, t = Tok.lit v s → containsSub (field_separator_head s) v = false)
    (h2 : ∀ n s, t = Tok.eqref n s → n < ts.length) :
    TokListWF (ts ++ [t]) := by
  intro k tk hk
  by_cases hkl : k < ts.length
  · rw [List.getElem?_append_left hkl] at hk
    exact hwf k tk hk
  · rw [List.getElem?_append_right (by omega)] at hk
    have hk0 : k - ts.length = 0 := by
      by_contra hc
      rw [List.getElem?_eq_none (by simp; omega)] at hk
      exact absurd hk (by simp)
    rw [hk0, List.getElem?_cons_zero] at hk
    have ht : tk = t := (Option.some.inj hk).symm
    subst ht
    refine ⟨h1, fun n s hns => ?_⟩
    have := h2 n s hns
    omega

/-! ## The writer's field transform -/

/-- The absence-token pad for items first appearing now: one absence
token per prior separator-carrying entry. -/
def nonesToks (rh : List Asc) : List Tok :=
  (rh.filter (fun x => x.slen ≠ 0)).map (fun x => Tok.absent x.slen)

/-- The token `add_nonid` appends for item `i` of field `f`. -/
def newTok (msg : Msg) (slen : Nat) (rh : List Asc) (f : TField) (i : Nat) : Tok :=
  let msg_seq := get_as_sequence msg f false
  if i < msg_seq.length then
    match findEqIdx (msg_seq.getD i []) f i rh 0 with
    | none => Tok.lit (msg_seq.getD i []) slen
    | some i_eq => Tok.eqref i_eq slen
  else Tok.absent slen

/-- The per-field item-blob transform of `add_nonid`, factored out of
the fold (each fold step reads and writes only its own field). -/
def addBlobs (msg : Msg) (slen : Nat) (rhistory : List Asc) (field : TField)
    (amsg_seq0 : List Str) : List Str :=
  let shead := field_separator_head slen
  let nones := (rhistory.filter (fun x => x.slen ≠ 0)).map
      (fun x => field_separator_head x.slen ++ [_trsep_mod_none])
  let padnone := joinWithNL nones
  let msg_seq := get_as_sequence msg field false
  let amsg_seq := amsg_seq0 ++ List.replicate (msg_seq.length - amsg_seq0.length) padnone
  (amsg_seq.zip (List.range amsg_seq.length)).map
    (fun p =>
      let add : Str :=
        if p.2 < msg_seq.length then
          match findEqIdx (msg_seq.getD p.2 []) field p.2 rhistory 0 with
          | none => msg_seq.getD p.2 [] ++ shead
          | some i_eq => shead ++ _trsep_mod_eq :: natRepr i_eq
        else shead ++ [_trsep_mod_none]
      if p.1.isEmpty then add else p.1 ++ '\n' :: add)

/-- How `set_from_sequence` stores a comment-field item sequence. -/
def mcStore (L : List Str) : List Str :=
  match L with
  | [] => []
  | s :: _ => splitOnChar '\n' s

theorem add_nonid_eq (am msg : Msg) (slen : Nat) (rh : List Asc) :
    add_nonid am msg slen rh =
      { am with
        msgid_plural :=
          (addBlobs msg slen rh .msgid_plural (get_as_sequence am .msgid_plural)).head?,
        msgstr := addBlobs msg slen rh .msgstr (get_as_sequence am .msgstr),
        msgctxt_previous :=
          (addBlobs msg slen rh .msgctxt_previous
            (get_as_sequence am .msgctxt_previous)).head?,
        msgid_previous :=
          (addBlobs msg slen rh .msgid_previous
            (get_as_sequence am .msgid_previous)).head?,
        msgid_plural_previous :=
          (addBlobs msg slen rh .msgid_plural_previous
            (get_as_sequence am .msgid_plural_previous)).head?,
        manual_comment :=
          mcStore (addBlobs msg slen rh .manual_comment
            (get_as_sequence am .manual_comment)) } := by
  rfl

theorem padnone_eq (rh : List Asc) :
    joinWithNL ((rh.filter (fun x => x.slen ≠ 0)).map
      (fun x => field_separator_head x.slen ++ [_trsep_mod_none])) =
    renderBlob (nonesToks rh) := by
  rw [renderBlob, nonesToks, List.map_map]
  rfl

theorem render_newTok (msg : Msg) (slen : Nat) (rh : List Asc) (f : TField) (i : Nat) :
    Tok.render (newTok msg slen rh f i) =
      (if i < (get_as_sequence msg f false).length then
        match findEqIdx ((get_as_sequence msg f false).getD i []) f i rh 0 with
        | none => (get_as_sequence msg f false).getD i [] ++ field_separator_head slen
        | some i_eq => field_separator_head slen ++ _trsep_mod_eq :: natRepr i_eq
       else field_separator_head slen ++ [_trsep_mod_none]) := by
  simp only [newTok]
  split
  · cases h : findEqIdx ((get_as_sequence msg f false).getD i []) f i rh 0 <;> rfl
  · rfl

theorem zip_range_map {α β : Type} (l : List α) (g : α × Nat → β) (d : α) :
    (l.zip (List.range l.length)).map g =
      (List.range l.length).map (fun i => g (l.getD i d, i)) := by
  apply List.ext_getElem
  · simp
  · intro i h1 h2
    simp only [List.getElem_map, List.getElem_zip, List.getElem_range]
    have hi : i < l.length := by simpa using h2
    rw [List.getD_eq_getElem l d hi]

theorem getD_map_range_pad {β : Type} (h : Nat → β) (C n : Nat) (d : β) (i : Nat) :
    (((List.range C).map h) ++ List.replicate n d).getD i d =
      if i < C then h i else d := by
  by_cases hi : i < C
  · rw [if_pos hi, List.getD_eq_getElem?_getD,
        List.getElem?_append_left (by simp [hi]),
        List.getElem?_map, List.getElem?_range hi]
    rfl
  · rw [if_neg hi, List.getD_eq_getElem?_getD]
    by_cases hn : i < C + n
    · rw [List.getElem?_append_right (by simp; omega)]
      rw [List.getElem?_replicate]
      rw [if_pos (by simp; omega)]
      rfl
    · rw [List.getElem?_eq_none (by simp; omega)]
      rfl

theorem addBlobs_shape (msg : Msg) (slen : Nat) (rh : List Asc) (f : TField)
    (C : Nat) (toks2i : Nat → List Tok) :
    addBlobs msg slen rh f ((List.range C).map (fun i => renderBlob (toks2i i))) =
      (List.range (max C (get_as_sequence msg f false).length)).map
        (fun i => renderBlob ((if i < C then toks2i i else nonesToks rh) ++
          [newTok msg slen rh f i])) := by
  simp only [addBlobs]
  rw [zip_range_map _ _ (joinWithNL ((rh.filter (fun x => x.slen ≠ 0)).map
      (fun x => field_separator_head x.slen ++ [_trsep_mod_none])))]
  rw [show (((List.range C).map (fun i => renderBlob (toks2i i))) ++
      List.replicate ((get_as_sequence msg f false).length -
        ((List.range C).map (fun i => renderBlob (toks2i i))).length)
      (joinWithNL ((rh.filter (fun x => x.slen ≠ 0)).map
        (fun x => field_separator_head x.slen ++ [_trsep_mod_none])))).length =
      max C (get_as_sequence msg f false).length from by simp; omega]
  apply List.map_congr_left
  intro i _
  dsimp only
  rw [getD_map_range_pad]
  rw [renderBlob_snoc]
  rw [show (if i < (get_as_sequence msg f false).length then
        match findEqIdx ((get_as_sequence msg f false).getD i []) f i rh 0 with
        | none => (get_as_sequence msg f false).getD i [] ++ field_separator_head slen
        | some i_eq => field_separator_head slen ++ _trsep_mod_eq :: natRepr i_eq
       else field_separator_head slen ++ [_trsep_mod_none]) =
      Tok.render (newTok msg slen rh f i) from (render_newTok msg slen rh f i).symm]
  by_cases hi : i < C
  · rw [if_pos hi, if_pos hi]
  · rw [if_neg hi, if_neg hi, padnone_eq]

theorem toList_head?_of_len_le_one {α : Type} {l : List α} (h : l.length ≤ 1) :
    l.head?.toList = l := by
  cases l with
  | nil => rfl
  | cons a t =>
    cases t with
    | nil => rfl
    | cons b u => simp at h

theorem opt_toList_len_le_one {α : Type} (o : Option α) : o.toList.length ≤ 1 := by
  cases o <;> simp

theorem seq_len_le_one (msg : Msg) (f : TField) (b : Bool) (hf : f ≠ TField.msgstr) :
    (get_as_sequence msg f b).length ≤ 1 := by
  simp only [get_as_sequence]
  split
  · simp
  · cases f
    case msgid_plural => exact opt_toList_len_le_one _
    case msgstr => exact absurd rfl hf
    case msgctxt_previous => exact opt_toList_len_le_one _
    case msgid_previous => exact opt_toList_len_le_one _
    case msgid_plural_previous => exact opt_toList_len_le_one _
    case manual_comment =>
      show (if msg.manual_comment.isEmpty then []
        else [joinWithNL msg.manual_comment]).length ≤ 1
      split <;> simp

theorem get_mc_of (m : Msg) (L : List Str) (hL : L.length ≤ 1)
    (hm : m.manual_comment = mcStore L) :
    get_as_sequence m .manual_comment = L := by
  show (if m.manual_comment.isEmpty then [] else [joinWithNL m.manual_comment]) = L
  rw [hm]
  cases L with
  | nil => rfl
  | cons s t =>
    cases t with
    | cons a u => simp at hL
    | nil =>
      show (if (splitOnChar '\n' s).isEmpty then []
        else [joinWithNL (splitOnChar '\n' s)]) = [s]
      rw [if_neg (by
        cases h : splitOnChar '\n' s with
        | nil => exact absurd h splitOnChar_ne_nil
        | cons x r => simp)]
      rw [joinWithNL_splitOnChar]

theorem get_add_nonid (am msg : Msg) (slen : Nat) (rh : List Asc)
    (C : TField → Nat) (toks2 : TField → Nat → List Tok)
    (hshape : ∀ f, get_as_sequence am f =
      (List.range (C f)).map (fun i => renderBlob (toks2 f i)))
    (hC1 : ∀ f, f ≠ TField.msgstr → C f ≤ 1) (f : TField) :
    get_as_sequence (add_nonid am msg slen rh) f =
      (List.range (max (C f) (get_as_sequence msg f false).length)).map
        (fun i => renderBlob ((if i < C f then toks2 f i else nonesToks rh) ++
          [newTok msg slen rh f i])) := by
  rw [add_nonid_eq]
  have hlen : ∀ g : TField, g ≠ TField.msgstr →
      ((List.range (max (C g) (get_as_sequence msg g false).length)).map
        (fun i => renderBlob ((if i < C g then toks2 g i else nonesToks rh) ++
          [newTok msg slen rh g i]))).length ≤ 1 := by
    intro g hg
    have h1 := hC1 g hg
    have h2 := seq_len_le_one msg g false hg
    simp only [List.length_map, List.length_range]
    omega
  cases f with
  | msgid_plural =>
    show ((addBlobs msg slen rh .msgid_plural
      (get_as_sequence am .msgid_plural)).head?).toList = _
    rw [hshape, addBlobs_shape]
    exact toList_head?_of_len_le_one (hlen _ (by decide))
  | msgstr =>
    show addBlobs msg slen rh .msgstr (get_as_sequence am .msgstr) = _
    rw [hshape, addBlobs_shape]
  | msgctxt_previous =>
    show ((addBlobs msg slen rh .msgctxt_previous
      (get_as_sequence am .msgctxt_previous)).head?).toList = _
    rw [hshape, addBlobs_shape]
    exact toList_head?_of_len_le_one (hlen _ (by decide))
  | msgid_previous =>
    show ((addBlobs msg slen rh .msgid_previous
      (get_as_sequence am .msgid_previous)).head?).toList = _
    rw [hshape, addBlobs_shape]
    exact toList_head?_of_len_le_one (hlen _ (by decide))
  | msgid_plural_previous =>
    show ((addBlobs msg slen rh .msgid_plural_previous
      (get_as_sequence am .msgid_plural_previous)).head?).toList = _
    rw [hshape, addBlobs_shape]
    exact toList_head?_of_len_le_one (hlen _ (by decide))
  | manual_comment =>
    rw [get_mc_of _
      (addBlobs msg slen rh .manual_comment (get_as_sequence am .manual_comment))
      (by rw [hshape, addBlobs_shape]; exact hlen _ (by decide)) rfl]
    rw [hshape, addBlobs_shape]

/-! ## Mirror of the record contents over a write sequence -/

/-- The indices of the separator-carrying writes among the first `k`. -/
def modWrites (ws : List Write) (k : Nat) : List Nat :=
  (List.range k).filter (fun j => wSlen ws j ≠ 0)

/-- The expected decoded item sequence of field `f` at the `m`-th
separator entry: the live values of the `m`-th separator-carrying
write's message. -/
def seqsW (ws : List Write) (k : Nat) (f : TField) (m : Nat) : List Str :=
  get_as_sequence (wMsg ws ((modWrites ws k).getD m 0)) f false

/-- The expected decoded history entry of the `j`-th write. -/
def ascOf (ws : List Write) (j : Nat) : Asc :=
  { msg := snapOf ws j, user := some (ws.getD j default).user,
    type := if (ws.getD j default).rev then ATYPE_REV else ATYPE_MOD,
    tag := if (ws.getD j default).rev then (ws.getD j default).tag else [],
    date := some (ws.getD j default).date, slen := wSlen ws j,
    fuzz := (wFlags ws j).1, obs := (wFlags ws j).2, pos := 0 }

theorem wSlen_zero_ne (ws : List Write) : wSlen ws 0 ≠ 0 := by
  rw [wSlen]
  rw [if_pos (show hasNDs ws 0 = true from rfl)]
  have := (needed_separator_length_spec (wMsg ws 0)).2.1
  omega

theorem modWrites_succ (ws : List Write) (k : Nat) :
    modWrites ws (k + 1) =
      modWrites ws k ++ (if wSlen ws k ≠ 0 then [k] else []) := by
  rw [modWrites, List.range_succ, List.filter_append, modWrites]
  congr 1
  split
  · rename_i h
    simp [h]
  · rename_i h
    simp at h
    simp [h]

theorem modWrites_succ_mod {ws : List Write} {k : Nat} (h : wSlen ws k ≠ 0) :
    modWrites ws (k + 1) = modWrites ws k ++ [k] := by
  rw [modWrites_succ, if_pos h]

theorem modWrites_succ_zero {ws : List Write} {k : Nat} (h : wSlen ws k = 0) :
    modWrites ws (k + 1) = modWrites ws k := by
  rw [modWrites_succ, if_neg (by omega)]
  simp

theorem modWrites_getD_lt {ws : List Write} {k m : Nat}
    (h : m < (modWrites ws k).length) :
    (modWrites ws (k + 1)).getD m 0 = (modWrites ws k).getD m 0 := by
  rw [modWrites_succ, List.getD_eq_getElem?_getD, List.getElem?_append_left h,
      ← List.getD_eq_getElem?_getD]

theorem seqsW_stable {ws : List Write} {k m : Nat} (f : TField)
    (h : m < (modWrites ws k).length) :
    seqsW ws (k + 1) f m = seqsW ws k f m := by
  rw [seqsW, seqsW, modWrites_getD_lt h]

theorem modWrites_getD_last {ws : List Write} {k : Nat} (h : wSlen ws k ≠ 0) :
    (modWrites ws (k + 1)).getD (modWrites ws k).length 0 = k := by
  rw [modWrites_succ_mod h, List.getD_eq_getElem?_getD,
      List.getElem?_append_right (Nat.le_refl _), Nat.sub_self]
  rfl

theorem modWrites_mem {ws : List Write} {k j : Nat} (h : j ∈ modWrites ws k) :
    j < k ∧ wSlen ws j ≠ 0 := by
  rw [modWrites, List.mem_filter, List.mem_range] at h
  simpa using h

theorem modWrites_getD_mem {ws : List Write} {k m : Nat}
    (h : m < (modWrites ws k).length) :
    (modWrites ws k).getD m 0 < k ∧ wSlen ws ((modWrites ws k).getD m 0) ≠ 0 :=
  modWrites_mem (getD_mem 0 h)

/-! Field-sequence computations -/

theorem head?_toList {α : Type} (o : Option α) : o.toList.head? = o := by
  cases o <;> rfl

theorem get_false_msgid_plural (m : Msg) :
    get_as_sequence m .msgid_plural false = m.msgid_plural.toList := by
  simp [get_as_sequence, TField.isPrevious]

theorem get_false_msgstr (m : Msg) :
    get_as_sequence m .msgstr false = m.msgstr := by
  simp [get_as_sequence, TField.isPrevious]

theorem get_false_manual_comment (m : Msg) :
    get_as_sequence m .manual_comment false =
      (if m.manual_comment.isEmpty then [] else [joinWithNL m.manual_comment]) := by
  simp [get_as_sequence, TField.isPrevious]

theorem get_false_msgctxt_previous (m : Msg) :
    get_as_sequence m .msgctxt_previous false =
      (if m.fuzzy then m.msgctxt_previous.toList else []) := by
  cases hf : m.fuzzy <;> simp [get_as_sequence, TField.isPrevious, hf]

theorem get_false_msgid_previous (m : Msg) :
    get_as_sequence m .msgid_previous false =
      (if m.fuzzy then m.msgid_previous.toList else []) := by
  cases hf : m.fuzzy <;> simp [get_as_sequence, TField.isPrevious, hf]

theorem get_false_msgid_plural_previous (m : Msg) :
    get_as_sequence m .msgid_plural_previous false =
      (if m.fuzzy then m.msgid_plural_previous.toList else []) := by
  cases hf : m.fuzzy <;> simp [get_as_sequence, TField.isPrevious, hf]

/-- The decoded snapshot exposes, as an ascription message, exactly the
live tracked sequences of its write. -/
theorem get_snapOf (ws : List Write) (j : Nat) (f : TField) :
    get_as_sequence (snapOf ws j) f = get_as_sequence (wMsg ws j) f false := by
  cases f with
  | msgid_plural =>
    rw [get_false_msgid_plural]
    rfl
  | msgstr =>
    rw [get_false_msgstr]
    rfl
  | msgctxt_previous =>
    rw [get_false_msgctxt_previous]
    show (if (wMsg ws j).fuzzy then (wMsg ws j).msgctxt_previous else none).toList = _
    cases hf : (wMsg ws j).fuzzy <;> rfl
  | msgid_previous =>
    rw [get_false_msgid_previous]
    show (if (wMsg ws j).fuzzy then (wMsg ws j).msgid_previous else none).toList = _
    cases hf : (wMsg ws j).fuzzy <;> rfl
  | msgid_plural_previous =>
    rw [get_false_msgid_plural_previous]
    show (if (wMsg ws j).fuzzy then (wMsg ws j).msgid_plural_previous
      else none).toList = _
    cases hf : (wMsg ws j).fuzzy <;> rfl
  | manual_comment =>
    rw [get_false_manual_comment]
    rfl

theorem snapFromSeqs_entry (ws : List Write) (k : Nat) (A : Msg) (m j : Nat)
    (hA1 : A.msgctxt = (wMsg ws 0).msgctxt) (hA2 : A.msgid = (wMsg ws 0).msgid)
    (hj : (modWrites ws k).getD m 0 = j) (hgm : goodMsg (wMsg ws j)) :
    applyFlags (snapFromSeqs A (seqsW ws k) m) (tupOf ws j) = snapOf ws j := by
  have hseq : ∀ f, seqsW ws k f m = get_as_sequence (wMsg ws j) f false := by
    intro f
    rw [seqsW, hj]
  simp only [applyFlags, snapFromSeqs, snapOf, tupOf, Msg.mk.injEq, and_true, true_and]
  refine ⟨hA1, hA2, ?_, ?_, ?_, ?_, ?_, ?_⟩
  · rw [hseq, get_false_msgid_plural, head?_toList]
  · rw [hseq, get_false_msgstr]
  · rw [hseq, get_false_msgctxt_previous]
    cases (wMsg ws j).fuzzy <;> simp [head?_toList]
  · rw [hseq, get_false_msgid_previous]
    cases (wMsg ws j).fuzzy <;> simp [head?_toList]
  · rw [hseq, get_false_msgid_plural_previous]
    cases (wMsg ws j).fuzzy <;> simp [head?_toList]
  · rw [hseq, get_false_manual_comment]
    cases hmc : (wMsg ws j).manual_comment with
    | nil => rfl
    | cons c r =>
      rw [if_neg (by simp)]
      show splitOnChar '\n' (joinWithNL (c :: r)) = c :: r
      rw [splitOnChar_joinWithNL (by simp) ?_]
      intro x hx
      have := hgm.1 x (by rw [hmc]; exact hx)
      exact this

theorem hnd_false_parts {p m : Msg} (h : has_nonid_diff p m = false) :
    m.msgid_plural = p.msgid_plural ∧ m.msgstr = p.msgstr ∧
    m.manual_comment = p.manual_comment ∧
    (m.fuzzy = true → m.msgctxt_previous = p.msgctxt_previous ∧
      m.msgid_previous = p.msgid_previous ∧
      m.msgid_plural_previous = p.msgid_plural_previous) ∧
    (m.fuzzy = false → p.msgctxt_previous = none ∧ p.msgid_previous = none ∧
      p.msgid_plural_previous = none) := by
  rw [has_nonid_diff, nonid_fields_tracked] at h
  simp only [List.any_cons, List.any_nil, Bool.or_false, Bool.or_eq_false_iff,
    decide_eq_false_iff_not, not_not] at h
  obtain ⟨h1, h2, h3, h4, h5, h6⟩ := h
  cases hf : m.fuzzy with
  | true =>
    simp [Msg.fget, TField.isPrevious, hf] at h1 h2 h3 h4 h5 h6
    exact ⟨h1, h2, h6, fun _ => ⟨h3, h4, h5⟩, fun hc => by simp at hc⟩
  | false =>
    simp [Msg.fget, TField.isPrevious, hf] at h1 h2 h3 h4 h5 h6
    exact ⟨h1, h2, h6, fun hc => by simp at hc,
      fun _ => ⟨h3.symm, h4.symm, h5.symm⟩⟩

theorem snapOf_stable (ws : List Write) (j : Nat)
    (hnd : hasNDs ws (j + 1) = false) (hg1 : goodMsg (wMsg ws j))
    (hg2 : goodMsg (wMsg ws (j + 1))) :
    applyFlags (snapOf ws j) (tupOf ws (j + 1)) = snapOf ws (j + 1) := by
  rw [hasNDs] at hnd
  obtain ⟨h1, h2, h3, h4, h5⟩ := hnd_false_parts hnd
  simp only [applyFlags, snapOf, tupOf, Msg.mk.injEq, and_true, true_and]
  refine ⟨h1.symm, h2.symm, ?_, ?_, ?_, h3.symm⟩
  · cases hf2 : (wMsg ws (j + 1)).fuzzy with
    | false =>
      simp only [Bool.false_eq_true, if_false]
      cases hf1 : (wMsg ws j).fuzzy with
      | false => simp
      | true =>
        simp only [if_true]
        exact (h5 hf2).1
    | true =>
      simp only [if_true]
      cases hf1 : (wMsg ws j).fuzzy with
      | true =>
        simp only [if_true]
        exact ((h4 hf2).1).symm
      | false =>
        simp only [Bool.false_eq_true, if_false]
        rw [(h4 hf2).1, (hg1.2 hf1).1]
  · cases hf2 : (wMsg ws (j + 1)).fuzzy with
    | false =>
      simp only [Bool.false_eq_true, if_false]
      cases hf1 : (wMsg ws j).fuzzy with
      | false => simp
      | true =>
        simp only [if_true]
        exact (h5 hf2).2.1
    | true =>
      simp only [if_true]
      cases hf1 : (wMsg ws j).fuzzy with
      | true =>
        simp only [if_true]
        exact ((h4 hf2).2.1).symm
      | false =>
        simp only [Bool.false_eq_true, if_false]
        rw [(h4 hf2).2.1, (hg1.2 hf1).2.1]
  · cases hf2 : (wMsg ws (j + 1)).fuzzy with
    | false =>
      simp only [Bool.false_eq_true, if_false]
      cases hf1 : (wMsg ws j).fuzzy with
      | false => simp
      | true =>
        simp only [if_true]
        exact (h5 hf2).2.2
    | true =>
      simp only [if_true]
      cases hf1 : (wMsg ws j).fuzzy with
      | true =>
        simp only [if_true]
        exact ((h4 hf2).2.2).symm
      | false =>
        simp only [Bool.false_eq_true, if_false]
        rw [(h4 hf2).2.2, (hg1.2 hf1).2.2]

theorem fget_congr_of_parts {p q : Msg}
    (h1 : p.msgid_plural = q.msgid_plural) (h2 : p.msgstr = q.msgstr)
    (h3 : p.msgctxt_previous = q.msgctxt_previous)
    (h4 : p.msgid_previous = q.msgid_previous)
    (h5 : p.msgid_plural_previous = q.msgid_plural_previous)
    (h6 : p.manual_comment = q.manual_comment) :
    ∀ f ∈ nonid_fields_tracked, p.fget f = q.fget f := by
  intro f hf
  cases f <;> simp [Msg.fget, h1, h2, h3, h4, h5, h6]

theorem hnd_congr {p q m : Msg} (h : ∀ f ∈ nonid_fields_tracked, p.fget f = q.fget f) :
    has_nonid_diff p m = has_nonid_diff q m := by
  rw [has_nonid_diff, has_nonid_diff, nonid_fields_tracked]
  simp only [List.any_cons, List.any_nil]
  rw [h .msgid_plural (by rw [nonid_fields_tracked]; simp),
      h .msgstr (by rw [nonid_fields_tracked]; simp),
      h .msgctxt_previous (by rw [nonid_fields_tracked]; simp),
      h .msgid_previous (by rw [nonid_fields_tracked]; simp),
      h .msgid_plural_previous (by rw [nonid_fields_tracked]; simp),
      h .manual_comment (by rw [nonid_fields_tracked]; simp)]

/-- Snapshots expose the same tracked raw fields as the live message,
up to the previous-identity fields which are `none` on both sides when
the live message is not fuzzy. -/
theorem snapOf_fget (ws : List Write) (j : Nat) (hg : goodMsg (wMsg ws j)) :
    ∀ f ∈ nonid_fields_tracked, (snapOf ws j).fget f = (wMsg ws j).fget f := by
  apply fget_congr_of_parts <;> try rfl
  · show (if (wMsg ws j).fuzzy then (wMsg ws j).msgctxt_previous else none) = _
    cases hf : (wMsg ws j).fuzzy with
    | true => rw [if_pos rfl]
    | false =>
      rw [if_neg (by simp), (hg.2 hf).1]
  · show (if (wMsg ws j).fuzzy then (wMsg ws j).msgid_previous else none) = _
    cases hf : (wMsg ws j).fuzzy with
    | true => rw [if_pos rfl]
    | false =>
      rw [if_neg (by simp), (hg.2 hf).2.1]
  · show (if (wMsg ws j).fuzzy then (wMsg ws j).msgid_plural_previous else none) = _
    cases hf : (wMsg ws j).fuzzy with
    | true => rw [if_pos rfl]
    | false =>
      rw [if_neg (by simp), (hg.2 hf).2.2]

theorem state_congr {p q : Msg} (h1 : p.msgstr = q.msgstr) (h2 : p.fuzzy = q.fuzzy)
    (h3 : p.obsolete = q.obsolete) : p.state = q.state := by
  simp [Msg.state, Msg.translated, h1, h2, h3]

theorem isEmpty_append (a b : Str) : (a ++ b).isEmpty = (a.isEmpty && b.isEmpty) := by
  cases a with
  | nil => cases b <;> rfl
  | cons x r => rfl

theorem wsepOf_isEmpty (dig : Bool) (sl : Nat) (ob fz : Bool) :
    (wsepOf dig sl ob fz).isEmpty = (!dig && !ob && !fz) := by
  cases dig <;> cases ob <;> cases fz <;>
    simp [wsepOf, isEmpty_append, isEmpty_natRepr]

theorem getLast?_range_map {α : Type} (f : Nat → α) (k : Nat) :
    ((List.range (k + 1)).map f).getLast? = some (f k) := by
  rw [List.range_succ, List.map_append]
  simp

theorem wSlen_zero_hasNDs {ws : List Write} {j : Nat} (h : wSlen ws j = 0) :
    hasNDs ws j = false := by
  by_contra hc
  rw [Bool.not_eq_false] at hc
  rw [wSlen, if_pos hc] at h
  have := (needed_separator_length_spec (wMsg ws j)).2.1
  omega

theorem modWrites_prefix {ws : List Write} {j k : Nat} (h : j ≤ k) :
    ∃ t, modWrites ws k = modWrites ws j ++ t := by
  induction k with
  | zero =>
    exact ⟨[], by rw [show j = 0 from by omega]; rfl⟩
  | succ k' ih =>
    by_cases hj : j = k' + 1
    · exact ⟨[], by rw [hj]; simp⟩
    · obtain ⟨t, ht⟩ := ih (by omega)
      exact ⟨t ++ (if wSlen ws k' ≠ 0 then [k'] else []),
        by rw [modWrites_succ, ht, List.append_assoc]⟩

theorem modWrites_getD_at {ws : List Write} {k j : Nat} (hjk : j < k)
    (hs : wSlen ws j ≠ 0) :
    (modWrites ws k).getD (modWrites ws j).length 0 = j := by
  obtain ⟨t, ht⟩ := modWrites_prefix (show j + 1 ≤ k from hjk)
  have hlen : (modWrites ws (j + 1)).length = (modWrites ws j).length + 1 := by
    rw [modWrites_succ_mod hs]
    simp
  rw [ht, List.getD_eq_getElem?_getD, List.getElem?_append_left (by omega),
      ← List.getD_eq_getElem?_getD, modWrites_getD_last hs]

theorem getD_range_map {α : Type} (g : Nat → α) {k i : Nat} (d : α) (h : i < k) :
    ((List.range k).map g).getD i d = g i := by
  rw [List.getD_eq_getElem?_getD, List.getElem?_map, List.getElem?_range h]
  rfl

/-- The decoder's entry loop output over a reference record translates,
entry by entry, to the expected per-write history entries. -/
theorem expEntries_ascOf (ws : List Write) (k : Nat) (A : Msg)
    (hA1 : A.msgctxt = (wMsg ws 0).msgctxt) (hA2 : A.msgid = (wMsg ws 0).msgid)
    (hg : ∀ j, j < k → goodMsg (wMsg ws j)) :
    ∀ n j (prev : Msg), n = k - j → j ≤ k →
      (wSlen ws j = 0 → 0 < j ∧ prev = snapOf ws (j - 1)) →
      expEntries A (seqsW ws k) ((List.range' j (k - j)).map (tupOf ws))
        (modWrites ws j).length prev =
        (List.range' j (k - j)).map (ascOf ws) := by
  intro n
  induction n with
  | zero =>
    intro j prev hn hj _
    rw [show k - j = 0 from by omega]
    rfl
  | succ n' ih =>
    intro j prev hn hj hprev
    have hjk : j < k := by omega
    rw [show k - j = n' + 1 from by omega]
    rw [show List.range' j (n' + 1) = j :: List.range' (j + 1) n' from rfl,
        List.map_cons, List.map_cons]
    simp only [expEntries]
    by_cases hts : wSlen ws j = 0
    · rw [if_neg (show ¬ ((tupOf ws j).slen ≠ 0) from by
        show ¬ (wSlen ws j ≠ 0); omega)]
      obtain ⟨hj0, hpv⟩ := hprev hts
      obtain ⟨j', rfl⟩ : ∃ j', j = j' + 1 := ⟨j - 1, by omega⟩
      have hpm : applyFlags prev (tupOf ws (j' + 1)) = snapOf ws (j' + 1) := by
        rw [hpv, show j' + 1 - 1 = j' from by omega]
        exact snapOf_stable ws j' (wSlen_zero_hasNDs hts)
          (hg j' (by omega)) (hg (j' + 1) (by omega))
      rw [hpm]
      have hmw : (modWrites ws (j' + 1 + 1)).length = (modWrites ws (j' + 1)).length := by
        rw [modWrites_succ_zero hts]
      have hrec := ih (j' + 1 + 1) (snapOf ws (j' + 1)) (by omega) (by omega)
        (fun _ => ⟨by omega, by rw [show j' + 1 + 1 - 1 = j' + 1 from by omega]⟩)
      rw [show n' = k - (j' + 1 + 1) from by omega, ← hmw]
      rw [hrec]
      have he : (⟨snapOf ws (j' + 1), some (tupOf ws (j' + 1)).user,
          (tupOf ws (j' + 1)).type, (tupOf ws (j' + 1)).tag,
          some (tupOf ws (j' + 1)).date, 0, (tupOf ws (j' + 1)).fuzz,
          (tupOf ws (j' + 1)).obs, 0⟩ : Asc) = ascOf ws (j' + 1) := by
        rw [ascOf, tupOf]
        rw [show wSlen ws (j' + 1) = 0 from hts]
      rw [he]
    · rw [if_pos (show (tupOf ws j).slen ≠ 0 from hts)]
      have hpm : applyFlags (snapFromSeqs A (seqsW ws k) (modWrites ws j).length)
          (tupOf ws j) = snapOf ws j :=
        snapFromSeqs_entry ws k A (modWrites ws j).length j hA1 hA2
          (modWrites_getD_at hjk hts) (hg j hjk)
      rw [hpm]
      have hmw : (modWrites ws (j + 1)).length = (modWrites ws j).length + 1 := by
        rw [modWrites_succ_mod hts]
        simp
      have hrec := ih (j + 1) (snapOf ws j) (by omega) (by omega)
        (fun _ => ⟨by omega, by rw [show j + 1 - 1 = j from by omega]⟩)
      rw [show n' = k - (j + 1) from by omega, ← hmw]
      rw [hrec]
      have he : (⟨snapOf ws j, some (tupOf ws j).user, (tupOf ws j).type,
          (tupOf ws j).tag, some (tupOf ws j).date, (tupOf ws j).slen,
          (tupOf ws j).fuzz, (tupOf ws j).obs, 0⟩ : Asc) = ascOf ws j := by
        rw [ascOf, tupOf]
      rw [he]

/-- The record-shape invariant maintained across writer appends: the
comment lines are the rendered ascription lines, every tracked field is
the rendered token-blob sequence of a well-formed token table whose
entries decode to the live values of the separator-carrying writes. -/
def RecInv (ws : List Write) (k : Nat) (A : Msg)
    (C : TField → Nat) (toks2 : TField → Nat → List Tok) : Prop :=
  A.msgctxt = (wMsg ws 0).msgctxt ∧ A.msgid = (wMsg ws 0).msgid ∧
  A.auto_comment = (List.range k).map (lineOf ws) ∧
  (∀ f, get_as_sequence A f =
    (List.range (C f)).map (fun i => renderBlob (toks2 f i))) ∧
  (∀ f, f ≠ TField.msgstr → C f ≤ 1) ∧
  (∀ f i, TokListWF (toks2 f i)) ∧
  (∀ f i, C f ≤ i → toks2 f i = []) ∧
  (∀ f i, i < C f → (toks2 f i).map Tok.slen = (modWrites ws k).map (wSlen ws)) ∧
  (∀ f m, m < (modWrites ws k).length → ∀ i, i < C f →
    (decodedVals (toks2 f i))[m]? = some ((seqsW ws k f m)[i]?)) ∧
  (∀ f m, m < (modWrites ws k).length → (seqsW ws k f m).length ≤ C f)

theorem modSlens_tupsOf (ws : List Write) (k : Nat) :
    modSlens ((List.range k).map (tupOf ws)) = (modWrites ws k).map (wSlen ws) := by
  rw [modSlens, List.filter_map, List.map_map]
  rfl

/-- Decoding a record that satisfies the invariant yields exactly the
expected per-write entries, newest first. -/
theorem collect_w (config : Config) (ws : List Write) (k : Nat) (A : Msg)
    (C : TField → Nat) (toks2 : TField → Nat → List Tok)
    (hinv : RecInv ws k A C toks2) (hk : k ≤ ws.length)
    (hgw : ∀ w ∈ ws, goodWrite config w)
    (hmod0 : (ws.getD 0 default).rev = false)
    (hdates : ∀ j, j + 1 < ws.length →
      (ws.getD j default).date ≤ (ws.getD (j + 1) default).date) :
    asc_collect_history_single config A =
      .ok (((List.range k).map (ascOf ws)).reverse) := by
  obtain ⟨hA1, hA2, hAc, hshape, hC1, hwf, hbey, htl, hdec, hlen⟩ := hinv
  have hparse : asc_parse_ascriptions config A =
      .ok ((List.range k).map (tupOf ws)) := by
    rw [asc_parse_ascriptions, hAc, List.range_eq_range']
    have h := asc_parse_go_lines config ws k hgw hk hmod0 k 0 (by omega) (by omega)
    rw [show k - 0 = k from rfl] at h
    exact h
  have hms : modSlens ((List.range k).map (tupOf ws)) =
      (modWrites ws k).map (wSlen ws) := modSlens_tupsOf ws k
  have hexp : expEntries A (seqsW ws k) ((List.range k).map (tupOf ws)) 0 {} =
      (List.range k).map (ascOf ws) := by
    rw [List.range_eq_range']
    have h := expEntries_ascOf ws k A hA1 hA2
      (fun j hj => (hgw _ (getD_mem default (by omega))).2.2.2.2.2)
      k 0 {} (by omega) (by omega)
      (fun h0 => absurd h0 (wSlen_zero_ne ws))
    rw [show (modWrites ws 0).length = 0 from rfl] at h
    rw [show k - 0 = k from rfl] at h
    exact h
  have hres := collect_single_ref config A ((List.range k).map (tupOf ws)) C toks2
    (seqsW ws k) hparse hshape hwf hbey
    (fun f m hm i hi => hdec f m
      (by rw [hms] at hm; simpa using hm) i hi)
    (fun f m hm => hlen f m (by rw [hms] at hm; simpa using hm))
    (fun f i hi => by rw [htl f i hi, hms])
    (by
      intro i hi
      rw [hexp] at hi
      simp only [List.length_map, List.length_range] at hi
      rw [hexp, getD_range_map _ default (by omega),
          getD_range_map _ default (by omega)]
      show (some (ws.getD i default).date).getD 0 ≤
        (some (ws.getD (i + 1) default).date).getD 0
      simp only [Option.getD_some]
      exact hdates i (by omega))
  rw [hres, hexp]

/-- The pure body of `ascribe_msg_any` once the history collection has
succeeded, as a function of the oldest-first history. -/
def ascribeBody (amsg msg : Msg) (atype : Str) (atags : List Str) (user : Str)
    (dt : Nat) (rhistory : List Asc) : Msg :=
  let hasdiff_state :=
    match rhistory.getLast? with
    | some a => decide (a.msg.state ≠ msg.state)
    | none => true
  let hasdiff_nonid :=
    match rhistory.getLast? with
    | some a => has_nonid_diff a.msg msg
    | none => true
  let hasdiff := hasdiff_nonid || hasdiff_state
  let seplen := needed_separator_length msg
  let modstr := user ++ " | ".toList ++ format_datetime dt
  let wsep : Str :=
    (if hasdiff_nonid then natRepr seplen else []) ++
    (if msg.obsolete then [_mark_obs] else []) ++
    (if msg.fuzzy then [_mark_fuzz] else [])
  let modstr_wsep :=
    if hasdiff ∧ ¬ wsep.isEmpty then modstr ++ " | ".toList ++ wsep else modstr
  let tagsList := if atags.isEmpty then [([] : Str)] else atags
  let amsg1 := (tagsList.zip (List.range tagsList.length)).foldl
    (fun am p =>
      let field := if p.1.isEmpty then atype else atype ++ _atag_sep :: p.1
      asc_append_field am field (if p.2 = 0 then modstr_wsep else modstr))
    amsg
  let amsg2 := if hasdiff_nonid then add_nonid amsg1 msg seplen rhistory else amsg1
  { amsg2 with fuzzy := msg.fuzzy, obsolete := msg.obsolete }

theorem ascribe_msg_any_ok (config : Config) (amsg0 : Option Msg) (msg : Msg)
    (atype : Str) (atags : List Str) (user : Str) (dt : Nat) (rh : List Asc)
    (hc : asc_collect_history_single config (amsg0.getD (idFieldsCopy msg)) =
      .ok rh) :
    ascribe_msg_any config amsg0 msg atype atags user dt =
      .ok (ascribeBody (amsg0.getD (idFieldsCopy msg)) msg atype atags user dt
        rh.reverse) := by
  simp only [ascribe_msg_any]
  rw [hc]
  rfl

/-- The type-and-tag prefix of the j-th rendered line. -/
def afOf (ws : List Write) (j : Nat) : Str :=
  if (ws.getD j default).rev then
    (if (ws.getD j default).tag.isEmpty then ATYPE_REV
     else ATYPE_REV ++ _atag_sep :: (ws.getD j default).tag)
  else ATYPE_MOD

/-- The value part of the j-th rendered line. -/
def valueOf (ws : List Write) (j : Nat) : Str :=
  if threeOf ws j then
    (ws.getD j default).user ++ " | ".toList ++ natRepr (ws.getD j default).date ++
      " | ".toList ++ wsepOf (hasNDs ws j)
        (needed_separator_length (ws.getD j default).msg)
        (ws.getD j default).msg.obsolete (ws.getD j default).msg.fuzzy
  else (ws.getD j default).user ++ " | ".toList ++ natRepr (ws.getD j default).date

theorem lineOf_eq (ws : List Write) (j : Nat) :
    lineOf ws j = afOf ws j ++ fld_sep :: ' ' :: valueOf ws j := by
  rfl

theorem get_asc_append (am : Msg) (fl v : Str) (f : TField) :
    get_as_sequence (asc_append_field am fl v) f = get_as_sequence am f := by
  cases f <;> rfl

theorem get_set_flags (am : Msg) (b c : Bool) (f : TField) :
    get_as_sequence { am with fuzzy := b, obsolete := c } f =
      get_as_sequence am f := by
  cases f <;> rfl

theorem add_nonid_id_fields (am msg : Msg) (slen : Nat) (rh : List Asc) :
    (add_nonid am msg slen rh).msgctxt = am.msgctxt ∧
    (add_nonid am msg slen rh).msgid = am.msgid ∧
    (add_nonid am msg slen rh).auto_comment = am.auto_comment := by
  rw [add_nonid_eq]
  exact ⟨rfl, rfl, rfl⟩

/-- The state-difference flag of the j-th line against the previous
decoded snapshot. -/
def stOf (ws : List Write) : Nat → Bool
  | 0 => true
  | j + 1 => decide (Msg.state
      { msgstr := (wMsg ws j).msgstr, fuzzy := (wFlags ws j).1,
        obsolete := (wFlags ws j).2 } ≠ (wMsg ws (j + 1)).state)

theorem threeOf_eq (ws : List Write) (k : Nat) :
    threeOf ws k = ((hasNDs ws k || stOf ws k) &&
      !(!hasNDs ws k && !(wMsg ws k).obsolete && !(wMsg ws k).fuzzy)) := by
  cases k <;> rfl

theorem modstr_wsep_cond (b s ob fz : Bool) (sl : Nat) :
    ((b || s) = true ∧ ¬ (wsepOf b sl ob fz).isEmpty = true) ↔
      ((b || s) && !(!b && !ob && !fz)) = true := by
  rw [wsepOf_isEmpty]
  cases b <;> cases s <;> cases ob <;> cases fz <;> simp

theorem modstrWsep_valueOf (ws : List Write) (k : Nat) :
    (if ((hasNDs ws k || stOf ws k) = true ∧
        ¬ (wsepOf (hasNDs ws k) (needed_separator_length (wMsg ws k))
          (wMsg ws k).obsolete (wMsg ws k).fuzzy).isEmpty = true) then
      (ws.getD k default).user ++ " | ".toList ++
        format_datetime (ws.getD k default).date ++ " | ".toList ++
        wsepOf (hasNDs ws k) (needed_separator_length (wMsg ws k))
          (wMsg ws k).obsolete (wMsg ws k).fuzzy
     else (ws.getD k default).user ++ " | ".toList ++
       format_datetime (ws.getD k default).date) = valueOf ws k := by
  rw [if_congr (modstr_wsep_cond (hasNDs ws k) (stOf ws k)
    (wMsg ws k).obsolete (wMsg ws k).fuzzy (needed_separator_length (wMsg ws k)))
    rfl rfl]
  rw [← threeOf_eq, valueOf]
  rfl

theorem ascribeBody_eq (ws : List Write) (k : Nat) (A : Msg)
    (hg : ∀ j, j < k → goodMsg (wMsg ws j)) :
    ascribeBody A (wMsg ws k)
      (if (ws.getD k default).rev then ATYPE_REV else ATYPE_MOD)
      (if (ws.getD k default).rev then [(ws.getD k default).tag] else [])
      (ws.getD k default).user (ws.getD k default).date
      ((List.range k).map (ascOf ws)) =
    { (if hasNDs ws k then
        add_nonid (asc_append_field A (afOf ws k) (valueOf ws k)) (wMsg ws k)
          (needed_separator_length (wMsg ws k)) ((List.range k).map (ascOf ws))
       else asc_append_field A (afOf ws k) (valueOf ws k)) with
      fuzzy := (wMsg ws k).fuzzy, obsolete := (wMsg ws k).obsolete } := by
  cases k with
  | zero =>
    simp only [ascribeBody, List.range_zero, List.map_nil, List.getLast?_nil,
      if_true]
    rw [show (natRepr (needed_separator_length (wMsg ws 0)) ++
        (if (wMsg ws 0).obsolete = true then [_mark_obs] else []) ++
        (if (wMsg ws 0).fuzzy = true then [_mark_fuzz] else [])) =
      wsepOf (hasNDs ws 0) (needed_separator_length (wMsg ws 0))
        (wMsg ws 0).obsolete (wMsg ws 0).fuzzy from rfl]
    rw [if_pos (show (true || true : Bool) = true ∧
      ¬ (wsepOf (hasNDs ws 0) (needed_separator_length (wMsg ws 0))
        (wMsg ws 0).obsolete (wMsg ws 0).fuzzy).isEmpty = true from
      ⟨rfl, by
        rw [wsepOf_isEmpty, show hasNDs ws 0 = true from rfl]
        simp⟩)]
    rw [if_pos (show hasNDs ws 0 = true from rfl)]
    cases hrev : (ws.getD 0 default).rev with
    | false =>
      rw [show afOf ws 0 = ATYPE_MOD from by rw [afOf, hrev]; rfl]
      rfl
    | true =>
      rw [show afOf ws 0 = (if (ws.getD 0 default).tag.isEmpty then ATYPE_REV
        else ATYPE_REV ++ _atag_sep :: (ws.getD 0 default).tag) from by
        rw [afOf, hrev]
        rw [if_pos rfl]]
      rfl
  | succ j =>
    simp only [ascribeBody, getLast?_range_map]
    have hnd : has_nonid_diff (ascOf ws j).msg (wMsg ws (j + 1)) =
        hasNDs ws (j + 1) := by
      show has_nonid_diff (snapOf ws j) (wMsg ws (j + 1)) = _
      rw [hasNDs]
      exact hnd_congr (snapOf_fget ws j (hg j (by omega)))
    have hst : decide ((ascOf ws j).msg.state ≠ (wMsg ws (j + 1)).state) =
        stOf ws (j + 1) := by
      rw [stOf]
      have h2 : (ascOf ws j).msg.state = Msg.state
          { msgstr := (wMsg ws j).msgstr, fuzzy := (wFlags ws j).1,
            obsolete := (wFlags ws j).2 } := state_congr rfl rfl rfl
      rw [h2]
    rw [hnd, hst]
    rw [show ((if hasNDs ws (j + 1) = true
        then natRepr (needed_separator_length (wMsg ws (j + 1))) else []) ++
        (if (wMsg ws (j + 1)).obsolete = true then [_mark_obs] else []) ++
        (if (wMsg ws (j + 1)).fuzzy = true then [_mark_fuzz] else [])) =
      wsepOf (hasNDs ws (j + 1)) (needed_separator_length (wMsg ws (j + 1)))
        (wMsg ws (j + 1)).obsolete (wMsg ws (j + 1)).fuzzy from rfl]
    rw [modstrWsep_valueOf ws (j + 1)]
    cases hrev : (ws.getD (j + 1) default).rev with
    | false =>
      rw [show afOf ws (j + 1) = ATYPE_MOD from by rw [afOf, hrev]; rfl]
      rfl
    | true =>
      rw [show afOf ws (j + 1) = (if (ws.getD (j + 1) default).tag.isEmpty
        then ATYPE_REV
        else ATYPE_REV ++ _atag_sep :: (ws.getD (j + 1) default).tag) from by
        rw [afOf, hrev]
        rw [if_pos rfl]]
      rfl

theorem decodedValsGo_absent :
    ∀ (ts : List Tok) (acc : List (Option Str)),
      (∀ t ∈ ts, ∃ s, t = Tok.absent s) →
      decodedValsGo ts acc = acc ++ List.replicate ts.length none := by
  intro ts
  induction ts with
  | nil => intro acc _; simp [decodedValsGo]
  | cons t rest ih =>
    intro acc h
    rw [decodedValsGo_cons]
    obtain ⟨s, hs⟩ := h t (by simp)
    subst hs
    rw [show (match Tok.absent s with
      | Tok.lit v _ => some v
      | Tok.absent _ => none
      | Tok.eqref n _ => acc.getD n none) = (none : Option Str) from rfl]
    rw [ih _ (fun t ht => h t (by simp [ht]))]
    simp [List.replicate_succ]

theorem decodedVals_nonesToks (rh : List Asc) :
    decodedVals (nonesToks rh) = List.replicate (nonesToks rh).length none := by
  have h := decodedValsGo_absent (nonesToks rh) []
    (fun t ht => by
      rw [nonesToks, List.mem_map] at ht
      obtain ⟨x, _, hx⟩ := ht
      exact ⟨x.slen, hx.symm⟩)
  rw [decodedVals, h, List.nil_append]

theorem filter_ascOf (ws : List Write) (k : Nat) :
    ((List.range k).map (ascOf ws)).filter (fun x => x.slen ≠ 0) =
      (modWrites ws k).map (ascOf ws) := by
  rw [List.filter_map, modWrites]
  rfl

theorem nonesToks_ascOf (ws : List Write) (k : Nat) :
    nonesToks ((List.range k).map (ascOf ws)) =
      (modWrites ws k).map (fun j => Tok.absent (wSlen ws j)) := by
  rw [nonesToks, filter_ascOf, List.map_map]
  rfl

theorem nonesToks_length (ws : List Write) (k : Nat) :
    (nonesToks ((List.range k).map (ascOf ws))).length =
      (modWrites ws k).length := by
  rw [nonesToks_ascOf]
  simp

theorem nonesToks_slens (ws : List Write) (k : Nat) :
    (nonesToks ((List.range k).map (ascOf ws))).map Tok.slen =
      (modWrites ws k).map (wSlen ws) := by
  rw [nonesToks_ascOf, List.map_map]
  rfl

theorem wf_nonesToks (rh : List Asc) : TokListWF (nonesToks rh) := by
  intro k t hk
  have ht : ∃ s, t = Tok.absent s := by
    have hmem : t ∈ nonesToks rh := List.getElem?_mem hk
    rw [nonesToks, List.mem_map] at hmem
    obtain ⟨x, _, hx⟩ := hmem
    exact ⟨x.slen, hx.symm⟩
  obtain ⟨s, rfl⟩ := ht
  exact ⟨(fun v s' h => nomatch h), (fun n s' h => nomatch h)⟩

theorem findEq_hyp (ws : List Write) (k : Nat) (f : TField) :
    ∀ jj a, (((List.range k).map (ascOf ws)).filter
        (fun x => x.slen ≠ 0))[jj]? = some a →
      get_as_sequence a.msg f = seqsW ws k f (0 + jj) := by
  intro jj a ha
  rw [filter_ascOf, List.getElem?_map] at ha
  cases hm : (modWrites ws k)[jj]? with
  | none =>
    rw [hm] at ha
    simp at ha
  | some jm =>
    rw [hm] at ha
    simp only [Option.map_some'] at ha
    have hae : a = ascOf ws jm := (Option.some.inj ha).symm
    subst hae
    show get_as_sequence (snapOf ws jm) f = _
    rw [get_snapOf, seqsW, Nat.zero_add,
        show (modWrites ws k).getD jj 0 = jm from by
          rw [List.getD_eq_getElem?_getD, hm]; rfl]

theorem newTok_slen (msg : Msg) (sl : Nat) (rh : List Asc) (f : TField) (i : Nat) :
    (newTok msg sl rh f i).slen = sl := by
  simp only [newTok]
  split
  · cases h : findEqIdx ((get_as_sequence msg f false).getD i []) f i rh 0 <;> rfl
  · rfl

theorem newTok_cases (msg : Msg) (sl : Nat) (rh : List Asc) (f : TField) (i : Nat) :
    (i < (get_as_sequence msg f false).length ∧
      findEqIdx ((get_as_sequence msg f false).getD i []) f i rh 0 = none ∧
      newTok msg sl rh f i = .lit ((get_as_sequence msg f false).getD i []) sl) ∨
    (∃ n, i < (get_as_sequence msg f false).length ∧
      findEqIdx ((get_as_sequence msg f false).getD i []) f i rh 0 = some n ∧
      newTok msg sl rh f i = .eqref n sl) ∨
    ((get_as_sequence msg f false).length ≤ i ∧
      newTok msg sl rh f i = .absent sl) := by
  simp only [newTok]
  by_cases hi : i < (get_as_sequence msg f false).length
  · rw [if_pos hi]
    cases h : findEqIdx ((get_as_sequence msg f false).getD i []) f i rh 0 with
    | none => exact Or.inl ⟨hi, rfl, rfl⟩
    | some n => exact Or.inr (Or.inl ⟨n, hi, rfl, rfl⟩)
  · rw [if_neg hi]
    exact Or.inr (Or.inr ⟨by omega, rfl⟩)

theorem get_flags_append (A : Msg) (fl v : Str) (b c : Bool) (f : TField) :
    get_as_sequence
      { asc_append_field A fl v with fuzzy := b, obsolete := c } f =
    get_as_sequence A f := by
  cases f <;> rfl

theorem get_flags_addnonid (X msg : Msg) (sl : Nat) (rh : List Asc) (b c : Bool)
    (f : TField) :
    get_as_sequence
      { add_nonid X msg sl rh with fuzzy := b, obsolete := c } f =
    get_as_sequence (add_nonid X msg sl rh) f := by
  cases f <;> rfl

theorem RecInv_step_noDiff (ws : List Write) (k : Nat) (A : Msg)
    (C : TField → Nat) (toks2 : TField → Nat → List Tok)
    (hinv : RecInv ws k A C toks2) (hnd : hasNDs ws k = false) :
    RecInv ws (k + 1)
      { asc_append_field A (afOf ws k) (valueOf ws k) with
        fuzzy := (wMsg ws k).fuzzy, obsolete := (wMsg ws k).obsolete }
      C toks2 := by
  obtain ⟨hA1, hA2, hAc, hshape, hC1, hwf, hbey, htl, hdec, hlen⟩ := hinv
  have hsl : wSlen ws k = 0 := by
    rw [wSlen, if_neg (by simp [hnd])]
  have hmw : modWrites ws (k + 1) = modWrites ws k := modWrites_succ_zero hsl
  refine ⟨hA1, hA2, ?_, ?_, hC1, hwf, hbey, ?_, ?_, ?_⟩
  · show A.auto_comment ++ [afOf ws k ++ fld_sep :: ' ' :: valueOf ws k] = _
    rw [hAc, ← lineOf_eq, List.range_succ, List.map_append]
    rfl
  · intro f
    rw [get_flags_append]
    exact hshape f
  · intro f i hi
    rw [htl f i hi, hmw]
  · intro f m hm i hi
    rw [hmw] at hm
    rw [seqsW_stable f hm]
    exact hdec f m hm i hi
  · intro f m hm
    rw [hmw] at hm
    rw [seqsW_stable f hm]
    exact hlen f m hm

theorem RecInv_step_diff (ws : List Write) (k : Nat) (A : Msg)
    (C : TField → Nat) (toks2 : TField → Nat → List Tok)
    (hinv : RecInv ws k A C toks2) (hnd : hasNDs ws k = true) :
    RecInv ws (k + 1)
      { add_nonid (asc_append_field A (afOf ws k) (valueOf ws k)) (wMsg ws k)
          (needed_separator_length (wMsg ws k))
          ((List.range k).map (ascOf ws)) with
        fuzzy := (wMsg ws k).fuzzy, obsolete := (wMsg ws k).obsolete }
      (fun f => max (C f) (get_as_sequence (wMsg ws k) f false).length)
      (fun f i =>
        if i < max (C f) (get_as_sequence (wMsg ws k) f false).length then
          (if i < C f then toks2 f i
           else nonesToks ((List.range k).map (ascOf ws))) ++
            [newTok (wMsg ws k) (needed_separator_length (wMsg ws k))
              ((List.range k).map (ascOf ws)) f i]
        else []) := by
  obtain ⟨hA1, hA2, hAc, hshape, hC1, hwf, hbey, htl, hdec, hlen⟩ := hinv
  have hsl : wSlen ws k = needed_separator_length (wMsg ws k) := by
    rw [wSlen, if_pos hnd]
  have hslne : wSlen ws k ≠ 0 := by
    rw [hsl]
    have := (needed_separator_length_spec (wMsg ws k)).2.1
    omega
  have hmw : modWrites ws (k + 1) = modWrites ws k ++ [k] :=
    modWrites_succ_mod hslne
  have hmwl : (modWrites ws (k + 1)).length = (modWrites ws k).length + 1 := by
    rw [hmw]
    simp
  have hblen : ∀ f i, i < C f →
      (toks2 f i).length = (modWrites ws k).length := by
    intro f i hi
    have h := congrArg List.length (htl f i hi)
    simpa using h
  have hflen : (((List.range k).map (ascOf ws)).filter
      (fun x => x.slen ≠ 0)).length = (modWrites ws k).length := by
    rw [filter_ascOf]
    simp
  have hbaselen : ∀ f i,
      ((if i < C f then toks2 f i
        else nonesToks ((List.range k).map (ascOf ws)))).length =
      (modWrites ws k).length := by
    intro f i
    by_cases hic : i < C f
    · rw [if_pos hic, hblen f i hic]
    · rw [if_neg hic, nonesToks_length]
  have hseqM : ∀ f, seqsW ws (k + 1) f (modWrites ws k).length =
      get_as_sequence (wMsg ws k) f false := by
    intro f
    rw [seqsW, modWrites_getD_last hslne]
  have hids := add_nonid_id_fields (asc_append_field A (afOf ws k) (valueOf ws k))
    (wMsg ws k) (needed_separator_length (wMsg ws k))
    ((List.range k).map (ascOf ws))
  refine ⟨?_, ?_, ?_, ?_, ?_, ?_, ?_, ?_, ?_, ?_⟩
  · exact hids.1.trans hA1
  · exact hids.2.1.trans hA2
  · show (add_nonid (asc_append_field A (afOf ws k) (valueOf ws k)) (wMsg ws k)
      (needed_separator_length (wMsg ws k))
      ((List.range k).map (ascOf ws))).auto_comment = _
    rw [hids.2.2]
    show A.auto_comment ++ [afOf ws k ++ fld_sep :: ' ' :: valueOf ws k] = _
    rw [hAc, ← lineOf_eq, List.range_succ, List.map_append]
    rfl
  · intro f
    dsimp only
    rw [get_flags_addnonid]
    rw [get_add_nonid (asc_append_field A (afOf ws k) (valueOf ws k)) (wMsg ws k)
      (needed_separator_length (wMsg ws k)) ((List.range k).map (ascOf ws))
      C toks2 (fun g => by rw [get_asc_append]; exact hshape g) hC1 f]
    apply List.map_congr_left
    intro i hi
    rw [List.mem_range] at hi
    rw [if_pos hi]
  · intro f hf
    dsimp only
    have h1 := hC1 f hf
    have h2 := seq_len_le_one (wMsg ws k) f false hf
    omega
  · intro f i
    dsimp only
    by_cases hi : i < max (C f) (get_as_sequence (wMsg ws k) f false).length
    · rw [if_pos hi]
      apply wf_snoc
      · by_cases hic : i < C f
        · rw [if_pos hic]
          exact hwf f i
        · rw [if_neg hic]
          exact wf_nonesToks _
      · intro v s hvt
        rcases newTok_cases (wMsg ws k) (needed_separator_length (wMsg ws k))
          ((List.range k).map (ascOf ws)) f i with
          ⟨hlt, hfe, heq⟩ | ⟨n, hlt, hfe, heq⟩ | ⟨hge, heq⟩
        · rw [heq] at hvt
          simp only [Tok.lit.injEq] at hvt
          obtain ⟨hv, hs⟩ := hvt
          rw [← hv, ← hs]
          exact get_as_sequence_marker_free
            ((needed_separator_length_spec (wMsg ws k)).1)
            (getD_mem [] hlt)
        · rw [heq] at hvt
          exact absurd hvt (by simp)
        · rw [heq] at hvt
          exact absurd hvt (by simp)
      · intro n s hvt
        rcases newTok_cases (wMsg ws k) (needed_separator_length (wMsg ws k))
          ((List.range k).map (ascOf ws)) f i with
          ⟨hlt, hfe, heq⟩ | ⟨n', hlt, hfe, heq⟩ | ⟨hge, heq⟩
        · rw [heq] at hvt
          exact absurd hvt (by simp)
        · rw [heq] at hvt
          simp only [Tok.eqref.injEq] at hvt
          obtain ⟨hn, _⟩ := hvt
          obtain ⟨_, hr2, _, _⟩ := findEqIdx_spec _ f i (fun mm => seqsW ws k f mm)
            ((List.range k).map (ascOf ws)) 0 (findEq_hyp ws k f) n' hfe
          rw [hbaselen f i]
          rw [hflen] at hr2
          omega
        · rw [heq] at hvt
          exact absurd hvt (by simp)
    · rw [if_neg hi]
      exact fun k t hk => absurd hk (by simp)
  · intro f i hfi
    dsimp only at hfi ⊢
    rw [if_neg (by omega)]
  · intro f i hi
    dsimp only at hi ⊢
    rw [if_pos hi, List.map_append, hmw, List.map_append]
    congr 1
    · by_cases hic : i < C f
      · rw [if_pos hic]
        exact htl f i hic
      · rw [if_neg hic]
        exact nonesToks_slens ws k
    · rw [List.map_cons, List.map_nil, List.map_cons, List.map_nil,
          newTok_slen, hsl]
  · intro f m hm i hi
    dsimp only at hi ⊢
    rw [hmwl] at hm
    rw [if_pos hi, decodedVals_snoc]
    have hdvlen : (decodedVals (if i < C f then toks2 f i
        else nonesToks ((List.range k).map (ascOf ws)))).length =
        (modWrites ws k).length := by
      rw [decodedVals_length, hbaselen]
    by_cases hmM : m < (modWrites ws k).length
    · rw [List.getElem?_append_left (by omega)]
      rw [show seqsW ws (k + 1) f m = seqsW ws k f m from seqsW_stable f hmM]
      by_cases hic : i < C f
      · rw [if_pos hic]
        exact hdec f m hmM i hic
      · rw [if_neg hic]
        rw [decodedVals_nonesToks, List.getElem?_replicate,
            if_pos (by rw [nonesToks_length]; omega)]
        rw [List.getElem?_eq_none (by
          have := hlen f m hmM
          omega)]
    · have hmeq : m = (modWrites ws k).length := by omega
      subst hmeq
      rw [← hdvlen, List.getElem?_concat_length, hdvlen, hseqM]
      rcases newTok_cases (wMsg ws k) (needed_separator_length (wMsg ws k))
        ((List.range k).map (ascOf ws)) f i with
        ⟨hlt, hfe, heq⟩ | ⟨n, hlt, hfe, heq⟩ | ⟨hge, heq⟩
      · rw [heq]
        rw [List.getElem?_eq_getElem hlt,
            List.getD_eq_getElem _ _ hlt]
      · rw [heq]
        obtain ⟨_, hr2, hr3, hr4⟩ := findEqIdx_spec _ f i (fun mm => seqsW ws k f mm)
          ((List.range k).map (ascOf ws)) 0 (findEq_hyp ws k f) n hfe
        rw [hflen] at hr2
        have hic : i < C f := by
          have := hlen f n (by omega)
          omega
        rw [if_pos hic]
        show some ((decodedVals (toks2 f i)).getD n none) = _
        rw [List.getD_eq_getElem?_getD, hdec f n (by omega) i hic]
        rw [Option.getD_some, hr4]
        rw [List.getElem?_eq_getElem hlt, List.getD_eq_getElem _ _ hlt]
      · rw [heq]
        rw [List.getElem?_eq_none hge]
  · intro f m hm
    dsimp only
    rw [hmwl] at hm
    by_cases hmM : m < (modWrites ws k).length
    · rw [show seqsW ws (k + 1) f m = seqsW ws k f m from seqsW_stable f hmM]
      have := hlen f m hmM
      omega
    · have hmeq : m = (modWrites ws k).length := by omega
      subst hmeq
      rw [hseqM]
      omega

/-- One writer append on an invariant-satisfying record succeeds and
preserves the invariant. -/
theorem applyWrite_step (config : Config) (ws : List Write) (k : Nat)
    (amsg0 : Option Msg) (C : TField → Nat) (toks2 : TField → Nat → List Tok)
    (hk : k < ws.length) (hgw : ∀ w ∈ ws, goodWrite config w)
    (hmod0 : (ws.getD 0 default).rev = false)
    (hdates : ∀ j, j + 1 < ws.length →
      (ws.getD j default).date ≤ (ws.getD (j + 1) default).date)
    (hinv : RecInv ws k (amsg0.getD (idFieldsCopy (wMsg ws k))) C toks2) :
    ∃ A' C' toks2', applyWrite config amsg0 (ws.getD k default) = .ok A' ∧
      RecInv ws (k + 1) A' C' toks2' := by
  have hcol := collect_w config ws k (amsg0.getD (idFieldsCopy (wMsg ws k)))
    C toks2 hinv (by omega) hgw hmod0 hdates
  have hok := ascribe_msg_any_ok config amsg0 (wMsg ws k)
    (if (ws.getD k default).rev then ATYPE_REV else ATYPE_MOD)
    (if (ws.getD k default).rev then [(ws.getD k default).tag] else [])
    (ws.getD k default).user (ws.getD k default).date
    (((List.range k).map (ascOf ws)).reverse) hcol
  rw [List.reverse_reverse] at hok
  rw [ascribeBody_eq ws k (amsg0.getD (idFieldsCopy (wMsg ws k)))
    (fun j hj => (hgw _ (getD_mem default (by omega))).2.2.2.2.2)] at hok
  have happ : applyWrite config amsg0 (ws.getD k default) =
      ascribe_msg_any config amsg0 (wMsg ws k)
        (if (ws.getD k default).rev then ATYPE_REV else ATYPE_MOD)
        (if (ws.getD k default).rev then [(ws.getD k default).tag] else [])
        (ws.getD k default).user (ws.getD k default).date := rfl
  rw [happ, hok]
  cases hnd : hasNDs ws k with
  | true =>
    rw [if_pos rfl]
    exact ⟨_, _, _, rfl,
      RecInv_step_diff ws k (amsg0.getD (idFieldsCopy (wMsg ws k))) C toks2
        hinv hnd⟩
  | false =>
    rw [if_neg (by simp)]
    exact ⟨_, _, _, rfl,
      RecInv_step_noDiff ws k (amsg0.getD (idFieldsCopy (wMsg ws k))) C toks2
        hinv hnd⟩

theorem runWrites_inv (config : Config) (ws : List Write)
    (hgws : goodWrites config ws) :
    ∀ n k (amsg0 : Option Msg) (C : TField → Nat)
      (toks2 : TField → Nat → List Tok),
      n = ws.length - k → k ≤ ws.length →
      RecInv ws k (amsg0.getD (idFieldsCopy (wMsg ws k))) C toks2 →
      (k = ws.length → ∃ A, amsg0 = some A) →
      ∃ A', runWrites config amsg0 (ws.drop k) = .ok (some A') ∧
        ∃ C' toks2', RecInv ws ws.length A' C' toks2' := by
  obtain ⟨hne, hmod0, hgw, hdates⟩ := hgws
  intro n
  induction n with
  | zero =>
    intro k amsg0 C toks2 hn hk hinv hend
    have hkl : k = ws.length := by omega
    obtain ⟨A, hA⟩ := hend hkl
    subst hkl
    rw [List.drop_length]
    refine ⟨A, by rw [hA]; rfl, C, toks2, ?_⟩
    rw [hA] at hinv
    exact hinv
  | succ n' ih =>
    intro k amsg0 C toks2 hn hk hinv hend
    have hkl : k < ws.length := by omega
    obtain ⟨A', C', toks2', happly, hinv'⟩ := applyWrite_step config ws k amsg0
      C toks2 hkl hgw hmod0 hdates hinv
    rw [List.drop_eq_getElem_cons hkl]
    rw [show (ws[k] : Write) = ws.getD k default from
      (List.getD_eq_getElem ws default hkl).symm]
    rw [runWrites, happly]
    exact ih (k + 1) (some A') C' toks2' (by omega) (by omega) hinv'
      (fun _ => ⟨A', rfl⟩)

theorem RecInv_zero (ws : List Write) :
    RecInv ws 0 (idFieldsCopy (wMsg ws 0)) (fun _ => 0) (fun _ _ => []) := by
  refine ⟨rfl, rfl, rfl, ?_, ?_, ?_, ?_, ?_, ?_, ?_⟩
  · intro f
    cases f <;> rfl
  · intro f _
    dsimp only
    omega
  · intro f i
    exact fun k t hk => absurd hk (by simp)
  · intro f i _
    rfl
  · intro f i hi
    dsimp only at hi
    omega
  · intro f m hm
    rw [show (modWrites ws 0).length = 0 from rfl] at hm
    omega
  · intro f m hm
    rw [show (modWrites ws 0).length = 0 from rfl] at hm
    omega

/-- Running a good write sequence from an empty record succeeds and the
final record satisfies the invariant at the full length. -/
theorem runWrites_full (config : Config) (ws : List Write)
    (hgws : goodWrites config ws) :
    ∃ A, runWrites config none ws = .ok (some A) ∧
      ∃ C toks2, RecInv ws ws.length A C toks2 := by
  have h := runWrites_inv config ws hgws ws.length 0 none (fun _ => 0)
    (fun _ _ => []) (by omega) (by omega) (RecInv_zero ws)
    (fun h0 => by
      have := hgws.1
      cases hws : ws with
      | nil => exact absurd hws this
      | cons w rest => rw [hws] at h0; simp at h0)
  rw [List.drop_zero] at h
  exact h

def c1cfg : Config := ⟨[['u']]⟩

def c1m : Msg := { msgid := ['i'], msgstr := [['t']] }

def c1ws : List Write := [{ msg := c1m, user := ['u'], date := 5 }]

def c1wP : Write :=
  { msg := { msgid := ['i'], msgstr := [['t']], msgid_previous := some ['p'] },
    user := ['u'], date := 5 }

/-- C1: encode/decode round-trip over a write sequence. For any good
sequence of writes (known stripped users, a modification first,
nondecreasing timestamps, comment lines newline-free, and
previous-identity fields present only on fuzzy messages), running the
writer from an empty record succeeds, the reconstructor returns one
history entry per write, and the i-th oldest entry's snapshot carries
exactly the live tracked non-identity field values of the i-th write.
The previous-identity restriction is forced: on a non-fuzzy message the
encoder drops the previous fields, so a non-fuzzy write carrying
`msgid_previous` decodes to an absent field (see the counterexample). -/
theorem claim_C1 (config : Config) (ws : List Write)
    (hgws : goodWrites config ws) :
    ∃ A, runWrites config none ws = .ok (some A) ∧
    ∃ hist, asc_collect_history_single config A = .ok hist ∧
      hist.length = ws.length ∧
      ∀ i, i < ws.length → ∀ f, f ∈ nonid_fields_tracked →
        ((hist.reverse.getD i default).msg).fget f =
          ((ws.getD i default).msg).fget f := by
  obtain ⟨A, hrun, C, toks2, hinv⟩ := runWrites_full config ws hgws
  have hcol := collect_w config ws ws.length A C toks2 hinv (Nat.le_refl _)
    hgws.2.2.1 hgws.2.1 hgws.2.2.2
  refine ⟨A, hrun, _, hcol, by simp, ?_⟩
  intro i hi f hf
  rw [List.reverse_reverse, getD_range_map (ascOf ws) default hi]
  exact snapOf_fget ws i
    ((hgws.2.2.1 _ (getD_mem default hi)).2.2.2.2.2) f hf

theorem claim_C1_witness :
    goodWrites c1cfg c1ws ∧
    (∃ A, runWrites c1cfg none c1ws = .ok (some A) ∧
    ∃ hist, asc_collect_history_single c1cfg A = .ok hist ∧
      hist.length = c1ws.length ∧
      ∀ i, i < c1ws.length → ∀ f, f ∈ nonid_fields_tracked →
        ((hist.reverse.getD i default).msg).fget f =
          ((c1ws.getD i default).msg).fget f) :=
  have hg : goodWrites c1cfg c1ws := by
    refine ⟨by simp [c1ws], rfl, ?_, ?_⟩
    · intro w hw
      rw [c1ws, List.mem_singleton] at hw
      subst hw
      refine ⟨by decide, by decide, by decide, by decide, ?_, ?_⟩
      · intro hr
        exact absurd hr (by decide)
      · exact ⟨fun c hc => absurd hc (by simp [c1m]),
          fun _ => ⟨rfl, rfl, rfl⟩⟩
    · intro j hj
      rw [show c1ws.length = 1 from rfl] at hj
      omega
  ⟨hg, claim_C1 c1cfg c1ws hg⟩

/-- The original round-trip wording fails on previous-identity fields:
a single non-fuzzy write carrying `msgid_previous` produces a record
whose reconstructed snapshot has `msgid_previous = none`, while the
live message had `some "p"`. -/
theorem claim_C1_cex :
    (match runWrites c1cfg none [c1wP] with
     | .ok (some A) =>
       match asc_collect_history_single c1cfg A with
       | .ok hist => some (((hist.reverse.getD 0 default).msg).msgid_previous)
       | _ => none
     | _ => none) = some none ∧
    c1wP.msg.msgid_previous = some ['p'] := by
  decide

theorem renderBlob_isEmpty_false {toks : List Tok} (h : toks ≠ []) :
    (renderBlob toks).isEmpty = false := by
  cases toks with
  | nil => exact absurd rfl h
  | cons t0 r =>
    cases hr : r with
    | nil =>
      rw [show renderBlob [t0] = Tok.render t0 from rfl]
      cases hx : Tok.render t0 with
      | nil => exact absurd hx (render_ne_nil t0)
      | cons c cs => rfl
    | cons t1 r2 =>
      rw [show renderBlob (t0 :: t1 :: r2) =
        Tok.render t0 ++ '\n' :: joinWithNL ((t1 :: r2).map Tok.render) from rfl]
      cases hx : Tok.render t0 with
      | nil => rfl
      | cons c cs => rfl

def c8m1 : Msg := { msgid := ['i'], msgstr := [['a']] }

def c8m2 : Msg := { msgid := ['i'], msgstr := [['b']] }

def c8A1 : Msg := add_nonid (idFieldsCopy c8m1) c8m1 1 []

def c8a1 : Asc := { msg := c8m1, slen := 1 }

def c8C : TField → Nat := fun f => if f = .msgstr then 1 else 0

def c8toks2 : TField → Nat → List Tok :=
  fun f i => if f = .msgstr ∧ i = 0 then [Tok.lit ['a'] 1] else []

/-- C8: token storage order. On a record whose tracked-field blobs are
rendered token sequences, `add_nonid` appends this write's token at the
BACK of each existing item blob (after a newline), so the most recent
write's token ends up farthest from the front — the opposite of the
claimed prepend order (see the counterexample). -/
theorem claim_C8 (am msg : Msg) (slen : Nat) (rh : List Asc)
    (C : TField → Nat) (toks2 : TField → Nat → List Tok)
    (hshape : ∀ f, get_as_sequence am f =
      (List.range (C f)).map (fun i => renderBlob (toks2 f i)))
    (hC1 : ∀ f, f ≠ TField.msgstr → C f ≤ 1)
    (f : TField) (i : Nat) (hi : i < C f) (hne : toks2 f i ≠ []) :
    (get_as_sequence (add_nonid am msg slen rh) f).getD i [] =
      (get_as_sequence am f).getD i [] ++
        '\n' :: Tok.render (newTok msg slen rh f i) := by
  rw [get_add_nonid am msg slen rh C toks2 hshape hC1 f]
  rw [getD_range_map _ []
    (Nat.lt_of_lt_of_le hi (Nat.le_max_left _ _))]
  rw [if_pos hi, renderBlob_snoc,
      if_neg (by rw [renderBlob_isEmpty_false hne]; simp)]
  rw [hshape f, getD_range_map _ [] hi]

theorem claim_C8_witness :
    0 < c8C TField.msgstr ∧
    (get_as_sequence (add_nonid c8A1 c8m2 1 [c8a1]) .msgstr).getD 0 [] =
      (get_as_sequence c8A1 .msgstr).getD 0 [] ++
        '\n' :: Tok.render (newTok c8m2 1 [c8a1] .msgstr 0) :=
  ⟨by decide,
   claim_C8 c8A1 c8m2 1 [c8a1] c8C c8toks2
    (fun f => by cases f <;> decide)
    (fun f hf => by
      cases f
      case msgstr => exact absurd rfl hf
      all_goals decide)
    .msgstr 0 (by decide) (by decide)⟩

/-- After two writes the stored `msgstr` blob is `"a|~\nb|~"`: the
newest token `"b|~"` sits at the back and is not a prefix of the blob,
refuting the claimed front-prepend order. -/
theorem claim_C8_cex :
    (add_nonid c8A1 c8m2 1 [c8a1]).msgstr =
      [('a' :: '|' :: '~' :: '\n' :: 'b' :: '|' :: ['~'])] ∧
    ¬ (List.isPrefixOf ('b' :: '|' :: ['~'])
      ((add_nonid c8A1 c8m2 1 [c8a1]).msgstr.getD 0 []) = true) := by
  decide

/-! Append-stability of the write mirror -/

theorem getD_append_lt {α : Type} (l l' : List α) (d : α) {j : Nat}
    (h : j < l.length) : (l ++ l').getD j d = l.getD j d := by
  rw [List.getD_eq_getElem?_getD, List.getElem?_append_left h,
      ← List.getD_eq_getElem?_getD]

theorem wMsg_append (ws : List Write) (w : Write) {j : Nat} (h : j < ws.length) :
    wMsg (ws ++ [w]) j = wMsg ws j := by
  rw [wMsg, wMsg, getD_append_lt _ _ _ h]

theorem hasNDs_append (ws : List Write) (w : Write) {j : Nat} (h : j < ws.length) :
    hasNDs (ws ++ [w]) j = hasNDs ws j := by
  cases j with
  | zero => rfl
  | succ j' =>
    rw [hasNDs, hasNDs, wMsg_append ws w (by omega), wMsg_append ws w h]

theorem wSlen_append (ws : List Write) (w : Write) {j : Nat} (h : j < ws.length) :
    wSlen (ws ++ [w]) j = wSlen ws j := by
  rw [wSlen, wSlen, hasNDs_append ws w h, wMsg_append ws w h]

theorem wFlags_append (ws : List Write) (w : Write) :
    ∀ j, j < ws.length → wFlags (ws ++ [w]) j = wFlags ws j := by
  intro j
  induction j with
  | zero =>
    intro h
    rw [wFlags, wFlags, wMsg_append ws w h]
  | succ j' ih =>
    intro h
    rw [wFlags, wFlags, wMsg_append ws w h, wMsg_append ws w (by omega),
        ih (by omega), getD_append_lt _ _ _ h, hasNDs_append ws w h]

theorem threeOf_append (ws : List Write) (w : Write) {j : Nat}
    (h : j < ws.length) : threeOf (ws ++ [w]) j = threeOf ws j := by
  cases j with
  | zero => rfl
  | succ j' =>
    rw [threeOf, threeOf, wMsg_append ws w h, wMsg_append ws w (by omega),
        wFlags_append ws w j' (by omega), hasNDs_append ws w h]

theorem tupOf_append (ws : List Write) (w : Write) {j : Nat}
    (h : j < ws.length) : tupOf (ws ++ [w]) j = tupOf ws j := by
  rw [tupOf, tupOf, getD_append_lt _ _ _ h, wSlen_append ws w h,
      wFlags_append ws w j h]

theorem snapOf_append (ws : List Write) (w : Write) {j : Nat}
    (h : j < ws.length) : snapOf (ws ++ [w]) j = snapOf ws j := by
  rw [snapOf, snapOf, wMsg_append ws w h, wFlags_append ws w j h,
      wMsg_append ws w (show 0 < ws.length from by omega)]

theorem lineOf_append (ws : List Write) (w : Write) {j : Nat}
    (h : j < ws.length) : lineOf (ws ++ [w]) j = lineOf ws j := by
  rw [lineOf, lineOf, getD_append_lt _ _ _ h, threeOf_append ws w h,
      hasNDs_append ws w h]

theorem ascOf_append (ws : List Write) (w : Write) {j : Nat}
    (h : j < ws.length) : ascOf (ws ++ [w]) j = ascOf ws j := by
  rw [ascOf, ascOf, getD_append_lt _ _ _ h, wSlen_append ws w h,
      wFlags_append ws w j h, snapOf_append ws w h]

theorem state_flags_eq {m1 m2 : Msg} (h : m1.state = m2.state) :
    m1.fuzzy = m2.fuzzy ∧ m1.obsolete = m2.obsolete := by
  cases hf1 : m1.fuzzy <;> cases ho1 : m1.obsolete <;>
    cases hf2 : m2.fuzzy <;> cases ho2 : m2.obsolete <;>
    cases ht1 : m1.translated <;> cases ht2 : m2.translated <;>
    simp [Msg.state, hf1, ho1, hf2, ho2, ht1, ht2] at h ⊢

/-- C6: no-op idempotence, corrected to writes that are neither fuzzy
nor obsolete. When the new write's tracked fields and state equal the
newest decoded snapshot's and the message carries no fuzzy/obsolete
flag, the appended comment line has an empty trailing block (no third
field, separator length 0), and the decoded history is the old history
plus one entry whose snapshot equals the previous newest snapshot. The
non-fuzzy/non-obsolete restriction is forced: a fuzzy no-op write parses
with state marks reset, flipping the new entry's decoded fuzzy flag
(see the counterexample). -/
theorem claim_C6 (config : Config) (ws : List Write) (w : Write)
    (hgws : goodWrites config (ws ++ [w]))
    (hnd : hasNDs (ws ++ [w]) ws.length = false)
    (hst : stOf (ws ++ [w]) ws.length = false)
    (hfz : w.msg.fuzzy = false) (hob : w.msg.obsolete = false) :
    threeOf (ws ++ [w]) ws.length = false ∧
    wSlen (ws ++ [w]) ws.length = 0 ∧
    lineOf (ws ++ [w]) ws.length =
      afOf (ws ++ [w]) ws.length ++ fld_sep :: ' ' ::
        (w.user ++ " | ".toList ++ natRepr w.date) ∧
    ∃ A1 A0,
      runWrites config none (ws ++ [w]) = .ok (some A1) ∧
      runWrites config none ws = .ok (some A0) ∧
      A1.auto_comment = A0.auto_comment ++ [lineOf (ws ++ [w]) ws.length] ∧
      ∃ h1 h0,
        asc_collect_history_single config A1 = .ok h1 ∧
        asc_collect_history_single config A0 = .ok h0 ∧
        h1.reverse = h0.reverse ++ [ascOf (ws ++ [w]) ws.length] ∧
        (ascOf (ws ++ [w]) ws.length).msg =
          (h0.reverse.getD (ws.length - 1) default).msg := by
  have hwne : ws ≠ [] := by
    intro he
    subst he
    simp [hasNDs] at hnd
  have hNpos : 0 < ws.length := List.length_pos.mpr hwne
  obtain ⟨n', hn'⟩ : ∃ n', ws.length = n' + 1 := ⟨ws.length - 1, by omega⟩
  have hwN : wMsg (ws ++ [w]) ws.length = w.msg := by
    rw [wMsg, List.getD_eq_getElem?_getD,
        List.getElem?_append_right (Nat.le_refl _), Nat.sub_self]
    rfl
  have hgetN : (ws ++ [w]).getD ws.length default = w := by
    rw [List.getD_eq_getElem?_getD,
        List.getElem?_append_right (Nat.le_refl _), Nat.sub_self]
    rfl
  have h3 : threeOf (ws ++ [w]) ws.length = false := by
    rw [threeOf_eq, hnd, hst, hwN, hfz, hob]
    rfl
  have hsl0 : wSlen (ws ++ [w]) ws.length = 0 := by
    rw [wSlen, if_neg (by simp [hnd])]
  have hline : lineOf (ws ++ [w]) ws.length =
      afOf (ws ++ [w]) ws.length ++ fld_sep :: ' ' ::
        (w.user ++ " | ".toList ++ natRepr w.date) := by
    rw [lineOf_eq, valueOf, if_neg (by simp [h3]), hgetN]
  have hprevfl : (wFlags (ws ++ [w]) n').1 = false ∧
      (wFlags (ws ++ [w]) n').2 = false := by
    rw [hn', stOf] at hst
    have hsteq := of_decide_eq_false hst
    rw [not_not] at hsteq
    rw [show wMsg (ws ++ [w]) (n' + 1) = w.msg from by rw [← hn']; exact hwN]
      at hsteq
    have hfl := state_flags_eq hsteq
    exact ⟨hfl.1.trans hfz, hfl.2.trans hob⟩
  have hwfN : wFlags (ws ++ [w]) ws.length = (false, false) := by
    rw [hn', wFlags_two (by rw [← hn']; exact h3)]
    cases hr : ((ws ++ [w]).getD (n' + 1) default).rev
    · rw [if_neg (by simp)]
    · rw [if_pos rfl]
      rw [show wFlags (ws ++ [w]) n' =
        ((wFlags (ws ++ [w]) n').1, (wFlags (ws ++ [w]) n').2) from rfl,
        hprevfl.1, hprevfl.2]
  have hgm1 : goodMsg (wMsg (ws ++ [w]) n') :=
    (hgws.2.2.1 _ (getD_mem default
      (by rw [List.length_append]; omega))).2.2.2.2.2
  have hgm2 : goodMsg (wMsg (ws ++ [w]) (n' + 1)) :=
    (hgws.2.2.1 _ (getD_mem default
      (by simp; omega))).2.2.2.2.2
  have hsnap : snapOf (ws ++ [w]) ws.length = snapOf (ws ++ [w]) n' := by
    rw [hn']
    rw [← snapOf_stable (ws ++ [w]) n' (by rw [← hn']; exact hnd) hgm1 hgm2]
    rw [applyFlags]
    rw [show (tupOf (ws ++ [w]) (n' + 1)).fuzz =
        (wFlags (ws ++ [w]) (n' + 1)).1 from rfl,
      show (tupOf (ws ++ [w]) (n' + 1)).obs =
        (wFlags (ws ++ [w]) (n' + 1)).2 from rfl,
      show wFlags (ws ++ [w]) (n' + 1) = (false, false) from by
        rw [← hn']; exact hwfN]
    have h5 : snapOf (ws ++ [w]) n' =
        { snapOf (ws ++ [w]) n' with
          fuzzy := Prod.fst (wFlags (ws ++ [w]) n'),
          obsolete := Prod.snd (wFlags (ws ++ [w]) n') } := rfl
    conv_rhs => rw [h5]
    rw [hprevfl.1, hprevfl.2]
  have hgws0 : goodWrites config ws := by
    refine ⟨hwne, ?_, ?_, ?_⟩
    · have h0 := hgws.2.1
      rw [getD_append_lt _ _ _ hNpos] at h0
      exact h0
    · exact fun x hx => hgws.2.2.1 x (List.mem_append_left _ hx)
    · intro j hj
      have hd := hgws.2.2.2 j (by rw [List.length_append]; omega)
      rw [getD_append_lt _ _ _ (by omega), getD_append_lt _ _ _ (by omega)] at hd
      exact hd
  obtain ⟨A1, hrun1, Cx1, toksx1, hinv1⟩ := runWrites_full config (ws ++ [w]) hgws
  obtain ⟨A0, hrun0, Cx0, toksx0, hinv0⟩ := runWrites_full config ws hgws0
  have hauto1 := hinv1.2.2.1
  have hauto0 := hinv0.2.2.1
  have hcol1 := collect_w config (ws ++ [w]) (ws ++ [w]).length A1 Cx1 toksx1
    hinv1 (Nat.le_refl _) hgws.2.2.1 hgws.2.1 hgws.2.2.2
  have hcol0 := collect_w config ws ws.length A0 Cx0 toksx0
    hinv0 (Nat.le_refl _) hgws0.2.2.1 hgws0.2.1 hgws0.2.2.2
  have hlen1 : (ws ++ [w]).length = ws.length + 1 := by simp
  refine ⟨h3, hsl0, hline, A1, A0, hrun1, hrun0, ?_, _, _, hcol1, hcol0, ?_, ?_⟩
  · rw [hauto1, hauto0, hlen1, List.range_succ, List.map_append]
    congr 1
    apply List.map_congr_left
    intro j hj
    rw [List.mem_range] at hj
    exact lineOf_append ws w hj
  · rw [List.reverse_reverse, List.reverse_reverse, hlen1, List.range_succ,
        List.map_append]
    congr 1
    apply List.map_congr_left
    intro j hj
    rw [List.mem_range] at hj
    exact ascOf_append ws w hj
  · rw [List.reverse_reverse]
    rw [getD_range_map (ascOf ws) default
      (show ws.length - 1 < ws.length from by omega)]
    show snapOf (ws ++ [w]) ws.length = (ascOf ws (ws.length - 1)).msg
    rw [hsnap, show ws.length - 1 = n' from by omega]
    exact snapOf_append ws w (by omega)

def c6w0 : Write := { msg := c1m, user := ['u'], date := 5 }

def c6w1 : Write := { msg := c1m, user := ['u'], date := 6 }

def c6fm : Msg := { msgid := ['i'], msgstr := [['t']], fuzzy := true }

def c6f0 : Write := { msg := c6fm, user := ['u'], date := 5 }

def c6f1 : Write := { msg := c6fm, user := ['u'], date := 6 }

theorem claim_C6_witness :
    threeOf ([c6w0] ++ [c6w1]) 1 = false ∧
    wSlen ([c6w0] ++ [c6w1]) 1 = 0 ∧
    lineOf ([c6w0] ++ [c6w1]) 1 =
      afOf ([c6w0] ++ [c6w1]) 1 ++ fld_sep :: ' ' ::
        (c6w1.user ++ " | ".toList ++ natRepr c6w1.date) ∧
    ∃ A1 A0,
      runWrites c1cfg none ([c6w0] ++ [c6w1]) = .ok (some A1) ∧
      runWrites c1cfg none [c6w0] = .ok (some A0) ∧
      A1.auto_comment = A0.auto_comment ++ [lineOf ([c6w0] ++ [c6w1]) 1] ∧
      ∃ h1 h0,
        asc_collect_history_single c1cfg A1 = .ok h1 ∧
        asc_collect_history_single c1cfg A0 = .ok h0 ∧
        h1.reverse = h0.reverse ++ [ascOf ([c6w0] ++ [c6w1]) 1] ∧
        (ascOf ([c6w0] ++ [c6w1]) 1).msg =
          (h0.reverse.getD 0 default).msg := by
  have hg : goodWrites c1cfg ([c6w0] ++ [c6w1]) := by
    refine ⟨by simp, rfl, ?_, ?_⟩
    · intro x hx
      rcases List.mem_append.mp hx with hx | hx <;>
      · rw [List.mem_singleton] at hx
        subst hx
        refine ⟨by decide, by decide, by decide, by decide, ?_, ?_⟩
        · intro hr
          exact absurd hr (by decide)
        · exact ⟨fun c hc => absurd hc (by simp [c6w0, c6w1, c1m]),
            fun _ => ⟨rfl, rfl, rfl⟩⟩
    · intro j hj
      rw [show ([c6w0] ++ [c6w1]).length = 2 from rfl] at hj
      have hj0 : j = 0 := by omega
      subst hj0
      decide
  exact claim_C6 c1cfg [c6w0] c6w1 hg (by decide) (by decide) rfl rfl

/-- The no-op wording fails for fuzzy messages: two identical fuzzy
writes are a state-and-field no-op (no field diff, no state diff), yet
the second entry's decoded snapshot has `fuzzy = false` while the first
decodes with `fuzzy = true` — the new entry's decoded snapshot differs
from the previous newest snapshot. -/
theorem claim_C6_cex :
    hasNDs [c6f0, c6f1] 1 = false ∧
    stOf [c6f0, c6f1] 1 = false ∧
    (match runWrites c1cfg none [c6f0, c6f1] with
     | .ok (some A) =>
       match asc_collect_history_single c1cfg A with
       | .ok h =>
         some (((h.reverse.getD 1 default).msg).fuzzy,
           ((h.reverse.getD 0 default).msg).fuzzy)
       | _ => none
     | _ => none) = some (false, true) := by
  decide

/-- Parsing a rendered two-field line whose type is not `modified`,
with both state variables unassigned: the tuple append references the
unassigned variables — Python's unhandled `NameError`. -/
theorem asc_parse_one_rev2_ne (config : Config)
    (af sp1 : Str) (sp2 : Option Str) (atype atag user : Str) (dt : Nat)
    (hcolon : fld_sep ∉ af)
    (hsp : splitOnceChar _atag_sep (pyStrip af) = (sp1, sp2))
    (hnone : sp2 = none → pyStrip af = atype ∧ atag = [])
    (hsome : ∀ t, sp2 = some t → pyStrip sp1 = atype ∧ pyStrip t = atag)
    (huser1 : user ∈ config.users) (huser2 : user ≠ []) (huser3 : '|' ∉ user)
    (huser4 : pyStrip user = user)
    (hmod : ¬ atype = ATYPE_MOD) :
    asc_parse_one config (none, none)
      (af ++ fld_sep :: ' ' :: (user ++ " | ".toList ++ natRepr dt)) =
    .error "NameError".toList := by
  rw [show (" | ".toList : Str) = [' ', '|', ' '] from rfl]
  have hue : user.isEmpty = false := by
    cases user with
    | nil => exact absurd rfl huser2
    | cons a l => rfl
  have hbar1 : '|' ∉ ' ' :: (user ++ [' ']) := by
    intro h
    rcases List.mem_cons.mp h with h | h
    · exact absurd h (by decide)
    · rcases List.mem_append.mp h with h | h
      · exact huser3 h
      · simp only [List.mem_cons, List.not_mem_nil, or_false] at h
        exact absurd h (by decide)
  have hbar2 : '|' ∉ ' ' :: natRepr dt := by
    intro h
    rcases List.mem_cons.mp h with h | h
    · exact absurd h (by decide)
    · exact bar_not_mem_natRepr dt h
  have e1 : ' ' :: (user ++ [' ', '|', ' '] ++ natRepr dt) =
      (' ' :: (user ++ [' '])) ++ '|' :: (' ' :: natRepr dt) := by
    simp
  have hsplit2 : splitOnChar '|' (' ' :: (user ++ [' ', '|', ' '] ++ natRepr dt)) =
      [' ' :: (user ++ [' ']), ' ' :: natRepr dt] := by
    rw [e1, splitOnChar_append hbar1, splitOnChar_no_sep hbar2]
  simp only [asc_parse_one]
  rw [findSub_char hcolon]
  dsimp only
  rw [List.take_left, List.drop_append 1, List.drop_one, List.tail_cons]
  rw [hsp]
  dsimp only
  cases sp2 with
  | none =>
    obtain ⟨ha1, ha2⟩ := hnone rfl
    subst ha1
    subst ha2
    dsimp only
    rw [hsplit2]
    dsimp only
    rw [if_neg (by simp)]
    rw [pyStrip_spaced, huser4, hue]
    simp only [Bool.false_eq_true, if_false]
    rw [if_neg (not_not_intro huser1)]
    rw [pyStrip_cons_space, pyStrip_of_no_ws (natRepr_no_ws dt)]
    simp only [parse_datetime]
    rw [pyStrip_of_no_ws (natRepr_no_ws dt), strToNatQ_natRepr]
    dsimp only
    rw [if_neg hmod]
  | some t =>
    obtain ⟨ha1, ha2⟩ := hsome t rfl
    subst ha1
    subst ha2
    dsimp only
    rw [hsplit2]
    dsimp only
    rw [if_neg (by simp)]
    rw [pyStrip_spaced, huser4, hue]
    simp only [Bool.false_eq_true, if_false]
    rw [if_neg (not_not_intro huser1)]
    rw [pyStrip_cons_space, pyStrip_of_no_ws (natRepr_no_ws dt)]
    simp only [parse_datetime]
    rw [pyStrip_of_no_ws (natRepr_no_ws dt), strToNatQ_natRepr]
    dsimp only
    rw [if_neg hmod]

/-- Parsing a rendered three-field line whose type is not `modified`,
with both state variables unassigned: unless the line carries both the
fuzzy and the obsolete mark, a state variable is still unassigned and
the parse raises `NameError`. -/
theorem asc_parse_one_rev3_ne (config : Config)
    (af sp1 : Str) (sp2 : Option Str) (atype atag user : Str) (dt : Nat)
    (dig : Bool) (sl : Nat) (ob fz : Bool)
    (hcolon : fld_sep ∉ af)
    (hsp : splitOnceChar _atag_sep (pyStrip af) = (sp1, sp2))
    (hnone : sp2 = none → pyStrip af = atype ∧ atag = [])
    (hsome : ∀ t, sp2 = some t → pyStrip sp1 = atype ∧ pyStrip t = atag)
    (huser1 : user ∈ config.users) (huser2 : user ≠ []) (huser3 : '|' ∉ user)
    (huser4 : pyStrip user = user)
    (hmod : ¬ atype = ATYPE_MOD)
    (hmarks : ¬ (fz = true ∧ ob = true)) :
    asc_parse_one config (none, none)
      (af ++ fld_sep :: ' ' :: (user ++ " | ".toList ++ natRepr dt ++
        " | ".toList ++ wsepOf dig sl ob fz)) =
    .error "NameError".toList := by
  rw [show (" | ".toList : Str) = [' ', '|', ' '] from rfl]
  have hue : user.isEmpty = false := by
    cases user with
    | nil => exact absurd rfl huser2
    | cons a l => rfl
  have hbar1 : '|' ∉ ' ' :: (user ++ [' ']) := by
    intro h
    rcases List.mem_cons.mp h with h | h
    · exact absurd h (by decide)
    · rcases List.mem_append.mp h with h | h
      · exact huser3 h
      · simp only [List.mem_cons, List.not_mem_nil, or_false] at h
        exact absurd h (by decide)
  have hbar2 : '|' ∉ ' ' :: (natRepr dt ++ [' ']) := by
    intro h
    rcases List.mem_cons.mp h with h | h
    · exact absurd h (by decide)
    · rcases List.mem_append.mp h with h | h
      · exact bar_not_mem_natRepr dt h
      · simp only [List.mem_cons, List.not_mem_nil, or_false] at h
        exact absurd h (by decide)
  have hbar3 : '|' ∉ ' ' :: wsepOf dig sl ob fz := by
    intro h
    rcases List.mem_cons.mp h with h | h
    · exact absurd h (by decide)
    · exact bar_not_mem_wsepOf dig sl ob fz h
  have e1 : ' ' :: (user ++ [' ', '|', ' '] ++ natRepr dt ++ [' ', '|', ' '] ++
      wsepOf dig sl ob fz) =
      (' ' :: (user ++ [' '])) ++ '|' :: ((' ' :: (natRepr dt ++ [' '])) ++
        '|' :: (' ' :: wsepOf dig sl ob fz)) := by
    simp
  have hsplit2 : splitOnChar '|' (' ' :: (user ++ [' ', '|', ' '] ++ natRepr dt ++
      [' ', '|', ' '] ++ wsepOf dig sl ob fz)) =
      [' ' :: (user ++ [' ']), ' ' :: (natRepr dt ++ [' ']),
       ' ' :: wsepOf dig sl ob fz] := by
    rw [e1, splitOnChar_append hbar1, splitOnChar_append hbar2,
        splitOnChar_no_sep hbar3]
  simp only [asc_parse_one]
  rw [findSub_char hcolon]
  dsimp only
  rw [List.take_left, List.drop_append 1, List.drop_one, List.tail_cons]
  rw [hsp]
  dsimp only
  cases sp2 with
  | none =>
    obtain ⟨ha1, ha2⟩ := hnone rfl
    subst ha1
    subst ha2
    dsimp only
    rw [hsplit2]
    dsimp only
    rw [if_neg (by simp)]
    rw [pyStrip_spaced, huser4, hue]
    simp only [Bool.false_eq_true, if_false]
    rw [if_neg (not_not_intro huser1)]
    rw [pyStrip_spaced, pyStrip_of_no_ws (natRepr_no_ws dt)]
    simp only [parse_datetime]
    rw [pyStrip_of_no_ws (natRepr_no_ws dt), strToNatQ_natRepr]
    dsimp only
    rw [if_neg hmod]
    dsimp only
    rw [pyStrip_cons_space, pyStrip_of_no_ws (wsepOf_no_ws dig sl ob fz)]
    rw [wsepOf_contains_fuzz, wsepOf_tmp1, wsepOf_contains_obs, wsepOf_tmp2,
        wsepOf_digits]
    cases dig with
    | false =>
      simp only [Bool.false_eq_true, if_false]
      rw [if_pos (show List.isEmpty ([] : Str) = true from rfl)]
      cases fz with
      | false => cases ob <;> rfl
      | true =>
        cases ob with
        | true => exact absurd ⟨rfl, rfl⟩ hmarks
        | false => rfl
    | true =>
      rw [if_pos rfl, isEmpty_natRepr]
      simp only [Bool.false_eq_true, if_false]
      rw [strToNatQ_natRepr]
      cases fz with
      | false => cases ob <;> rfl
      | true =>
        cases ob with
        | true => exact absurd ⟨rfl, rfl⟩ hmarks
        | false => rfl
  | some t =>
    obtain ⟨ha1, ha2⟩ := hsome t rfl
    subst ha1
    subst ha2
    dsimp only
    rw [hsplit2]
    dsimp only
    rw [if_neg (by simp)]
    rw [pyStrip_spaced, huser4, hue]
    simp only [Bool.false_eq_true, if_false]
    rw [if_neg (not_not_intro huser1)]
    rw [pyStrip_spaced, pyStrip_of_no_ws (natRepr_no_ws dt)]
    simp only [parse_datetime]
    rw [pyStrip_of_no_ws (natRepr_no_ws dt), strToNatQ_natRepr]
    dsimp only
    rw [if_neg hmod]
    dsimp only
    rw [pyStrip_cons_space, pyStrip_of_no_ws (wsepOf_no_ws dig sl ob fz)]
    rw [wsepOf_contains_fuzz, wsepOf_tmp1, wsepOf_contains_obs, wsepOf_tmp2,
        wsepOf_digits]
    cases dig with
    | false =>
      simp only [Bool.false_eq_true, if_false]
      rw [if_pos (show List.isEmpty ([] : Str) = true from rfl)]
      cases fz with
      | false => cases ob <;> rfl
      | true =>
        cases ob with
        | true => exact absurd ⟨rfl, rfl⟩ hmarks
        | false => rfl
    | true =>
      rw [if_pos rfl, isEmpty_natRepr]
      simp only [Bool.false_eq_true, if_false]
      rw [strToNatQ_natRepr]
      cases fz with
      | false => cases ob <;> rfl
      | true =>
        cases ob with
        | true => exact absurd ⟨rfl, rfl⟩ hmarks
        | false => rfl

def c10cfg : Config := ⟨[['u']]⟩

/-- C10: with no preceding modification line, a well-formed review-kind
ascription line makes `asc_parse_go` raise `NameError` — both in the
two-field form and, when the line does not carry both the fuzzy and the
obsolete mark, in the three-field form; and once the state variables are
assigned, a markless two-field review line inherits the current
fuzzy/obsolete state into the parsed tuple. -/
theorem claim_C10 (config : Config) (user : Str) (dt : Nat) (rest : List Str)
    (dig : Bool) (sl : Nat) (ob fz f o : Bool)
    (hu1 : user ∈ config.users) (hu2 : user ≠ []) (hu3 : '|' ∉ user)
    (hu4 : pyStrip user = user) :
    asc_parse_go config
      ((ATYPE_REV ++ fld_sep :: ' ' :: (user ++ " | ".toList ++ natRepr dt)) :: rest)
      (none, none) = .error "NameError".toList ∧
    (¬ (fz = true ∧ ob = true) →
      asc_parse_go config
        ((ATYPE_REV ++ fld_sep :: ' ' :: (user ++ " | ".toList ++ natRepr dt ++
          " | ".toList ++ wsepOf dig sl ob fz)) :: rest)
        (none, none) = .error "NameError".toList) ∧
    asc_parse_one config (some f, some o)
      (ATYPE_REV ++ fld_sep :: ' ' :: (user ++ " | ".toList ++ natRepr dt)) =
    .ok (some ⟨user, ATYPE_REV, [], dt, 0, f, o⟩, (some f, some o)) := by
  refine ⟨?_, ?_, ?_⟩
  · simp only [asc_parse_go]
    rw [asc_parse_one_rev2_ne config ATYPE_REV ATYPE_REV none ATYPE_REV [] user dt
      (by decide) (by decide) (fun _ => ⟨by decide, rfl⟩) (fun t ht => nomatch ht)
      hu1 hu2 hu3 hu4 (by decide)]
  · intro hmarks
    simp only [asc_parse_go]
    rw [asc_parse_one_rev3_ne config ATYPE_REV ATYPE_REV none ATYPE_REV [] user dt
      dig sl ob fz
      (by decide) (by decide) (fun _ => ⟨by decide, rfl⟩) (fun t ht => nomatch ht)
      hu1 hu2 hu3 hu4 (by decide) hmarks]
  · exact asc_parse_one_render2 config (some f, some o) ATYPE_REV ATYPE_REV none
      ATYPE_REV [] user dt f o
      (by decide) (by decide) (fun _ => ⟨by decide, rfl⟩) (fun t ht => nomatch ht)
      hu1 hu2 hu3 hu4 (by rw [if_neg (by decide)])

/-- C10 witness: the hypotheses hold and the conclusion evaluates at a
concrete user, date and mark combination. -/
theorem claim_C10_witness :
    asc_parse_go c10cfg
      ((ATYPE_REV ++ fld_sep :: ' ' :: (['u'] ++ " | ".toList ++ natRepr 1)) :: [])
      (none, none) = .error "NameError".toList ∧
    (¬ (false = true ∧ true = true) →
      asc_parse_go c10cfg
        ((ATYPE_REV ++ fld_sep :: ' ' :: (['u'] ++ " | ".toList ++ natRepr 1 ++
          " | ".toList ++ wsepOf true 1 true false)) :: [])
        (none, none) = .error "NameError".toList) ∧
    asc_parse_one c10cfg (some true, some false)
      (ATYPE_REV ++ fld_sep :: ' ' :: (['u'] ++ " | ".toList ++ natRepr 1)) =
    .ok (some ⟨['u'], ATYPE_REV, [], 1, 0, true, false⟩, (some true, some false)) :=
  claim_C10 c10cfg ['u'] 1 [] true 1 true false true false
    (by decide) (by decide) (by decide) (by decide)

/-- C10 counterexample: a review-kind first line that carries both the
fuzzy and the obsolete mark parses successfully — no `NameError` — so
the failure is not unconditional for review-first records. -/
theorem claim_C10_cex :
    asc_parse_ascriptions c10cfg
      { auto_comment := ["reviewed: u | 1 | fo".toList] } =
    .ok [⟨['u'], ATYPE_REV, [], 1, 0, true, true⟩] := by
  show asc_parse_go c10cfg ["reviewed: u | 1 | fo".toList] (none, none) = _
  simp only [asc_parse_go]
  rw [show asc_parse_one c10cfg (none, none) "reviewed: u | 1 | fo".toList =
    .ok (some ⟨['u'], ATYPE_REV, [], 1, 0, true, true⟩, (some true, some true))
    from by rfl]
  rfl

end Pology
